import Mathlib

/-!
Verification of the SPL generation service
(`apps/backend/app/services/spl_service.py`) against its natural-language
specification.  The Python service is shallowly embedded: pure string
processing becomes executable Lean functions over `String` / `List Char`,
Python floats become `ℚ`, fallible adapter calls (language model, embedder,
vector store) become explicit outcome parameters, and `try`/`except`
becomes `Except` / explicit fallback branches.
-/

set_option maxRecDepth 10000

namespace SplService

/-! ## Basic string utilities mirroring Python semantics -/

/-- Python's `str.lower()` restricted to ASCII (`Char.toLower`). -/
def lowerS (s : String) : String := ⟨s.data.map Char.toLower⟩

/-- `a` is a prefix of `b` (character lists). -/
def isPrefixL : List Char → List Char → Bool
  | [], _ => true
  | _ :: _, [] => false
  | a :: as, b :: bs => a == b && isPrefixL as bs

/-- Python's substring containment on character lists: `needle` occurs in `hay`. -/
def hasSubL : List Char → List Char → Bool
  | n, [] => n.isEmpty
  | n, c :: cs => isPrefixL n (c :: cs) || hasSubL n cs

/-- Python's `needle in hay` substring test. -/
def strHas (hay needle : String) : Bool := hasSubL needle.data hay.data

/-- Python's `s.startswith(p)`. -/
def strStarts (s p : String) : Bool := isPrefixL p.data s.data

/-- Python's `s.endswith(p)`. -/
def strEnds (s p : String) : Bool := isPrefixL p.data.reverse s.data.reverse

/-- The ASCII whitespace characters matched by Python's `\s` and stripped
by `str.strip()`. -/
def isPySpace (c : Char) : Bool :=
  c == ' ' || c == '\t' || c == '\n' || c == '\r' || c == '\x0b' || c == '\x0c'

/-- Python's `str.strip()` on character lists. -/
def pyStripL (l : List Char) : List Char :=
  ((l.dropWhile isPySpace).reverse.dropWhile isPySpace).reverse

/-- Python's `str.strip()`. -/
def pyStrip (s : String) : String := ⟨pyStripL s.data⟩

/-- A word character for Python's `\w` (ASCII): letters, digits, underscore. -/
def isWordChar (c : Char) : Bool :=
  c.isAlpha || c.isDigit || c == '_'

/-- The length of `dropWhile` never exceeds the original length. -/
theorem length_dropWhile_le (p : α → Bool) (l : List α) :
    (l.dropWhile p).length ≤ l.length := by
  induction l with
  | nil => simp [List.dropWhile]
  | cons c cs ih =>
    simp only [List.dropWhile]
    cases p c
    · simp
    · simp only [List.length_cons]
      omega

/-- Fuel-driven worker for `findWordsL`; the fuel dominates the list length
so the recursion is structural and kernel-reducible. -/
def findWordsGo : Nat → List Char → List String
  | 0, _ => []
  | _ + 1, [] => []
  | fuel + 1, c :: cs =>
    if isWordChar c then
      ⟨List.takeWhile isWordChar (c :: cs)⟩ ::
        findWordsGo fuel (List.dropWhile isWordChar cs)
    else
      findWordsGo fuel cs

/-- Python's `re.findall(r"\b\w+\b", s)`: the maximal runs of word
characters, as strings. -/
def findWordsL (l : List Char) : List String := findWordsGo l.length l

/-- Split a character list on every occurrence of character `sep`
(Python's `str.split(sep)` for a one-character separator). -/
def splitOnChar (sep : Char) : List Char → List (List Char)
  | [] => [[]]
  | c :: cs =>
    let rest := splitOnChar sep cs
    if c == sep then [] :: rest
    else
      match rest with
      | [] => [[c]]
      | r :: rs => (c :: r) :: rs

/-! ## Splunk keyword tables (`_initialize_splunk_patterns`) -/

/-- `self.splunk_syntax_keywords`. -/
def splunkSyntaxKeywords : List String :=
  ["index=", "sourcetype=", "source=", "host=", "earliest=", "latest=",
   "| stats", "| table", "| search", "| where", "| fields", "| rename",
   "| eval", "| timechart", "| transaction", "| bucket", "| top",
   "| rare", "| chart", "| dedup", "| rex", "| spath", "| sort",
   "| head", "| tail", "| join", "| lookup", "| mvexpand", "| mvcombine",
   "| outputlookup", "| multikv", "| inputlookup", "| append",
   "| collect", "| datamodel", "| dbinspect", "| metadata", "| savedsearch"]

/-- `self.splunk_domain_keywords`. -/
def splunkDomainKeywords : List String :=
  ["splunk", "spl", "dashboard", "search head", "indexer", "forwarder",
   "knowledge object", "search app", "security essentials", "itsi",
   "enterprise security", "monitoring console", "universal forwarder",
   "heavy forwarder", "deployment server", "search processing language",
   "search job", "event log", "field extraction", "pivot",
   "lookup table", "eventtypes", "tags", "props.conf", "transforms.conf"]

/-- The `security_keywords` list local to `is_splunk_related`. -/
def securityKeywords : List String :=
  ["login", "logon", "authentication", "auth", "failed", "success", "failure",
   "security", "alert", "attack", "intrusion", "breach", "threat",
   "service", "process", "system", "registry", "change", "modification",
   "network", "connection", "traffic", "port", "firewall",
   "event", "log", "audit", "monitor", "detect", "search",
   "user", "account", "access", "permission", "group",
   "ssh", "rdp", "windows", "linux", "server"]

/-- The `time_patterns` list local to `is_splunk_related`. -/
def timePatterns : List String :=
  ["last", "recent", "past", "today", "yesterday", "hour", "day", "week", "month"]

/-! ## `_llm_is_splunk_related` -/

/-- The shape of a successfully parsed LLM intent-classification JSON object
(keys read by the Python code after `json.loads`). -/
structure LlmIntentJson where
  is_splunk_related : Bool
  confidence : ℚ
  deriving DecidableEq, Repr

/-- All indices of `l` at which `pat` occurs as a prefix of the remaining
suffix. -/
def occIdxs (pat l : List Char) : List Nat :=
  (List.range (l.length + 1)).filter (fun i => isPrefixL pat (l.drop i))

/-- Leftmost match of the Python pattern `r"\\{.*\\}"` with `re.S`:
a literal backslash-openbrace, then anything (greedy), then a literal
backslash-closebrace.  Returns the matched text, if any. -/
def matchBackslashBraces (resp : String) : Option (List Char) :=
  match occIdxs ['\\', '{'] resp.data with
  | [] => none
  | i :: _ =>
    match ((occIdxs ['\\', '}'] resp.data).filter (fun j => i + 2 ≤ j)).getLast? with
    | none => none
    | some j => some ((resp.data.drop i).take (j + 2 - i))

/-- Python's `str.replace("'", '"')`. -/
def replaceQuotes (s : String) : String :=
  ⟨s.data.map (fun c => if c == '\'' then '"' else c)⟩

/-- `_llm_is_splunk_related`.  `jsonParse` stands for the external
`json.loads` (its relevant contract is a hypothesis of the theorems);
`reply` is the outcome of `call_model` (`.error` = raised exception).
The query itself only feeds the prompt, which is absorbed into `reply`. -/
def llmIsSplunkRelated (jsonParse : String → Option LlmIntentJson)
    (reply : Except String String) (_query : String) : Bool × ℚ × String :=
  let obj : LlmIntentJson :=
    match reply with
    | .error _ => ⟨false, 0⟩
    | .ok resp =>
      let objStr : String :=
        match matchBackslashBraces resp with
        | some t => ⟨t⟩
        | none => ""
      match jsonParse (replaceQuotes objStr) with
      | some o => o
      | none => ⟨false, 0⟩
  (obj.is_splunk_related, obj.confidence, "llm_intent")

/-! ## `is_splunk_related` -/

/-- `is_splunk_related`.  `embedMax` is the outcome of the anchor-embedding
similarity stage (the maximal cosine similarity, or a raised exception from
the embedder); the result is `Except` because an embedder failure is not
caught inside this function. -/
def isSplunkRelated (jsonParse : String → Option LlmIntentJson)
    (embedMax : Except String ℚ) (llmReply : Except String String)
    (query : String) (embeddingThreshold : ℚ := 30/100) :
    Except String (Bool × ℚ × String) :=
  let q := lowerS query
  if splunkSyntaxKeywords.any (fun k => strHas q k) then
    .ok (true, 95/100, "syntax_match")
  else if splunkDomainKeywords.any (fun k => strHas q k) then
    .ok (true, 88/100, "domain_match")
  else if securityKeywords.any (fun k => strHas q k) then
    .ok (true, 80/100, "security_keyword_match")
  else if timePatterns.any (fun k => strHas q k) then
    .ok (true, 75/100, "time_pattern_match")
  else
    match embedMax with
    | .error e => .error e
    | .ok maxScore =>
      if embeddingThreshold ≤ maxScore then
        .ok (true, maxScore, "embedding_match")
      else
        .ok (llmIsSplunkRelated jsonParse llmReply query)

/-! ## `validate_spl_syntax` -/

/-- Fuel-driven worker splitting on a (non-empty) substring separator,
Python's `str.split(sep)`. -/
def splitOnSubGo : Nat → List Char → List Char → List (List Char)
  | 0, _, l => [l]
  | _ + 1, _, [] => [[]]
  | f + 1, pat, c :: cs =>
    if isPrefixL pat (c :: cs) then
      [] :: splitOnSubGo f pat (List.drop pat.length (c :: cs))
    else
      match splitOnSubGo f pat cs with
      | [] => [[c]]
      | r :: rs => (c :: r) :: rs

/-- Python's `str.split(sep)` for a non-empty separator `pat`. -/
def splitOnSub (pat l : List Char) : List (List Char) := splitOnSubGo l.length pat l

/-- `validate_spl_syntax`.  Faithful to the source, which splits on the
literal two-character sequence backslash-`n` (the Python source reads
`spl_query.split('\\n')`, i.e. the separator is `\` followed by `n`,
not the newline character). -/
def validateSplSyntax (splQuery : String) : List String :=
  let lines := splitOnSub ['\\', 'n'] splQuery.data
  let indexIssue : List String :=
    if !strHas splQuery "index=" && !hasSubL "| ".data (lines.headD []) then
      ["Query should specify an index (e.g., index=main)"]
    else []
  let pipeIssues : List String :=
    lines.enum.filterMap (fun p =>
      let ls := pyStripL p.2
      if p.1 > 0 && !ls.isEmpty && !isPrefixL ['|'] ls && !isPrefixL ['#'] ls then
        some ("Line " ++ toString (p.1 + 1) ++ ": missing pipe |")
      else none)
  let eqIssue : List String :=
    if strHas splQuery "=" && strHas splQuery " = " then
      ["Use = without spaces for field assignments"]
    else []
  indexIssue ++ pipeIssues ++ eqIssue

/-! ## `_clean_spl_output` -/

/-- After an opening triple-backtick of the first fence pattern
(`` ```(?:spl|splunk)?\n? ``): the alternation tries `spl` first (so it
never consumes the full `splunk`), then an optional newline. -/
def fenceTail1 (cs : List Char) : List Char :=
  let cs1 := if isPrefixL ['s', 'p', 'l'] cs then cs.drop 3 else cs
  match cs1 with
  | '\n' :: rest => rest
  | _ => cs1

/-- `re.sub(r'```(?:spl|splunk)?\n?', '', s)` (fuel-driven scanner). -/
def subFence1Go : Nat → List Char → List Char
  | 0, l => l
  | _ + 1, [] => []
  | f + 1, c :: cs =>
    if isPrefixL ['`', '`', '`'] (c :: cs) then
      subFence1Go f (fenceTail1 (cs.drop 2))
    else c :: subFence1Go f cs

/-- `re.sub(r'```\n?', '', s)` (fuel-driven scanner). -/
def subFence2Go : Nat → List Char → List Char
  | 0, l => l
  | _ + 1, [] => []
  | f + 1, c :: cs =>
    if isPrefixL ['`', '`', '`'] (c :: cs) then
      subFence2Go f
        (match cs.drop 2 with
         | '\n' :: rest => rest
         | x => x)
    else c :: subFence2Go f cs

/-- Attempt to match `\s*\|\s*` at the head of `l`; on success return the
remainder after the match. -/
def matchPipeAt (l : List Char) : Option (List Char) :=
  match List.dropWhile isPySpace l with
  | '|' :: rs => some (List.dropWhile isPySpace rs)
  | _ => none

/-- `re.sub(r'\s*\|\s*', ' | ', s)` (fuel-driven leftmost scanner). -/
def subPipeGo : Nat → List Char → List Char
  | 0, l => l
  | _ + 1, [] => []
  | f + 1, c :: cs =>
    match matchPipeAt (c :: cs) with
    | some rest => ' ' :: '|' :: ' ' :: subPipeGo f rest
    | none => c :: subPipeGo f cs

/-- Attempt to match `\s*=\s*` at the head of `l`. -/
def matchEqAt (l : List Char) : Option (List Char) :=
  match List.dropWhile isPySpace l with
  | '=' :: rs => some (List.dropWhile isPySpace rs)
  | _ => none

/-- `re.sub(r'\s*=\s*', '=', s)` (fuel-driven leftmost scanner). -/
def subEqGo : Nat → List Char → List Char
  | 0, l => l
  | _ + 1, [] => []
  | f + 1, c :: cs =>
    match matchEqAt (c :: cs) with
    | some rest => '=' :: subEqGo f rest
    | none => c :: subEqGo f cs

/-- Case-insensitive `limit` prefix: on success return the remainder. -/
def stripLimitCI : List Char → Option (List Char)
  | a :: b :: c :: d :: e :: rest =>
    if a.toLower == 'l' && b.toLower == 'i' && c.toLower == 'm' &&
       d.toLower == 'i' && e.toLower == 't' then some rest else none
  | _ => none

/-- Attempt to match `\s*limit\s+(\d+)` right after a pipe; returns the
captured digit group and the remainder. -/
def matchAfterPipe (cs : List Char) : Option (List Char × List Char) :=
  match stripLimitCI (List.dropWhile isPySpace cs) with
  | none => none
  | some s2 =>
    if (List.takeWhile isPySpace s2).isEmpty then none
    else if (List.takeWhile Char.isDigit (List.dropWhile isPySpace s2)).isEmpty then none
    else some (List.takeWhile Char.isDigit (List.dropWhile isPySpace s2),
               List.dropWhile Char.isDigit (List.dropWhile isPySpace s2))

/-- Attempt to match `\|\s*limit\s+(\d+)` (case-insensitive) at the head. -/
def matchLimitAt (l : List Char) : Option (List Char × List Char) :=
  match l with
  | '|' :: cs => matchAfterPipe cs
  | _ => none

/-- `re.sub(r'\|\s*limit\s+(\d+)', r'| head \1', s, flags=re.IGNORECASE)`
(fuel-driven leftmost scanner). -/
def subLimitGo : Nat → List Char → List Char
  | 0, l => l
  | _ + 1, [] => []
  | f + 1, c :: cs =>
    match matchLimitAt (c :: cs) with
    | some (digits, rest) =>
      '|' :: ' ' :: 'h' :: 'e' :: 'a' :: 'd' :: ' ' :: (digits ++ subLimitGo f rest)
    | none => c :: subLimitGo f cs

/-- `subFence1Go` at adequate fuel. -/
def subFence1 (l : List Char) : List Char := subFence1Go l.length l

/-- `subFence2Go` at adequate fuel. -/
def subFence2 (l : List Char) : List Char := subFence2Go l.length l

/-- `subPipeGo` at adequate fuel. -/
def subPipe (l : List Char) : List Char := subPipeGo l.length l

/-- `subEqGo` at adequate fuel. -/
def subEq (l : List Char) : List Char := subEqGo l.length l

/-- `subLimitGo` at adequate fuel. -/
def subLimit (l : List Char) : List Char := subLimitGo l.length l

/-- The fixed explanatory-line markers dropped by `_clean_spl_output`. -/
def proseStarts : List String :=
  ["This query", "The above", "Note:", "Explanation:", "This SPL", "Generated", "**"]

/-- A (stripped) line is dropped when it starts with a prose marker or is
empty. -/
def isProseOrEmpty (line : List Char) : Bool :=
  proseStarts.any (fun p => isPrefixL p.data line) || line.isEmpty

/-- Split on newline, strip each line, and drop prose/empty lines. -/
def cleanSplLines (l : List Char) : List (List Char) :=
  (splitOnChar '\n' l).filterMap (fun line =>
    let ls := pyStripL line
    if isProseOrEmpty ls then none else some ls)

/-- Re-join cleaned lines: with more than one line, continuation lines
starting with `|` go on a new line, all others are appended inline. -/
def joinClean (ls : List (List Char)) : List Char :=
  match ls with
  | [] => []
  | [l] => l
  | l :: rest =>
    rest.foldl (fun acc line =>
      if isPrefixL ['|'] (pyStripL line) then acc ++ '\n' :: line
      else acc ++ ' ' :: line) l

/-- `_clean_spl_output`: fence removal, strip, pipe/assignment whitespace
normalization, prose-line dropping and re-joining, strip, and rewriting of
the deprecated `| limit N` to `| head N`. -/
def cleanSplOutput (s : String) : String :=
  ⟨subLimit (pyStripL (joinClean (cleanSplLines
      (subEq (subPipe (pyStripL (subFence2 (subFence1 s.data))))))))⟩

/-- Does the deprecated pattern `\|\s*limit\s+\d` still occur anywhere? -/
def hasLimitMatch : List Char → Bool
  | [] => false
  | c :: cs => (matchLimitAt (c :: cs)).isSome || hasLimitMatch cs

/-! ### Normal forms of `_clean_spl_output` (idempotence analysis) -/

/-- Does the string begin with one of the explanatory-line markers that the
line filter of `_clean_spl_output` drops? -/
def proseInitial (l : List Char) : Bool :=
  proseStarts.any (fun p => isPrefixL p.data l)

/-- Right-hand side of Python's `str.strip()` (structural form). -/
def stripR : List Char → List Char
  | [] => []
  | c :: t =>
    match stripR t with
    | [] => if isPySpace c then [] else [c]
    | d :: r => c :: d :: r

/-- A character that the pipe/assignment normalizers treat as inert:
neither whitespace nor `|` nor `=`. -/
def plainC (c : Char) : Prop :=
  isPySpace c = false ∧ c ≠ '|' ∧ c ≠ '='

/-- Non-newline whitespace. -/
def wsC (c : Char) : Prop :=
  isPySpace c = true ∧ c ≠ '\n'

instance (c : Char) : Decidable (plainC c) := by unfold plainC; infer_instance

instance (c : Char) : Decidable (wsC c) := by unfold wsC; infer_instance

/-- Scanner states for the normal-form grammar of cleaned output: `E` =
at the start of the string or just after `=`; `A` = after an inert
character; `W` = inside an interior whitespace run; `P` = just after `|`. -/
inductive GSt where
  | E | A | W | P
  deriving DecidableEq, Repr

/-- The normal forms of `_clean_spl_output`: single-line strings whose `|`
and `=` occurrences carry exactly the spacing that the pipe and assignment
normalizers produce. -/
inductive Gr : GSt → List Char → Prop where
  | nilE : Gr .E []
  | nilA : Gr .A []
  | nilP : Gr .P []
  | plainE {c t} : plainC c → Gr .A t → Gr .E (c :: t)
  | eqE {t} : Gr .E t → Gr .E ('=' :: t)
  | pipeE {t} : Gr .P t → Gr .E ('|' :: t)
  | plainA {c t} : plainC c → Gr .A t → Gr .A (c :: t)
  | eqA {t} : Gr .E t → Gr .A ('=' :: t)
  | pipeA {t} : Gr .P t → Gr .A (' ' :: '|' :: t)
  | wsA {w t} : wsC w → Gr .W t → Gr .A (w :: t)
  | plainW {c t} : plainC c → Gr .A t → Gr .W (c :: t)
  | wsW {w t} : wsC w → Gr .W t → Gr .W (w :: t)
  | eqP {t} : Gr .E t → Gr .P ('=' :: t)
  | spP {c t} : plainC c → Gr .A t → Gr .P (' ' :: c :: t)
  | chainP {t} : Gr .P t → Gr .P (' ' :: ' ' :: '|' :: t)

/-- Scanner states for the shape of `subPipe` output on stripped input
(`=` is unconstrained at this stage; runs may contain newlines). -/
inductive PSt where
  | pA | pW | pPost
  deriving DecidableEq, Repr

/-- Shape of the output of the pipe normalizer: every `|` sits inside an
inserted ` | `, and no whitespace run leads into a `|`. -/
inductive Gp : PSt → List Char → Prop where
  | nilA : Gp .pA []
  | nilPost : Gp .pPost []
  | plainA {c t} : isPySpace c = false → c ≠ '|' → Gp .pA t → Gp .pA (c :: t)
  | pipeA {t} : Gp .pPost t → Gp .pA (' ' :: '|' :: ' ' :: t)
  | wsA {w t} : isPySpace w = true → Gp .pW t → Gp .pA (w :: t)
  | plainW {c t} : isPySpace c = false → c ≠ '|' → Gp .pA t → Gp .pW (c :: t)
  | wsW {w t} : isPySpace w = true → Gp .pW t → Gp .pW (w :: t)
  | plainPost {c t} : isPySpace c = false → c ≠ '|' → Gp .pA t → Gp .pPost (c :: t)
  | pipePost {t} : Gp .pPost t → Gp .pPost (' ' :: '|' :: ' ' :: t)

/-- Scanner states for the shape of `subEq (subPipe ...)` output. -/
inductive QSt where
  | qE | qA | qW | qP | qPost
  deriving DecidableEq, Repr

/-- Shape of the output of the assignment normalizer applied after the pipe
normalizer: like `Gr`, but whitespace runs may still contain newlines and
the string edges may carry whitespace produced by the ` | ` insertions. -/
inductive Gq : QSt → List Char → Prop where
  | nilE : Gq .qE []
  | nilA : Gq .qA []
  | nilPost : Gq .qPost []
  | plainE {c t} : plainC c → Gq .qA t → Gq .qE (c :: t)
  | eqE {t} : Gq .qE t → Gq .qE ('=' :: t)
  | pipeE {t} : Gq .qP t → Gq .qE ('|' :: t)
  | plainA {c t} : plainC c → Gq .qA t → Gq .qA (c :: t)
  | eqA {t} : Gq .qE t → Gq .qA ('=' :: t)
  | pipeA {t} : Gq .qP t → Gq .qA (' ' :: '|' :: t)
  | wsA {w t} : isPySpace w = true → Gq .qW t → Gq .qA (w :: t)
  | plainW {c t} : plainC c → Gq .qA t → Gq .qW (c :: t)
  | wsW {w t} : isPySpace w = true → Gq .qW t → Gq .qW (w :: t)
  | eqP {t} : Gq .qE t → Gq .qP ('=' :: t)
  | spP {t} : Gq .qPost t → Gq .qP (' ' :: t)
  | plainPost {c t} : plainC c → Gq .qA t → Gq .qPost (c :: t)
  | chainPost {t} : Gq .qP t → Gq .qPost (' ' :: '|' :: t)

/-- Append the trailing space that the pipe normalizer re-creates after a
final `|`. -/
def padTail (l : List Char) : List Char :=
  if l.getLast? = some '|' then l ++ [' '] else l

/-- The triple-backtick fence opener. -/
def fence3 : List Char := ['`', '`', '`']

/-- No triple backtick occurs anywhere in the string. -/
def noTriple (l : List Char) : Prop := hasSubL fence3 l = false

/-- Length of the leading backtick run. -/
def tickLen (l : List Char) : Nat := (l.takeWhile (fun c => c == '`')).length

/-- All lines after the first in the split of a `Gq`-shaped string: each is
either dropped by the line filter (strips to empty) or strips to a normal
form with an inert first character; a line followed by further lines never
ends (after stripping) with `=`. -/
def TailOK : List (List Char) → Prop
  | [] => True
  | l :: ls =>
    (pyStripL l = [] ∨ ∃ c r, pyStripL l = c :: r ∧ plainC c ∧ Gr .E (c :: r)) ∧
    (ls ≠ [] → ∀ x, (stripR l).getLast? = some x → x ≠ '=') ∧ TailOK ls

/-- The lines kept by the line filter, after the first: each is a non-empty
normal form that starts with an inert character, and (when further kept
lines follow) does not end with `=`. -/
def KeptOK : List (List Char) → Prop
  | [] => True
  | l :: ls =>
    (∃ c r, l = c :: r ∧ plainC c ∧ Gr .E l ∧
      (ls ≠ [] → ∀ x, l.getLast? = some x → x ≠ '=')) ∧ KeptOK ls

/-! ## Data model (`index-sourcetype.json` entries and company contexts) -/

/-- A catalog entry as loaded from `index-sourcetype.json` (well-formed:
every field present, as in the shipped catalog and the default entry). -/
structure Company where
  company_name : String
  product_name : String
  index : String
  sourcetype : String
  domain : String
  use_cases : String
  data_model : List String
  deriving DecidableEq, Repr

/-- A company-context record as produced by the selection strategies of
`_pick_best_company` (Python dicts; keys absent in some producers are
modelled by their read-side defaults: `is_cross_company` and
`explicit_company` default to `False`). -/
structure CompanyCtx where
  company_name : String
  product_name : String
  index : Option String
  sourcetype : Option String
  data_model : List String
  confidence_score : ℚ
  method : String
  company_index : Int
  is_cross_company : Bool := false
  explicit_company : Bool := false
  deriving DecidableEq, Repr

/-! ## `_detect_platform_context` -/

/-- Fields read from a parsed platform-detection JSON object. -/
structure PlatformJson where
  primary_platform : String
  confidence : ℚ
  deriving DecidableEq, Repr

/-- The result record of `_detect_platform_context` (reasoning/indicator
strings are never read downstream and are omitted). -/
structure PlatformCtx where
  platform : String
  confidence : ℚ
  deriving DecidableEq, Repr

/-- `windows_signals` of the keyword fallback. -/
def windowsSignals : List String := ["defender", "powershell", "registry", "eventcode", "c:\\"]

/-- `linux_signals` of the keyword fallback. -/
def linuxSignals : List String := ["sudo", "/etc/", "/var/", "systemctl", "bash"]

/-- `_detect_platform_context`.  `llm = some r` when the model call
succeeded and a JSON object was extracted and parsed; `none` when the call
raised, no object was found, or parsing failed (all of which reach the
keyword fallback). -/
def detectPlatformContext (queryText : String) (llm : Option PlatformJson) :
    PlatformCtx :=
  match llm with
  | some r => { platform := r.primary_platform, confidence := r.confidence }
  | none =>
    let ql := lowerS queryText
    let winScore := (windowsSignals.filter (fun s => strHas ql s)).length
    let linuxScore := (linuxSignals.filter (fun s => strHas ql s)).length
    if winScore > linuxScore then { platform := "windows", confidence := 7/10 }
    else if linuxScore > winScore then { platform := "linux", confidence := 7/10 }
    else { platform := "unknown", confidence := 3/10 }

/-! ## `_dynamic_keyword_company_matching` -/

/-- First maximal element (Python `max` keeps the first of equal keys). -/
def firstMaxBy (f : α → ℚ) : List α → Option α
  | [] => none
  | x :: xs => some (xs.foldl (fun acc y => if f y > f acc then y else acc) x)

/-- The direct-match record built when a company name occurs verbatim. -/
def mkDirectMatch (c : Company) (i : Nat) (hasWin hasLin : Bool) : CompanyCtx :=
  let productLower := lowerS c.product_name
  let conf : ℚ :=
    if hasLin && strHas productLower "linux" then 98/100
    else if hasWin && strHas productLower "win" then 98/100
    else if !hasLin && strHas productLower "win" then 96/100
    else 95/100
  { company_name := c.company_name, product_name := c.product_name,
    index := some c.index, sourcetype := some c.sourcetype,
    data_model := c.data_model, confidence_score := conf,
    method := "company_name_direct_match", company_index := (i : Int),
    explicit_company := true }

/-- The weighted keyword-overlap score of the context fallback:
`inter * 0.3 + freq * 0.4 + domain_match * 0.3`. -/
def keywordScore (words : List String) (c : Company) : ℚ :=
  let text := lowerS (c.company_name ++ " " ++ c.product_name ++ " " ++ c.domain ++ " " ++
    c.use_cases ++ " " ++ c.index ++ " " ++ c.sourcetype)
  let tokens := findWordsL text.data
  let inter : ℚ := ((words.dedup).filter (fun w => tokens.contains w)).length
  let freq : ℚ := ((words.filter (fun w => tokens.contains w)).length : ℚ) /
    (if words.length = 0 then 1 else (words.length : ℚ))
  let domainTokens := (findWordsL (lowerS (c.domain ++ " " ++ c.use_cases)).data).dedup
  let domainMatch : ℚ := (((words.dedup).filter (fun w => domainTokens.contains w)).length : ℚ) /
    (if domainTokens.length = 0 then 1 else (domainTokens.length : ℚ))
  inter * (3/10) + freq * (4/10) + domainMatch * (3/10)

/-- The record of the keyword-scoring fallback path. -/
def mkScoreCtx (c : Company) (i : Nat) (score : ℚ) : CompanyCtx :=
  { company_name := c.company_name, product_name := c.product_name,
    index := some c.index, sourcetype := some c.sourcetype,
    data_model := c.data_model, confidence_score := score,
    method := "context_keyword_match", company_index := (i : Int) }

/-- The ultimate fallback record of `_dynamic_keyword_company_matching`
(first catalog entry at confidence 0.1). -/
def mkDynDefault (c : Company) : CompanyCtx :=
  { company_name := c.company_name, product_name := c.product_name,
    index := some c.index, sourcetype := some c.sourcetype,
    data_model := c.data_model, confidence_score := 1/10,
    method := "default_fallback", company_index := 0 }

/-- `_dynamic_keyword_company_matching` (total for a non-empty catalog;
the `none` result models the `data[0]` lookup of an empty catalog, which
the caller rules out). -/
def dynamicKeywordMatching (data : List Company) (userQuery : String)
    (platLLM : Option PlatformJson) : Option CompanyCtx :=
  let ql := lowerS userQuery
  let words := (findWordsL ql.data).filter (fun w => w.length > 2)
  let pc := detectPlatformContext userQuery platLLM
  let hasWin := pc.platform == "windows"
  let hasLin := pc.platform == "linux"
  let bestMatches := data.enum.filterMap (fun p =>
    if strHas ql (lowerS p.2.company_name) then
      some (mkDirectMatch p.2 p.1 hasWin hasLin)
    else none)
  match firstMaxBy (·.confidence_score) bestMatches with
  | some bm => some bm
  | none =>
    let scores := data.enum.map (fun p => (p.2, p.1, keywordScore words p.2))
    match firstMaxBy (fun p => p.2.2) scores with
    | some (c, i, score) => some (mkScoreCtx c i score)
    | none => (data.head?).map mkDynDefault

/-! ## `_detect_cross_company_queries` -/

/-- Fields read from a parsed cross-company JSON object. -/
structure CrossJson where
  is_cross_company : Bool
  confidence : ℚ
  deriving DecidableEq, Repr

/-- The cross-company context record (both the LLM-accepted and the
pattern-fallback variants differ only in confidence and method). -/
def crossCompanyCtx (conf : ℚ) (method : String) : CompanyCtx :=
  { company_name := "All Companies", product_name := "Cross-Company Analysis",
    index := some "*", sourcetype := none, data_model := [],
    confidence_score := conf, method := method, company_index := -1,
    is_cross_company := true }

/-- The `obvious_patterns` of the pattern-matching fallback. -/
def obviousPatterns : List String :=
  ["all companies", "all organizations", "enterprise-wide", "organization-wide",
   "across all companies", "across all organizations", "targeting all organizations"]

/-- `_detect_cross_company_queries`.  `llm = some r` when the model reply
yielded an extractable, parseable JSON object; `none` when the model call
raised, no JSON object was found in the reply, or parsing raised — all of
which fall through to the pattern-matching fallback. -/
def detectCrossCompanyQueries (data : List Company) (userQuery : String)
    (llm : Option CrossJson) : Option CompanyCtx :=
  match llm with
  | some r =>
    if data.any (fun c => strHas (lowerS userQuery) (lowerS c.company_name)) then
      none
    else if r.is_cross_company && r.confidence ≥ 8/10 then
      some (crossCompanyCtx r.confidence "llm_cross_company_detection")
    else none
  | none =>
    if obviousPatterns.any (fun p => strHas (lowerS userQuery) p) then
      some (crossCompanyCtx (90/100) "fallback_pattern_detection")
    else none

/-! ## `_detect_generic_queries` -/

/-- A miniature regular expression sufficient for the seven
`generic_patterns`: literal text, `\s+`, `.*` (no newline), an alternation
of literals, and an optional character.  Trailing optional characters at
the very end of a pattern (e.g. `s?` in `attempts?`) never affect
matchability and alternations of literals with such a trailing optional
are encoded by their common stems. -/
inductive RE where
  | lit : List Char → RE
  | wsPlus : RE
  | dotStar : RE
  | alt : List (List Char) → RE
  | optChar : Char → RE
  deriving Repr

/-- Fuel-driven backtracking matcher: does the RE sequence match a prefix
of `s`? -/
def reMatchGo : Nat → List RE → List Char → Bool
  | 0, _, _ => false
  | _ + 1, [], _ => true
  | f + 1, .lit p :: res, s => isPrefixL p s && reMatchGo f res (s.drop p.length)
  | f + 1, .optChar c :: res, s =>
    (match s with
     | c' :: cs => (c' == c && reMatchGo f res cs) || reMatchGo f res s
     | [] => reMatchGo f res s)
  | f + 1, .alt ps :: res, s =>
    ps.any (fun p => isPrefixL p s && reMatchGo f res (s.drop p.length))
  | f + 1, .wsPlus :: res, s =>
    (match s with
     | c :: cs => isPySpace c && (reMatchGo f res cs || reMatchGo f (.wsPlus :: res) cs)
     | [] => false)
  | f + 1, .dotStar :: res, s =>
    reMatchGo f res s ||
    (match s with
     | c :: cs => !(c == '\n') && reMatchGo f (.dotStar :: res) cs
     | [] => false)

/-- `re.search`: try the pattern at every start position. -/
def reSearch (res : List RE) (s : String) : Bool :=
  (List.range (s.data.length + 1)).any (fun i =>
    reMatchGo (res.length + s.data.length + 1) res (s.data.drop i))

/-- The seven `generic_patterns` regexes. -/
def genericPatterns : List (List RE) :=
  [[.lit "monitor".data, .wsPlus, .dotStar, .wsPlus,
    .alt ["on".data, "across".data, "from".data], .wsPlus, .dotStar,
    .lit "server".data, .optChar 's'],
   [.lit "show".data, .wsPlus, .dotStar, .wsPlus,
    .alt ["login".data, "authentication".data, "access".data], .wsPlus,
    .lit "attempt".data, .optChar 's'],
   [.lit "find".data, .wsPlus, .dotStar, .wsPlus,
    .alt ["suspicious".data, "malicious".data, "unusual".data], .wsPlus],
   [.lit "detect".data, .wsPlus, .dotStar, .wsPlus,
    .alt ["attack".data, "intrusion".data, "threat".data]],
   [.lit "analyze".data, .wsPlus, .dotStar, .wsPlus,
    .alt ["pattern".data, "trend".data, "behavior".data]],
   [.lit "track".data, .wsPlus, .dotStar, .wsPlus,
    .alt ["change".data, "modification".data]],
   [.lit "identify".data, .wsPlus, .dotStar, .wsPlus,
    .alt ["system".data, "host".data, "user".data], .optChar 's', .wsPlus,
    .lit "with".data]]

/-- The `enterprise_indicators` list. -/
def enterpriseIndicators : List String :=
  ["servers", "systems", "hosts", "machines", "devices", "endpoints"]

/-- `_detect_generic_queries`. -/
def detectGenericQueries (data : List Company) (userQuery : String) :
    Option CompanyCtx :=
  let ql := lowerS userQuery
  if data.any (fun c => strHas ql ("for " ++ lowerS c.company_name)) then none
  else if genericPatterns.any (fun p => reSearch p ql) then
    if enterpriseIndicators.any (fun ind => strHas ql ind) then
      some { company_name := "All Companies",
             product_name := "Cross-Company Analysis",
             index := some "*", sourcetype := none, data_model := [],
             confidence_score := 75/100,
             method := "generic_cross_company_suggestion",
             company_index := -1, is_cross_company := true }
    else none
  else none

/-! ## `_pick_best_company` -/

/-- Fields read from a parsed whole-catalog analysis JSON object. -/
structure AnalysisJson where
  selected_company_index : Int
  confidence_score : ℚ
  explicit_company_mentioned : Bool
  deriving DecidableEq, Repr

/-- `_llm_analyze_company_context_advanced`.  `llm = some r` when a JSON
object was parsed from the model reply; `none` covers a raised call, a
missing JSON object, or a parse failure (all yield the fixed fallback
object).  The result is `none` only for an empty catalog (the `data[idx]`
lookup Python would raise on, caught by the caller). -/
def llmAnalyzeCompanyAdvanced (data : List Company)
    (llm : Option AnalysisJson) : Option CompanyCtx :=
  let obj : AnalysisJson :=
    match llm with
    | some r => r
    | none => { selected_company_index := 0, confidence_score := 3/10,
                explicit_company_mentioned := false }
  let idx : Int :=
    if 0 ≤ obj.selected_company_index ∧ obj.selected_company_index < data.length then
      obj.selected_company_index
    else 0
  match data.get? idx.toNat with
  | none => none
  | some c =>
    let confidence :=
      if obj.explicit_company_mentioned then max (9/10) obj.confidence_score
      else obj.confidence_score
    some { company_name := c.company_name, product_name := c.product_name,
           index := some c.index, sourcetype := some c.sourcetype,
           data_model := c.data_model, confidence_score := confidence,
           explicit_company := obj.explicit_company_mentioned,
           method := "llm_analysis", company_index := idx }

/-- `_semantic_company_matching`: `np.argmax` over the per-company cosine
similarities (first index of the maximum).  `none` only for an empty
catalog (caught by the caller). -/
def semanticCompanyMatching (data : List Company) (sims : List ℚ) :
    Option CompanyCtx :=
  match firstMaxBy (fun p => p.2.2) ((data.zip sims).enum.map (fun p => (p.2.1, p.1, p.2.2))) with
  | none => none
  | some (c, i, sim) =>
    some { company_name := c.company_name, product_name := c.product_name,
           index := some c.index, sourcetype := some c.sourcetype,
           data_model := c.data_model, confidence_score := sim,
           method := "semantic_matching", company_index := (i : Int) }

/-- The adapter-call outcomes consumed by one `_pick_best_company` run. -/
structure PickOracles where
  platformLLM : Option PlatformJson
  crossLLM : Option CrossJson
  analysisLLM : Option AnalysisJson
  semanticSims : Except String (List ℚ)

/-- The default fallback of `_pick_best_company` when no candidate exists
(first catalog entry at confidence 0.3). -/
def pickDefaultFallback (c : Company) : CompanyCtx :=
  { company_name := c.company_name, product_name := c.product_name,
    index := some c.index, sourcetype := some c.sourcetype,
    data_model := c.data_model, confidence_score := 3/10,
    method := "default_fallback", company_index := 0 }

/-- The synthetic context returned for an empty catalog. -/
def emptyCatalogCtx : CompanyCtx :=
  { company_name := "Default", product_name := "System", index := some "main",
    sourcetype := some "*", data_model := [], confidence_score := 5/10,
    method := "fallback", company_index := 0 }

/-- `_pick_best_company`: priority chain (direct/platform match, then
cross-company detection, then generic detection, then arbitration of the
dynamic / LLM-analysis / semantic candidates by maximal confidence). -/
def pickBestCompany (data : List Company) (userQuery : String)
    (o : PickOracles) : CompanyCtx :=
  match data with
  | [] => emptyCatalogCtx
  | c0 :: _ =>
    let dynOpt := dynamicKeywordMatching data userQuery o.platformLLM
    match dynOpt with
    | none => emptyCatalogCtx
    | some dyn =>
      if dyn.method == "company_name_direct_match" || dyn.method == "platform_match" then
        dyn
      else
        match detectCrossCompanyQueries data userQuery o.crossLLM with
        | some cross => cross
        | none =>
          match detectGenericQueries data userQuery with
          | some gen => gen
          | none =>
            match llmAnalyzeCompanyAdvanced data o.analysisLLM with
            | some llmRes =>
              if llmRes.explicit_company then llmRes
              else
                let semList :=
                  match o.semanticSims with
                  | .ok sims => (semanticCompanyMatching data sims).toList
                  | .error _ => []
                match firstMaxBy (·.confidence_score) ([dyn, llmRes] ++ semList) with
                | some best => best
                | none => pickDefaultFallback c0
            | none =>
              let semList :=
                match o.semanticSims with
                | .ok sims => (semanticCompanyMatching data sims).toList
                | .error _ => []
              match firstMaxBy (·.confidence_score) ([dyn] ++ semList) with
              | some best => best
              | none => pickDefaultFallback c0

/-! ## QA exemplars and `_get_most_relevant_qa_examples` -/

/-- A question/answer exemplar from `qa_pairs-normal.json`. -/
structure QA where
  question : String
  answer : String
  deriving DecidableEq, Repr

/-- Stable descending insertion (an index/similarity pair goes after all
entries with similarity ≥ its own), modelling `np.argsort(-sims)`. -/
def insertDesc (p : Nat × ℚ) : List (Nat × ℚ) → List (Nat × ℚ)
  | [] => [p]
  | q :: qs => if p.2 > q.2 then p :: q :: qs else q :: insertDesc p qs

/-- `_get_most_relevant_qa_examples` given the per-valid-exemplar cosine
similarities `sims` produced by the embedder. -/
def getMostRelevantQaExamples (qaPairs : List QA) (sims : List ℚ) (k : Nat) :
    List QA :=
  let valid := qaPairs.filter (fun qa => !(qa.question == "") && !(qa.answer == ""))
  if valid.isEmpty then []
  else
    let order := (sims.enum.foldl (fun acc p => insertDesc p acc) []).map (·.1)
    (order.take k).filterMap (fun i => valid.get? i)

/-! ## `_generate_unified_spl_query` -/

/-- The validated scope/format context. -/
structure ValidatedCtx where
  index : String
  sourcetype_clause : String
  needs_company_extraction : Bool
  deriving DecidableEq, Repr

/-- The cross-company sourcetype clause. -/
def crossSourcetypes : String :=
  "(sourcetype=WinEventLog OR sourcetype=linux_secure OR sourcetype=syslog OR sourcetype=linux_syslog)"

/-- `_validate_company_context` (closure over `is_cross_company` and
`self.company_data`).  `getD` mirrors the `dict.get` defaults; in every
reachable context the keys are present. -/
def validateCompanyContext (selfData : List Company) (isCross : Bool)
    (companyInfo : CompanyCtx) : ValidatedCtx :=
  let index := companyInfo.index.getD "main"
  let sourcetype := companyInfo.sourcetype.getD "WinEventLog"
  let companyName := companyInfo.company_name
  if isCross || index == "*" then
    { index := "*", sourcetype_clause := crossSourcetypes,
      needs_company_extraction := true }
  else if !strEnds index "_win" && !strEnds index "_linux" then
    match selfData.find? (fun cd => lowerS cd.company_name == lowerS companyName) with
    | some cd =>
      { index := cd.index, sourcetype_clause := "sourcetype=" ++ cd.sourcetype,
        needs_company_extraction := false }
    | none =>
      { index := companyName ++ "_win", sourcetype_clause := "sourcetype=WinEventLog",
        needs_company_extraction := false }
  else
    { index := index, sourcetype_clause := "sourcetype=" ++ sourcetype,
      needs_company_extraction := false }

/-- Python's `str.replace(pat, rep)` (non-overlapping, left to right),
fuel-driven; `pat` non-empty in every use. -/
def replaceSubGo : Nat → List Char → List Char → List Char → List Char
  | 0, _, _, l => l
  | _ + 1, _, _, [] => []
  | f + 1, pat, rep, c :: cs =>
    if isPrefixL pat (c :: cs) then
      rep ++ replaceSubGo f pat rep (List.drop pat.length (c :: cs))
    else c :: replaceSubGo f pat rep cs

/-- `replaceSubGo` at adequate fuel. -/
def replaceSub (pat rep l : List Char) : List Char := replaceSubGo l.length pat rep l

/-- Python's `s.split(sep, 1)` for a one-character separator: the part
before the first occurrence and the part after, if any. -/
def breakAtChar (sep : Char) : List Char → Option (List Char × List Char)
  | [] => none
  | c :: cs =>
    if c == sep then some ([], cs)
    else (breakAtChar sep cs).map (fun p => (c :: p.1, p.2))

/-- Python's `s.split(pat)[-1]`: the text after the last occurrence. -/
def afterLastSub (pat l : List Char) : List Char := (splitOnSub pat l).getLastD l

/-- `'\n'.join(lines)`. -/
def joinNL : List (List Char) → List Char
  | [] => []
  | [l] => l
  | l :: ls => l ++ '\n' :: joinNL ls

/-- The remainder after the first occurrence of `pat`, if any. -/
def afterFirstSub (pat : List Char) : List Char → Option (List Char)
  | [] => none
  | c :: cs =>
    if isPrefixL pat (c :: cs) then some (List.drop pat.length (c :: cs))
    else afterFirstSub pat cs

/-- The code-fence extraction `re.search` of the pattern
`` ```(?:spl|splunk)?\s*(.*?)\s*``` `` with `re.S`, plus the trailing
`.strip()`: from the first triple backtick, an optional `spl` tag (the
alternation tries `spl` first, so the full `splunk` is never consumed),
greedy whitespace, then the lazy group ends at the first point from which
whitespace leads to a closing triple backtick. -/
def extractFenced (s : String) : Option String :=
  match afterFirstSub "```".data s.data with
  | none => none
  | some afterOpen =>
    let rest2 := if isPrefixL "spl".data afterOpen then afterOpen.drop 3 else afterOpen
    let rest3 := List.dropWhile isPySpace rest2
    match (List.range (rest3.length + 1)).find? (fun k =>
        isPrefixL "```".data (List.dropWhile isPySpace (rest3.drop k))) with
    | some k => some (pyStrip ⟨rest3.take k⟩)
    | none => none

/-- Adapter-call outcomes consumed by one `_generate_unified_spl_query`
run: the embedder similarities for the exemplar selection (as a function
of the selected exemplar list) and the generation model call. -/
structure UnifiedOracles where
  embedQa : List QA → Except String (List ℚ)
  modelCall : Except String String

/-- The exemplar selection of the unified template (inside the `try`).
Only its exceptions matter downstream; the selected exemplars feed the
prompt, which the model-call oracle absorbs. -/
def unifiedQaSelection (isCross : Bool) (companyName : String)
    (qaPairs : List QA) (embedQa : List QA → Except String (List ℚ)) :
    Except String (List QA) :=
  if qaPairs.isEmpty then .ok []
  else if isCross then
    let crossExamples := qaPairs.filter (fun qa => strStarts qa.answer "index=*")
    if !crossExamples.isEmpty then
      do return getMostRelevantQaExamples crossExamples (← embedQa crossExamples) 2
    else
      do return getMostRelevantQaExamples qaPairs (← embedQa qaPairs) 2
  else
    let companyExamples := qaPairs.filter (fun qa =>
      strStarts (lowerS qa.question) ("for " ++ lowerS companyName) &&
      (strHas qa.answer ("index=" ++ companyName ++ "_win") ||
       strHas qa.answer ("index=" ++ companyName ++ "_linux")))
    if !companyExamples.isEmpty then
      do return getMostRelevantQaExamples companyExamples (← embedQa companyExamples) 2
    else
      do return getMostRelevantQaExamples qaPairs (← embedQa qaPairs) 2

/-- The body of the `try` block of `_generate_unified_spl_query`:
exemplar selection, the model call, code-fence unwrapping, and the
scope-enforcement repair of the first line. -/
def unifiedTryBlock (isCross : Bool) (v : ValidatedCtx) (company : CompanyCtx)
    (qaPairs : List QA) (o : UnifiedOracles) : Except String String := do
  let _examples ← unifiedQaSelection isCross company.company_name qaPairs o.embedQa
  let raw ← o.modelCall
  let splOutput :=
    if strHas raw "```" then
      match extractFenced raw with
      | some inner => inner
      | none => raw
    else raw
  let lines := splitOnChar '\n' splOutput.data
  let firstLine := pyStripL (lines.headD [])
  if !isCross && !isPrefixL ("index=" ++ v.index).data firstLine then
    match breakAtChar '|' firstLine with
    | some (searchPart, pipePart) =>
      let timePart :=
        if strHas ⟨searchPart⟩ "earliest=" then afterLastSub "earliest=".data searchPart
        else "earliest=-24h".data
      let corrected := ("index=" ++ v.index ++ " " ++ v.sourcetype_clause ++ " ").data ++ timePart
      return pyStrip ⟨corrected ++ "\n| ".data ++ pipePart ++ "\n".data ++ joinNL (lines.drop 1)⟩
    | none =>
      let corrected := ("index=" ++ v.index ++ " " ++ v.sourcetype_clause ++ " ").data ++
        pyStripL (replaceSub "index=".data [] (replaceSub "index=*".data [] firstLine))
      return pyStrip ⟨corrected ++ "\n".data ++ joinNL (lines.drop 1)⟩
  else
    return pyStrip splOutput

/-- The deterministic canned fallback of the `except` branch, selected by
keyword sniffing of the request. -/
def unifiedFallback (isCross : Bool) (v : ValidatedCtx) (userQuery : String) :
    String :=
  let indexPart :=
    if isCross then "index=* " ++ crossSourcetypes
    else "index=" ++ v.index ++ " " ++ v.sourcetype_clause
  let companyExtract :=
    if isCross then "\n| rex field=index \"(?<company>\\w+)_\"" else ""
  let ql := lowerS userQuery
  if strHas ql "failed login" || strHas ql "login fail" then
    indexPart ++ " earliest=-24h\n| search EventCode=4625 OR match(_raw, \"Failed password|authentication failure|logon failure\")" ++
      companyExtract ++
      "\n| eval user=coalesce(User_Name, user, account, dest_user)\n| eval src=coalesce(src_ip, src, Source_Network_Address, host)\n| stats count by user src\n| sort - count\n| head 10"
  else if strHas ql "defender" && strHas ql "disable" then
    indexPart ++ " earliest=-7d\n| search (EventCode=5001 OR EventCode=5025 OR \"Defender disabled\" OR \"protection disabled\")" ++
      companyExtract ++
      "\n| stats latest(_time) as last_event by host\n| convert ctime(last_event) as Time\n| sort - last_event"
  else
    indexPart ++ " earliest=-24h" ++ companyExtract ++ "\n| stats count\n| sort - count"

/-- `_generate_unified_spl_query`: validated context, the `try` block, and
the canned fallback on any exception. -/
def generateUnifiedSplQuery (selfData : List Company) (userQuery : String)
    (company : CompanyCtx) (qaPairs : List QA) (o : UnifiedOracles) : String :=
  let isCross := company.is_cross_company || company.index == some "*"
  let v := validateCompanyContext selfData isCross company
  match unifiedTryBlock isCross v company qaPairs o with
  | .ok out => out
  | .error _ => unifiedFallback isCross v userQuery

/-! ## `SPLResponse` and `generate_spl_query` -/

/-- The response record (`app/models/spl.py`), with the pydantic defaults. -/
structure SPLResponse where
  success : Bool
  spl_query : Option String := none
  company : Option String := none
  index : Option String := none
  sourcetype : Option String := none
  confidence : Option ℚ := none
  detection_method : Option String := none
  syntax_valid : Option Bool := none
  issues : List String := []
  error : Option String := none
  deriving DecidableEq, Repr

/-- All adapter-call outcomes consumed by one `generate_spl_query` run. -/
structure GenOracles where
  jsonParse : String → Option LlmIntentJson
  embedMax : Except String ℚ
  llmReply : Except String String
  pick : PickOracles
  promptFixer : Except String String
  rag : Except String String
  unified : UnifiedOracles

/-- The interior of `generate_spl_query` (the body of its top-level `try`):
`.error` is an exception escaping the pipeline. -/
def generateSplQueryInner (data : List Company) (qaPairs : List QA)
    (userQuery : String) (o : GenOracles) : Except String SPLResponse := do
  let rel ← isSplunkRelated o.jsonParse o.embedMax o.llmReply userQuery (35/100)
  if !rel.1 then
    return { success := false, error := some "Not Splunk-related",
             confidence := some rel.2.1, detection_method := some rel.2.2 }
  let company := pickBestCompany data userQuery o.pick
  let _improved ← o.promptFixer
  let _extracted := match o.rag with | .ok s => s | .error _ => ""
  let splQuery := generateUnifiedSplQuery data userQuery company qaPairs o.unified
  let issues := validateSplSyntax splQuery
  let cleanSpl := cleanSplOutput splQuery
  return { success := true, spl_query := some cleanSpl,
           company := some (company.company_name ++ " - " ++ company.product_name),
           index := company.index, sourcetype := company.sourcetype,
           confidence := some company.confidence_score,
           detection_method := some company.method,
           syntax_valid := some (issues.length == 0), issues := issues }

/-- `generate_spl_query`: the top-level `try`/`except` converting any
escaped exception into a failed response carrying its message. -/
def generateSplQuery (data : List Company) (qaPairs : List QA)
    (userQuery : String) (o : GenOracles) : SPLResponse :=
  match generateSplQueryInner data qaPairs userQuery o with
  | .ok r => r
  | .error e => { success := false, error := some e }

/-! ## Theorems -/

theorem isPrefixL_two {a b : Char} {xs : List Char} (h : isPrefixL [a, b] xs = true) :
    ∃ ys, xs = a :: b :: ys := by
  match xs with
  | [] => simp [isPrefixL] at h
  | [c] => simp [isPrefixL] at h
  | c :: d :: ys =>
    simp only [isPrefixL, Bool.and_eq_true, beq_iff_eq] at h
    exact ⟨ys, by rw [h.1, h.2.1]⟩

theorem matchBackslashBraces_head {resp : String} {t : List Char}
    (h : matchBackslashBraces resp = some t) : ∃ ys, t = '\\' :: ys := by
  unfold matchBackslashBraces at h
  cases hocc : occIdxs ['\\', '{'] resp.data with
  | nil => rw [hocc] at h; exact absurd h (by simp)
  | cons i rest =>
    rw [hocc] at h
    have hi : i ∈ occIdxs ['\\', '{'] resp.data := by rw [hocc]; exact List.mem_cons_self _ _
    have hpre : isPrefixL ['\\', '{'] (resp.data.drop i) = true := by
      have := List.of_mem_filter hi
      exact this
    obtain ⟨ys, hys⟩ := isPrefixL_two hpre
    dsimp only at h
    cases hlast : ((occIdxs ['\\', '}'] resp.data).filter (fun j => i + 2 ≤ j)).getLast? with
    | none => rw [hlast] at h; exact absurd h (by simp)
    | some j =>
      rw [hlast] at h
      have hj : j ∈ (occIdxs ['\\', '}'] resp.data).filter (fun j => i + 2 ≤ j) := by
        obtain ⟨hne, hgl⟩ := List.mem_getLast?_eq_getLast (Option.mem_def.mpr hlast)
        exact hgl ▸ List.getLast_mem hne
      have hij : i + 2 ≤ j := by
        have := List.of_mem_filter hj
        exact of_decide_eq_true this
      simp only [Option.some.injEq] at h
      obtain ⟨n, hn⟩ : ∃ n, j + 2 - i = n + 1 := ⟨j + 1 - i, by omega⟩
      rw [hys, hn] at h
      exact ⟨('{' :: ys).take n, by rw [← h]; rfl⟩

/-- C10: the JSON-extraction pattern of `_llm_is_splunk_related` requires a
literal backslash before each brace, so the extracted text (when any) starts
with a backslash and can never be valid JSON; the classification therefore
always falls back to `(false, 0.0, "llm_intent")`, for every model reply and
also when the model call raises.  The hypothesis on `jsonParse` is the
relevant contract of Python's `json.loads`: the empty string and any string
starting with a backslash fail to parse. -/
theorem llm_is_splunk_related_always_false
    (jsonParse : String → Option LlmIntentJson)
    (hJson : ∀ s, s = "" ∨ strStarts s "\\" = true → jsonParse s = none)
    (reply : Except String String) (q : String) :
    llmIsSplunkRelated jsonParse reply q = (false, 0, "llm_intent") := by
  unfold llmIsSplunkRelated
  match reply with
  | .error e => rfl
  | .ok resp =>
    cases hm : matchBackslashBraces resp with
    | none =>
      simp only [hm]
      have hnone : jsonParse (replaceQuotes "") = none := hJson _ (Or.inl (by rfl))
      rw [hnone]
    | some t =>
      obtain ⟨ys, rfl⟩ := matchBackslashBraces_head hm
      have hstart : strStarts (replaceQuotes ⟨'\\' :: ys⟩) "\\" = true := by
        simp [replaceQuotes, strStarts, isPrefixL]
      simp only [hm]
      rw [hJson _ (Or.inr hstart)]

/-- Witness for C10 at a concrete, perfectly well-formed model reply. -/
theorem llm_is_splunk_related_always_false_witness :
    (∀ s : String, s = "" ∨ strStarts s "\\" = true →
      (fun _ : String => (none : Option LlmIntentJson)) s = none) ∧
    llmIsSplunkRelated (fun _ => none)
      (.ok "\x7b\"is_splunk_related\": true, \"confidence\": 0.9\x7d")
      "show me failed logins" = (false, 0, "llm_intent") :=
  ⟨fun _ _ => rfl,
   llm_is_splunk_related_always_false _ (fun _ _ => rfl) _ _⟩

/-- C2: any input containing one of the fixed Splunk syntax tokens is
classified `(true, 0.95, "syntax_match")` regardless of the embedder or
language-model behavior (neither is consulted) and of the thresholds. -/
theorem is_splunk_related_syntax_match
    (jsonParse : String → Option LlmIntentJson)
    (embedMax : Except String ℚ) (llmReply : Except String String)
    (query : String) (thr : ℚ)
    (h : splunkSyntaxKeywords.any (fun k => strHas (lowerS query) k) = true) :
    isSplunkRelated jsonParse embedMax llmReply query thr =
      .ok (true, 95/100, "syntax_match") := by
  unfold isSplunkRelated
  simp [h]

/-- Witness for C2 on the spec's scenario input, with both adapters failing. -/
theorem is_splunk_related_syntax_match_witness :
    splunkSyntaxKeywords.any
      (fun k => strHas (lowerS "index=main sourcetype=foo | stats count") k) = true ∧
    isSplunkRelated (fun _ => none) (.error "embedder down") (.error "llm down")
      "index=main sourcetype=foo | stats count" (30/100) =
      .ok (true, 95/100, "syntax_match") :=
  ⟨by decide, is_splunk_related_syntax_match _ _ _ _ _ (by decide)⟩

/-- C3 (code bug evidence): `validate_spl_syntax` splits on the literal
two-character sequence backslash-`n`, not on the newline character.  A real
multi-line query whose second line lacks a leading pipe therefore yields no
issue at all, while the same text with a literal backslash-n in place of the
newline is flagged as the spec describes. -/
theorem validate_spl_syntax_newline_bug :
    validateSplSyntax "index=main\nstats count" = [] ∧
    validateSplSyntax "index=main\\nstats count" = ["Line 2: missing pipe |"] := by
  exact ⟨by decide, by decide⟩

/-- C4 (counterexample): an occurrence of the deprecated `limit N` that is
not preceded by the pipe separator is left unchanged by `_clean_spl_output`
(the rewriting regex requires `\|` before `limit`), so no `head` appears. -/
theorem clean_spl_output_unpiped_limit_kept :
    cleanSplOutput "limit 5" = "limit 5" ∧
    strHas (cleanSplOutput "limit 5") "head" = false := by
  exact ⟨by decide, by decide⟩

/-! ### C4: every pipe-prefixed `limit N` is rewritten.
The statement proved below: the output of `_clean_spl_output` never contains
a match of the deprecated pattern `\|\s*limit\s+\d` (so every pipe-prefixed
occurrence was rewritten), and on a canonical occurrence the rewrite
produces `| head N` with the same number. -/

theorem stripLimitCI_some {y t : List Char} (h : stripLimitCI y = some t) :
    ∃ w, y = w ++ t ∧ w.map Char.toLower = ['l', 'i', 'm', 'i', 't'] := by
  match y with
  | [] => simp [stripLimitCI] at h
  | [_] => simp [stripLimitCI] at h
  | [_, _] => simp [stripLimitCI] at h
  | [_, _, _] => simp [stripLimitCI] at h
  | [_, _, _, _] => simp [stripLimitCI] at h
  | a :: b :: c :: d :: e :: rest =>
    simp only [stripLimitCI] at h
    split at h
    · next hc =>
      simp only [Bool.and_eq_true, beq_iff_eq] at hc
      obtain ⟨⟨⟨⟨h1, h2⟩, h3⟩, h4⟩, h5⟩ := hc
      simp only [Option.some.injEq] at h
      subst h
      exact ⟨[a, b, c, d, e], rfl, by simp [h1, h2, h3, h4, h5]⟩
    · exact absurd h (by simp)

theorem stripLimitCI_of {w : List Char}
    (hw : w.map Char.toLower = ['l', 'i', 'm', 'i', 't']) (t : List Char) :
    stripLimitCI (w ++ t) = some t := by
  cases w with
  | nil => simp at hw
  | cons a w1 =>
  cases w1 with
  | nil => simp at hw
  | cons b w2 =>
  cases w2 with
  | nil => simp at hw
  | cons c w3 =>
  cases w3 with
  | nil => simp at hw
  | cons d w4 =>
  cases w4 with
  | nil => simp at hw
  | cons e w5 =>
  cases w5 with
  | cons f w6 => simp at hw
  | nil =>
    simp only [List.map_cons, List.map_nil, List.cons.injEq, and_true] at hw
    obtain ⟨h1, h2, h3, h4, h5⟩ := hw
    simp [stripLimitCI, h1, h2, h3, h4, h5]

theorem stripLimitCI_length {y t : List Char} (h : stripLimitCI y = some t) :
    t.length + 5 = y.length := by
  obtain ⟨w, rfl, hw⟩ := stripLimitCI_some h
  have : w.length = 5 := by
    have := congrArg List.length hw
    simpa using this
  simp [this]
  omega

/-- Characters accepted by `isPySpace` are their own lowercase form. -/
theorem pySpace_toLower {c : Char} (h : isPySpace c = true) : c.toLower = c := by
  simp only [isPySpace, Bool.or_eq_true, beq_iff_eq] at h
  rcases h with ((((h | h) | h) | h) | h) | h <;> subst h <;> decide

theorem pySpace_ne_pipe {c : Char} (h : isPySpace c = true) : c ≠ '|' := by
  intro hc; subst hc; simp [isPySpace] at h

theorem isDigit_not_pySpace {c : Char} (h : c.isDigit = true) : isPySpace c = false := by
  by_contra hx
  simp only [Bool.not_eq_false] at hx
  simp only [isPySpace, Bool.or_eq_true, beq_iff_eq] at hx
  rcases hx with ((((h' | h') | h') | h') | h') | h' <;> subst h' <;> simp_all

theorem isDigit_ne_pipe {c : Char} (h : c.isDigit = true) : c ≠ '|' := by
  intro hc; subst hc; simp_all

/-- A character whose lowercase form is one of the letters of `limit`
is neither whitespace nor a pipe. -/
theorem limitLetter_ne_pipe {c : Char}
    (h : c.toLower ∈ (['l', 'i', 'm', 'i', 't'] : List Char)) : c ≠ '|' := by
  intro hc; subst hc
  simp only [show '|'.toLower = '|' from by decide] at h
  simp at h

theorem limitLetter_not_pySpace {c : Char}
    (h : c.toLower ∈ (['l', 'i', 'm', 'i', 't'] : List Char)) : isPySpace c = false := by
  by_contra hx
  simp only [Bool.not_eq_false] at hx
  rw [pySpace_toLower hx] at h
  simp only [isPySpace, Bool.or_eq_true, beq_iff_eq] at hx
  rcases hx with ((((h' | h') | h') | h') | h') | h' <;> subst h' <;> simp_all

/-- Forward characterization of a successful `\s*limit\s+\d+` match. -/
theorem matchAfterPipe_some_decomp {x : List Char} {d r : List Char}
    (h : matchAfterPipe x = some (d, r)) :
    ∃ s1 w s2, x = s1 ++ w ++ s2 ++ d ++ r ∧
      (∀ c ∈ s1, isPySpace c = true) ∧
      w.map Char.toLower = ['l', 'i', 'm', 'i', 't'] ∧
      (∀ c ∈ s2, isPySpace c = true) ∧ s2 ≠ [] ∧
      d ≠ [] ∧ (∀ c ∈ d, c.isDigit = true) := by
  unfold matchAfterPipe at h
  cases hstrip : stripLimitCI (List.dropWhile isPySpace x) with
  | none => rw [hstrip] at h; exact absurd h (by simp)
  | some s2' =>
    rw [hstrip] at h
    dsimp only at h
    obtain ⟨w, hy, hw⟩ := stripLimitCI_some hstrip
    by_cases hts : (List.takeWhile isPySpace s2').isEmpty = true
    · rw [if_pos hts] at h; exact absurd h (by simp)
    · rw [if_neg hts] at h
      by_cases hdg :
          (List.takeWhile Char.isDigit (List.dropWhile isPySpace s2')).isEmpty = true
      · rw [if_pos hdg] at h; exact absurd h (by simp)
      · rw [if_neg hdg] at h
        simp only [Option.some.injEq, Prod.mk.injEq] at h
        obtain ⟨hd, hr⟩ := h
        have hs3 : List.dropWhile isPySpace s2' = d ++ r := by
          rw [← hd, ← hr, List.takeWhile_append_dropWhile]
        have hs2' : s2' = List.takeWhile isPySpace s2' ++ (d ++ r) := by
          conv_lhs => rw [← List.takeWhile_append_dropWhile isPySpace s2']
          rw [hs3]
        have hx : x = List.takeWhile isPySpace x ++
            (w ++ (List.takeWhile isPySpace s2' ++ (d ++ r))) := by
          conv_lhs => rw [← List.takeWhile_append_dropWhile isPySpace x]
          rw [hy, ← hs2']
        refine ⟨List.takeWhile isPySpace x, w, List.takeWhile isPySpace s2', ?_,
                fun c hc => List.mem_takeWhile_imp hc, hw,
                fun c hc => List.mem_takeWhile_imp hc, ?_, ?_, ?_⟩
        · conv_lhs => rw [hx]
          simp [List.append_assoc]
        · intro hnil
          rw [hnil] at hts
          exact hts rfl
        · intro hnil
          rw [hd, hnil] at hdg
          exact hdg rfl
        · intro c hc
          rw [← hd] at hc
          exact List.mem_takeWhile_imp hc

/-- Backward direction: a string of the decomposed shape does match. -/
theorem matchAfterPipe_of_decomp {s1 w s2 : List Char} {d0 : Char} (r : List Char)
    (hs1 : ∀ c ∈ s1, isPySpace c = true)
    (hw : w.map Char.toLower = ['l', 'i', 'm', 'i', 't'])
    (hs2 : ∀ c ∈ s2, isPySpace c = true) (hs2ne : s2 ≠ [])
    (hd0 : d0.isDigit = true) :
    matchAfterPipe (s1 ++ w ++ s2 ++ d0 :: r) ≠ none := by
  have hwne : w ≠ [] := by
    intro hwe; rw [hwe] at hw; simp at hw
  obtain ⟨w0, ws, rfl⟩ := List.exists_cons_of_ne_nil hwne
  have hw0 : isPySpace w0 = false := by
    apply limitLetter_not_pySpace
    rw [← hw]; simp
  have hd0s : isPySpace d0 = false := isDigit_not_pySpace hd0
  have hdrop : List.dropWhile isPySpace (s1 ++ (w0 :: ws) ++ s2 ++ d0 :: r) =
      (w0 :: ws) ++ (s2 ++ d0 :: r) := by
    rw [List.append_assoc, List.append_assoc, List.dropWhile_append_of_pos hs1]
    have : (w0 :: ws) ++ (s2 ++ d0 :: r) = w0 :: (ws ++ (s2 ++ d0 :: r)) := rfl
    rw [this, List.dropWhile_cons_of_neg (by simp [hw0])]
  unfold matchAfterPipe
  rw [hdrop, stripLimitCI_of hw]
  dsimp only
  obtain ⟨c2, cs2, rfl⟩ := List.exists_cons_of_ne_nil hs2ne
  have hc2 : isPySpace c2 = true := hs2 c2 (by simp)
  rw [if_neg (by simp [hc2])]
  have hdw : List.dropWhile isPySpace ((c2 :: cs2) ++ d0 :: r) = d0 :: r := by
    rw [List.dropWhile_append_of_pos hs2, List.dropWhile_cons_of_neg (by simp [hd0s])]
  rw [hdw, List.takeWhile_cons_of_pos hd0]
  rw [if_neg (by simp)]
  simp

theorem matchLimitAt_cons_nonpipe {c : Char} (l : List Char) (h : c ≠ '|') :
    matchLimitAt (c :: l) = none := by
  unfold matchLimitAt
  split
  · rename_i cs heq
    injection heq with h1 h2
    exact absurd h1 h
  · rfl

theorem matchLimitAt_pipe (cs : List Char) :
    matchLimitAt ('|' :: cs) = matchAfterPipe cs := rfl

theorem matchAfterPipe_length {cs d r : List Char}
    (h : matchAfterPipe cs = some (d, r)) : r.length ≤ cs.length := by
  unfold matchAfterPipe at h
  cases hstrip : stripLimitCI (List.dropWhile isPySpace cs) with
  | none => rw [hstrip] at h; exact absurd h (by simp)
  | some s2' =>
    rw [hstrip] at h
    dsimp only at h
    by_cases hts : (List.takeWhile isPySpace s2').isEmpty = true
    · rw [if_pos hts] at h; exact absurd h (by simp)
    · rw [if_neg hts] at h
      by_cases hdg :
          (List.takeWhile Char.isDigit (List.dropWhile isPySpace s2')).isEmpty = true
      · rw [if_pos hdg] at h; exact absurd h (by simp)
      · rw [if_neg hdg] at h
        simp only [Option.some.injEq, Prod.mk.injEq] at h
        have h1 := length_dropWhile_le Char.isDigit (List.dropWhile isPySpace s2')
        have h2 := length_dropWhile_le isPySpace s2'
        have h3 := stripLimitCI_length hstrip
        have h4 := length_dropWhile_le isPySpace cs
        rw [h.2] at h1
        omega

theorem hasLimitMatch_cons_ne {c : Char} {l : List Char} (h : c ≠ '|') :
    hasLimitMatch (c :: l) = hasLimitMatch l := by
  simp [hasLimitMatch, matchLimitAt_cons_nonpipe _ h]

theorem hasLimitMatch_cons_pipe (l : List Char) :
    hasLimitMatch ('|' :: l) = ((matchAfterPipe l).isSome || hasLimitMatch l) := by
  simp [hasLimitMatch, matchLimitAt_pipe]

theorem hasLimitMatch_append_digits {d : List Char}
    (hd : ∀ c ∈ d, c.isDigit = true) (t : List Char) :
    hasLimitMatch (d ++ t) = hasLimitMatch t := by
  induction d with
  | nil => rfl
  | cons c cs ih =>
    have hc : c ≠ '|' := isDigit_ne_pipe (hd c (by simp))
    rw [List.cons_append, hasLimitMatch_cons_ne hc]
    exact ih (fun x hx => hd x (by simp [hx]))

/-- The head emitted by a `| head ` replacement can never start a new match:
after the pipe comes a space and then `head`, whose `h` fails the
case-insensitive `limit` literal. -/
theorem matchAfterPipe_head_emission (z : List Char) :
    matchAfterPipe (' ' :: 'h' :: 'e' :: 'a' :: 'd' :: ' ' :: z) = none := by
  unfold matchAfterPipe
  rw [List.dropWhile_cons_of_pos (by decide),
      List.dropWhile_cons_of_neg (by decide)]
  rw [show stripLimitCI ('h' :: 'e' :: 'a' :: 'd' :: ' ' :: z) = none from by
        simp [stripLimitCI]]

theorem hasLimitMatch_emission {d : List Char}
    (hd : ∀ c ∈ d, c.isDigit = true) (t : List Char) :
    hasLimitMatch ('|' :: ' ' :: 'h' :: 'e' :: 'a' :: 'd' :: ' ' :: (d ++ t)) =
      hasLimitMatch t := by
  rw [hasLimitMatch_cons_pipe, matchAfterPipe_head_emission]
  rw [hasLimitMatch_cons_ne (by decide), hasLimitMatch_cons_ne (by decide),
      hasLimitMatch_cons_ne (by decide), hasLimitMatch_cons_ne (by decide),
      hasLimitMatch_cons_ne (by decide), hasLimitMatch_cons_ne (by decide)]
  simp [hasLimitMatch_append_digits hd]

/-- `subLimitGo` preserves the leading pipe-free segment. -/
theorem subLimitGo_takeWhile_pipefree :
    ∀ (f : Nat) (l : List Char), l.length ≤ f →
      List.takeWhile (fun c => !(c == '|')) (subLimitGo f l) =
        List.takeWhile (fun c => !(c == '|')) l := by
  intro f
  induction f with
  | zero =>
    intro l h
    have : l = [] := List.length_eq_zero.mp (Nat.le_zero.mp h)
    subst this; rfl
  | succ f ih =>
    intro l h
    match l with
    | [] => rfl
    | c :: cs =>
      simp only [subLimitGo]
      cases hm : matchLimitAt (c :: cs) with
      | none =>
        by_cases hc : c = '|'
        · subst hc
          rw [List.takeWhile_cons_of_neg (by simp), List.takeWhile_cons_of_neg (by simp)]
        · rw [List.takeWhile_cons_of_pos (by simp [hc]),
              List.takeWhile_cons_of_pos (by simp [hc])]
          rw [ih cs (by simp at h; omega)]
      | some p =>
        obtain ⟨digits, rest⟩ := p
        have hcp : c = '|' := by
          by_contra hc
          rw [matchLimitAt_cons_nonpipe _ hc] at hm
          exact absurd hm (by simp)
        subst hcp
        rw [List.takeWhile_cons_of_neg (by simp), List.takeWhile_cons_of_neg (by simp)]

/-- A pipe-free prefix of `x` is a prefix of `x`'s pipe-free leading segment. -/
theorem prefix_pipefree_takeWhile {p x : List Char}
    (hp : ∀ c ∈ p, (c == '|') = false) (hpre : p <+: x) :
    p <+: List.takeWhile (fun c => !(c == '|')) x := by
  induction p generalizing x with
  | nil => exact List.nil_prefix
  | cons p0 ps ih =>
    obtain ⟨t, ht⟩ := hpre
    rw [← ht, List.cons_append, List.takeWhile_cons_of_pos (by simp [hp p0 (by simp)])]
    exact List.cons_prefix_cons.mpr ⟨rfl, ih (fun c hc => hp c (by simp [hc]))
      (List.prefix_append ps t)⟩

/-- Fuel irrelevance for `subLimitGo` at adequate fuel. -/
theorem subLimitGo_fuel :
    ∀ (f g : Nat) (l : List Char), l.length ≤ f → l.length ≤ g →
      subLimitGo f l = subLimitGo g l := by
  intro f
  induction f with
  | zero =>
    intro g l hf _
    have : l = [] := List.length_eq_zero.mp (Nat.le_zero.mp hf)
    subst this
    cases g <;> rfl
  | succ f ih =>
    intro g l hf hg
    match l with
    | [] => cases g <;> rfl
    | c :: cs =>
      match g with
      | 0 => exact absurd hg (by simp)
      | g + 1 =>
        simp only [subLimitGo]
        cases hm : matchLimitAt (c :: cs) with
        | none =>
          dsimp only
          rw [ih g cs (by simp at hf; omega) (by simp at hg; omega)]
        | some p =>
          obtain ⟨digits, rest⟩ := p
          dsimp only
          have hcp : c = '|' := by
            by_contra hc
            rw [matchLimitAt_cons_nonpipe _ hc] at hm
            exact absurd hm (by simp)
          subst hcp
          rw [matchLimitAt_pipe] at hm
          have hlen := matchAfterPipe_length hm
          rw [ih g rest (by simp at hf; omega) (by simp at hg; omega)]

/-- If `\s*limit\s+\d+` does not match right after a pipe, it still does not
match there after the rest of the string has been rewritten. -/
theorem matchAfterPipe_none_sub {cs : List Char} {f : Nat}
    (h : matchAfterPipe cs = none) (hf : cs.length ≤ f) :
    matchAfterPipe (subLimitGo f cs) = none := by
  cases hsub : matchAfterPipe (subLimitGo f cs) with
  | none => rfl
  | some p =>
    exfalso
    obtain ⟨d, r⟩ := p
    obtain ⟨s1, w, s2, hx, hs1, hw, hs2, hs2ne, hdne, hddig⟩ :=
      matchAfterPipe_some_decomp hsub
    obtain ⟨d0, ds, hdeq⟩ := List.exists_cons_of_ne_nil hdne
    subst hdeq
    have hppre : (s1 ++ w ++ s2 ++ [d0]) <+: subLimitGo f cs := by
      refine ⟨ds ++ r, ?_⟩
      rw [hx]; simp [List.append_assoc]
    have hpfree : ∀ c ∈ s1 ++ w ++ s2 ++ [d0], (c == '|') = false := by
      intro c hc
      simp only [List.mem_append, List.mem_singleton] at hc
      rcases hc with ((hc | hc) | hc) | hc
      · simpa using pySpace_ne_pipe (hs1 c hc)
      · have : c.toLower ∈ (['l', 'i', 'm', 'i', 't'] : List Char) := by
          rw [← hw]; exact List.mem_map_of_mem _ hc
        simpa using limitLetter_ne_pipe this
      · simpa using pySpace_ne_pipe (hs2 c hc)
      · rw [hc]
        simpa using isDigit_ne_pipe (hddig d0 (by simp))
    have h1 : (s1 ++ w ++ s2 ++ [d0]) <+:
        List.takeWhile (fun c => !(c == '|')) (subLimitGo f cs) :=
      prefix_pipefree_takeWhile hpfree hppre
    rw [subLimitGo_takeWhile_pipefree f cs hf] at h1
    have h2 : (s1 ++ w ++ s2 ++ [d0]) <+: cs :=
      h1.trans (List.takeWhile_prefix _)
    obtain ⟨t, ht⟩ := h2
    have : matchAfterPipe cs ≠ none := by
      rw [← ht, show s1 ++ w ++ s2 ++ [d0] ++ t = s1 ++ w ++ s2 ++ d0 :: t from by
            simp [List.append_assoc]]
      exact matchAfterPipe_of_decomp t hs1 hw hs2 hs2ne (hddig d0 (by simp))
    exact this h

/-- After `subLimitGo`, no occurrence of `\|\s*limit\s+\d` remains. -/
theorem subLimitGo_no_match :
    ∀ (f : Nat) (l : List Char), l.length ≤ f →
      hasLimitMatch (subLimitGo f l) = false := by
  intro f
  induction f with
  | zero =>
    intro l h
    have : l = [] := List.length_eq_zero.mp (Nat.le_zero.mp h)
    subst this; rfl
  | succ f ih =>
    intro l h
    match l with
    | [] => rfl
    | c :: cs =>
      have hcs : cs.length ≤ f := by simpa [Nat.succ_le_succ_iff] using h
      simp only [subLimitGo]
      cases hm : matchLimitAt (c :: cs) with
      | none =>
        by_cases hc : c = '|'
        · subst hc
          rw [matchLimitAt_pipe] at hm
          rw [hasLimitMatch_cons_pipe, matchAfterPipe_none_sub hm hcs]
          simp [ih cs hcs]
        · rw [hasLimitMatch_cons_ne hc]
          exact ih cs hcs
      | some p =>
        obtain ⟨digits, rest⟩ := p
        have hcp : c = '|' := by
          by_contra hc
          rw [matchLimitAt_cons_nonpipe _ hc] at hm
          exact absurd hm (by simp)
        subst hcp
        rw [matchLimitAt_pipe] at hm
        obtain ⟨s1, w, s2, hx, hs1, hw, hs2, hs2ne, hdne, hddig⟩ :=
          matchAfterPipe_some_decomp hm
        have hlen := matchAfterPipe_length hm
        rw [hasLimitMatch_emission hddig]
        exact ih rest (by omega)

/-- One scanning step of `subLimitGo` at successor fuel. -/
theorem subLimitGo_step (f : Nat) (c : Char) (cs : List Char) :
    subLimitGo (f + 1) (c :: cs) =
      match matchLimitAt (c :: cs) with
      | some (digits, rest) =>
        '|' :: ' ' :: 'h' :: 'e' :: 'a' :: 'd' :: ' ' :: (digits ++ subLimitGo f rest)
      | none => c :: subLimitGo f cs := rfl

/-- Unfolding equation for `cleanSplOutput`. -/
theorem cleanSplOutput_eq (s : String) :
    cleanSplOutput s = ⟨subLimit (pyStripL (joinClean (cleanSplLines
      (subEq (subPipe (pyStripL (subFence2 (subFence1 s.data))))))))⟩ := rfl

theorem data_mk (l : List Char) : (String.mk l).data = l := rfl

/-- C4 (amended): in the output of `_clean_spl_output` no occurrence of the
deprecated pattern `\|\s*limit\s+\d` (pipe, optional whitespace, `limit`,
whitespace, digit) remains — every pipe-prefixed `limit N` has been
rewritten — and on a canonical occurrence `| limit N` the rewrite yields
`| head N` with the same number `N`.  (Occurrences of `limit N` not preceded
by the pipe separator are left unchanged, see the counterexample.) -/
theorem clean_spl_output_limit_rewritten :
    (∀ s : String, hasLimitMatch (cleanSplOutput s).data = false) ∧
    (∀ (d t : List Char), d ≠ [] → (∀ c ∈ d, c.isDigit = true) →
      List.takeWhile Char.isDigit t = [] →
      subLimit ('|' :: ' ' :: 'l' :: 'i' :: 'm' :: 'i' :: 't' :: ' ' :: (d ++ t)) =
        '|' :: ' ' :: 'h' :: 'e' :: 'a' :: 'd' :: ' ' :: (d ++ subLimit t)) := by
  constructor
  · intro s
    rw [cleanSplOutput_eq, data_mk]
    exact subLimitGo_no_match _ _ (Nat.le_refl _)
  · intro d t hdne hddig htw
    obtain ⟨d0, ds, rfl⟩ := List.exists_cons_of_ne_nil hdne
    have hd0 : d0.isDigit = true := hddig d0 (by simp)
    have hdrop : List.dropWhile Char.isDigit t = t := by
      conv_rhs => rw [← List.takeWhile_append_dropWhile Char.isDigit t]
      rw [htw]; rfl
    have hmatch : matchAfterPipe (' ' :: 'l' :: 'i' :: 'm' :: 'i' :: 't' :: ' ' ::
        ((d0 :: ds) ++ t)) = some (d0 :: ds, t) := by
      unfold matchAfterPipe
      rw [List.dropWhile_cons_of_pos (by decide), List.dropWhile_cons_of_neg (by decide)]
      rw [show stripLimitCI ('l' :: 'i' :: 'm' :: 'i' :: 't' :: ' ' :: ((d0 :: ds) ++ t)) =
            some (' ' :: ((d0 :: ds) ++ t)) from by simp [stripLimitCI]]
      dsimp only
      rw [List.takeWhile_cons_of_pos (show isPySpace ' ' = true from by decide)]
      have hds : List.takeWhile isPySpace ((d0 :: ds) ++ t) = [] := by
        rw [show (d0 :: ds) ++ t = d0 :: (ds ++ t) from rfl,
            List.takeWhile_cons_of_neg (by simp [isDigit_not_pySpace hd0])]
      rw [List.dropWhile_cons_of_pos (by decide)]
      have hdw : List.dropWhile isPySpace ((d0 :: ds) ++ t) = (d0 :: ds) ++ t := by
        rw [show (d0 :: ds) ++ t = d0 :: (ds ++ t) from rfl,
            List.dropWhile_cons_of_neg (by simp [isDigit_not_pySpace hd0])]
      rw [hds, hdw]
      rw [List.takeWhile_append_of_pos hddig, htw, List.append_nil]
      rw [List.dropWhile_append_of_pos hddig, hdrop]
      rw [if_neg (by simp)]
      rw [if_neg (by simp)]
    unfold subLimit
    rw [show ('|' :: ' ' :: 'l' :: 'i' :: 'm' :: 'i' :: 't' :: ' ' ::
          ((d0 :: ds) ++ t)).length =
        (' ' :: 'l' :: 'i' :: 'm' :: 'i' :: 't' :: ' ' :: ((d0 :: ds) ++ t)).length + 1
        from by simp]
    rw [subLimitGo_step, matchLimitAt_pipe, hmatch]
    dsimp only
    have ht : t.length ≤
        (' ' :: 'l' :: 'i' :: 'm' :: 'i' :: 't' :: ' ' :: ((d0 :: ds) ++ t)).length := by
      simp; omega
    rw [subLimitGo_fuel _ t.length t ht (Nat.le_refl _)]

/-! ### C1: cross-tenant detection vs. verbatim company names -/

theorem firstMaxBy_mem {f : α → ℚ} {l : List α} {y : α}
    (h : firstMaxBy f l = some y) : y ∈ l := by
  match l with
  | [] => exact absurd h (by simp [firstMaxBy])
  | x :: xs =>
    simp only [firstMaxBy, Option.some.injEq] at h
    subst h
    have aux : ∀ (xs : List α) (a : α),
        xs.foldl (fun acc y => if f y > f acc then y else acc) a ∈ a :: xs := by
      intro xs
      induction xs with
      | nil => intro a; simp
      | cons z zs ih =>
        intro a
        rw [List.foldl_cons]
        by_cases hz : f z > f a
        · rw [if_pos hz]
          rcases List.mem_cons.mp (ih z) with h | h
          · rw [h]; simp
          · simp [h]
        · rw [if_neg hz]
          rcases List.mem_cons.mp (ih a) with h | h
          · rw [h]; simp
          · simp [h]
    exact aux xs x

theorem enumFrom_filterMap_ne_nil {α β : Type} (cond : α → Bool) (mk : Nat → α → β) :
    ∀ (n : Nat) (data : List α), (∃ c ∈ data, cond c = true) →
      (List.enumFrom n data).filterMap
        (fun p => if cond p.2 then some (mk p.1 p.2) else none) ≠ [] := by
  intro n data
  induction data generalizing n with
  | nil => rintro ⟨c, hc, _⟩; simp at hc
  | cons a as ih =>
    rintro ⟨c, hc, hcond⟩
    simp only [List.enumFrom, List.filterMap_cons]
    rcases List.mem_cons.mp hc with rfl | hmem
    · rw [if_pos hcond]; simp
    · by_cases ha : cond a = true
      · rw [if_pos ha]; simp
      · rw [if_neg ha]
        exact ih (n + 1) ⟨c, hmem, hcond⟩

/-- Any member of the direct-match list is a direct-match record. -/
theorem mem_bestMatches_shape {data : List Company} {ql : String}
    {hasWin hasLin : Bool} {y : CompanyCtx}
    (h : y ∈ data.enum.filterMap (fun p =>
      if strHas ql (lowerS p.2.company_name) then
        some (mkDirectMatch p.2 p.1 hasWin hasLin)
      else none)) :
    y.method = "company_name_direct_match" ∧ y.is_cross_company = false := by
  obtain ⟨p, _, hp⟩ := List.mem_filterMap.mp h
  by_cases hc : strHas ql (lowerS p.2.company_name) = true
  · rw [if_pos hc] at hp
    cases hp
    exact ⟨rfl, rfl⟩
  · rw [if_neg hc] at hp
    exact absurd hp (by simp)

/-- When a catalog company name occurs verbatim (case-insensitively) in the
query, the dynamic strategy returns a direct-match record. -/
theorem dynamic_direct_of_name {data : List Company} {q : String}
    (plat : Option PlatformJson)
    (h : data.any (fun c => strHas (lowerS q) (lowerS c.company_name)) = true) :
    ∃ dyn, dynamicKeywordMatching data q plat = some dyn ∧
      dyn.method = "company_name_direct_match" ∧ dyn.is_cross_company = false := by
  unfold dynamicKeywordMatching
  obtain ⟨c, hcmem, hcond⟩ := List.any_eq_true.mp h
  have hne : data.enum.filterMap (fun p =>
      if strHas (lowerS q) (lowerS p.2.company_name) then
        some (mkDirectMatch p.2 p.1
          ((detectPlatformContext q plat).platform == "windows")
          ((detectPlatformContext q plat).platform == "linux"))
      else none) ≠ [] := by
    exact enumFrom_filterMap_ne_nil (fun c => strHas (lowerS q) (lowerS c.company_name))
      (fun i c => mkDirectMatch c i
        ((detectPlatformContext q plat).platform == "windows")
        ((detectPlatformContext q plat).platform == "linux"))
      0 data ⟨c, hcmem, hcond⟩
  cases hbm : firstMaxBy (CompanyCtx.confidence_score)
      (data.enum.filterMap (fun p =>
        if strHas (lowerS q) (lowerS p.2.company_name) then
          some (mkDirectMatch p.2 p.1
            ((detectPlatformContext q plat).platform == "windows")
            ((detectPlatformContext q plat).platform == "linux"))
        else none)) with
  | none =>
    exfalso
    apply hne
    cases hl : data.enum.filterMap (fun p =>
        if strHas (lowerS q) (lowerS p.2.company_name) then
          some (mkDirectMatch p.2 p.1
            ((detectPlatformContext q plat).platform == "windows")
            ((detectPlatformContext q plat).platform == "linux"))
        else none) with
    | nil => rfl
    | cons x xs => rw [hl] at hbm; exact absurd hbm (by simp [firstMaxBy])
  | some bm =>
    refine ⟨bm, ?_, mem_bestMatches_shape (firstMaxBy_mem hbm)⟩
    simp only [hbm]

/-- C1 (amended): when the model reply yields a parseable JSON object,
`_detect_cross_company_queries` rejects cross-company classification for any
input containing a catalog company name verbatim (case-insensitively); and,
regardless of all adapter behavior, `_pick_best_company` resolves such an
input to a non-cross-company context, because the direct company-name match
short-circuits before cross-company detection is consulted.  (When the
model call raises or returns a reply with no extractable JSON object, the
detector itself can still fire through its pattern-matching fallback — see
the counterexample.) -/
theorem cross_company_name_rejection (data : List Company) (q : String)
    (o : PickOracles) (r : CrossJson)
    (h : data.any (fun c => strHas (lowerS q) (lowerS c.company_name)) = true) :
    detectCrossCompanyQueries data q (some r) = none ∧
    (pickBestCompany data q o).is_cross_company = false := by
  constructor
  · unfold detectCrossCompanyQueries
    dsimp only
    rw [if_pos h]
  · obtain ⟨c, hcmem, _⟩ := List.any_eq_true.mp h
    obtain ⟨c0, rest, rfl⟩ := List.exists_cons_of_ne_nil (List.ne_nil_of_mem hcmem)
    obtain ⟨dyn, hdyn, hmethod, hcross⟩ := dynamic_direct_of_name o.platformLLM h
    unfold pickBestCompany
    rw [hdyn]
    dsimp only
    rw [if_pos (by simp [hmethod])]
    exact hcross

/-- C1 (counterexample): the claim as stated is false — with the catalog
entry `SafeBank` and an input containing `SafeBank` verbatim, a model
behavior that raises (or replies without an extractable JSON object) sends
`_detect_cross_company_queries` into its pattern-matching fallback, which
returns a cross-company result: the hard name-rejection rule lives only in
the parsed-JSON path. -/
theorem cross_company_fires_despite_name :
    strHas (lowerS "For SafeBank compare across all companies")
      (lowerS "SafeBank") = true ∧
    (detectCrossCompanyQueries
      [⟨"SafeBank", "Win Security", "SafeBank_win", "WinEventLog", "Banking",
        "fraud detection", []⟩]
      "For SafeBank compare across all companies" none).map
        (fun c => c.is_cross_company) = some true := by
  exact ⟨by decide, by decide⟩

/-- Witness for the amended C1 at a concrete catalog, query and oracles. -/
theorem cross_company_name_rejection_witness :
    ([⟨"SafeBank", "Win Security", "SafeBank_win", "WinEventLog", "Banking",
        "fraud detection", []⟩] : List Company).any
      (fun c => strHas (lowerS "For SafeBank show failed logins")
        (lowerS c.company_name)) = true ∧
    (detectCrossCompanyQueries
        [⟨"SafeBank", "Win Security", "SafeBank_win", "WinEventLog", "Banking",
          "fraud detection", []⟩]
        "For SafeBank show failed logins" (some ⟨true, 95/100⟩) = none ∧
      (pickBestCompany
        [⟨"SafeBank", "Win Security", "SafeBank_win", "WinEventLog", "Banking",
          "fraud detection", []⟩]
        "For SafeBank show failed logins"
        ⟨none, some ⟨true, 95/100⟩, none, .error "embedder down"⟩).is_cross_company = false) :=
  ⟨by decide,
   cross_company_name_rejection _ _ _ _ (by decide)⟩

/-! ### C8: cross-company records are scope-consistent -/

/-- C8: every company-context record produced with `is_cross_company=true`
by `_detect_cross_company_queries` (either its LLM path or its
pattern-matching fallback) or by `_detect_generic_queries` has the wildcard
index `"*"` and a null sourcetype. -/
theorem cross_records_scope_consistent (data : List Company) (q : String)
    (llm : Option CrossJson) (r : CompanyCtx)
    (h : detectCrossCompanyQueries data q llm = some r ∨
         detectGenericQueries data q = some r)
    (_hc : r.is_cross_company = true) :
    r.index = some "*" ∧ r.sourcetype = none := by
  rcases h with h | h
  · unfold detectCrossCompanyQueries at h
    cases llm with
    | some j =>
      dsimp only at h
      by_cases h1 : data.any (fun c => strHas (lowerS q) (lowerS c.company_name)) = true
      · rw [if_pos h1] at h; exact absurd h (by simp)
      · rw [if_neg h1] at h
        by_cases h2 : (j.is_cross_company && j.confidence ≥ 8/10) = true
        · rw [if_pos h2] at h
          cases h; exact ⟨rfl, rfl⟩
        · rw [if_neg h2] at h; exact absurd h (by simp)
    | none =>
      dsimp only at h
      by_cases h1 : obviousPatterns.any (fun p => strHas (lowerS q) p) = true
      · rw [if_pos h1] at h
        cases h; exact ⟨rfl, rfl⟩
      · rw [if_neg h1] at h; exact absurd h (by simp)
  · unfold detectGenericQueries at h
    by_cases h1 : data.any (fun c => strHas (lowerS q) ("for " ++ lowerS c.company_name)) = true
    · rw [if_pos h1] at h; exact absurd h (by simp)
    · rw [if_neg h1] at h
      by_cases h2 : genericPatterns.any (fun p => reSearch p (lowerS q)) = true
      · rw [if_pos h2] at h
        by_cases h3 : enterpriseIndicators.any (fun ind => strHas (lowerS q) ind) = true
        · rw [if_pos h3] at h
          cases h; exact ⟨rfl, rfl⟩
        · rw [if_neg h3] at h; exact absurd h (by simp)
      · rw [if_neg h2] at h; exact absurd h (by simp)

/-- Witness for C8 on the generic-query detector at a concrete input. -/
theorem cross_records_scope_consistent_witness :
    detectGenericQueries [] "show failed login attempts on servers" =
      some { company_name := "All Companies",
             product_name := "Cross-Company Analysis",
             index := some "*", sourcetype := none, data_model := [],
             confidence_score := 75/100,
             method := "generic_cross_company_suggestion",
             company_index := -1, is_cross_company := true } ∧
    ({ company_name := "All Companies",
       product_name := "Cross-Company Analysis",
       index := some "*", sourcetype := none, data_model := [],
       confidence_score := 75/100,
       method := "generic_cross_company_suggestion",
       company_index := -1, is_cross_company := true : CompanyCtx }.index = some "*" ∧
     ({ company_name := "All Companies",
        product_name := "Cross-Company Analysis",
        index := some "*", sourcetype := none, data_model := [],
        confidence_score := 75/100,
        method := "generic_cross_company_suggestion",
        company_index := -1, is_cross_company := true : CompanyCtx }.sourcetype = none)) :=
  ⟨by rfl,
   cross_records_scope_consistent [] "show failed login attempts on servers" none _
     (Or.inr (by rfl)) (by rfl)⟩

/-! ### C9: canned fallback for failed-login requests -/

theorem isPrefixL_append_self : ∀ (p r : List Char), isPrefixL p (p ++ r) = true
  | [], _ => rfl
  | c :: cs, r => by simp [isPrefixL, isPrefixL_append_self cs r]

theorem hasSubL_append_right {n b : List Char} (h : hasSubL n b = true) :
    ∀ (a : List Char), hasSubL n (a ++ b) = true
  | [] => h
  | c :: cs => by
    simp only [List.cons_append, hasSubL, Bool.or_eq_true]
    exact Or.inr (hasSubL_append_right h cs)

theorem isPrefixL_of_append_le :
    ∀ (n x y : List Char), isPrefixL n (x ++ y) = true →
      n.length ≤ x.length → isPrefixL n x = true := by
  intro n
  induction n with
  | nil => intro x y _ _; rfl
  | cons a as ih =>
    intro x y h hl
    match x with
    | [] => simp at hl
    | b :: bs =>
      simp only [List.cons_append, isPrefixL, Bool.and_eq_true] at h ⊢
      exact ⟨h.1, ih bs y h.2 (by simpa using hl)⟩

theorem isPrefixL_drop_of_append :
    ∀ (x n y : List Char), isPrefixL n (x ++ y) = true →
      isPrefixL (n.drop x.length) y = true := by
  intro x
  induction x with
  | nil => intro n y h; simpa using h
  | cons b bs ih =>
    intro n y h
    match n with
    | [] => simp [isPrefixL]
    | a :: as =>
      simp only [List.cons_append, isPrefixL, Bool.and_eq_true] at h
      simpa using ih as y h.2

/-- Any occurrence of `n` in `a ++ b` lies inside `a`, inside `b`, or spans
the boundary with a non-trivial suffix of `n` prefixing `b`. -/
theorem hasSub_append_cases {n : List Char} :
    ∀ {a : List Char} (b : List Char), hasSubL n (a ++ b) = true →
      hasSubL n a = true ∨ hasSubL n b = true ∨
        ∃ k, 0 < k ∧ k < n.length ∧ isPrefixL (n.drop k) b = true := by
  intro a
  induction a with
  | nil => intro b h; exact Or.inr (Or.inl h)
  | cons c cs ih =>
    intro b h
    simp only [List.cons_append, hasSubL, Bool.or_eq_true] at h
    rcases h with h | h
    · by_cases hl : n.length ≤ (c :: cs).length
      · left
        have hpre : isPrefixL n (c :: cs) = true :=
          isPrefixL_of_append_le n (c :: cs) b (by simpa using h) hl
        cases n with
        | nil => simp [hasSubL, isPrefixL]
        | cons a as =>
          simp only [hasSubL, Bool.or_eq_true]
          exact Or.inl hpre
      · right; right
        refine ⟨(c :: cs).length, by simp, by omega, ?_⟩
        exact isPrefixL_drop_of_append (c :: cs) n b (by simpa using h)
    · rcases ih b h with h' | h' | h'
      · left
        cases n with
        | nil => simp [hasSubL, isPrefixL]
        | cons a as =>
          simp only [hasSubL, Bool.or_eq_true]
          exact Or.inr h'
      · exact Or.inr (Or.inl h')
      · exact Or.inr (Or.inr h')

theorem strData_append (a b : String) : (a ++ b).data = a.data ++ b.data := rfl

/-- The fixed tail of the failed-login canned fallback (single-company). -/
def failedLoginTail : String :=
  " earliest=-24h\n| search EventCode=4625 OR match(_raw, \"Failed password|authentication failure|logon failure\")\n| eval user=coalesce(User_Name, user, account, dest_user)\n| eval src=coalesce(src_ip, src, Source_Network_Address, host)\n| stats count by user src\n| sort - count\n| head 10"

theorem unifiedFallback_failed_login_eq {v : ValidatedCtx} {q : String}
    (hq : (strHas (lowerS q) "failed login" || strHas (lowerS q) "login fail") = true) :
    (unifiedFallback false v q).data =
      ("index=" ++ v.index ++ " " ++ v.sourcetype_clause).data ++ failedLoginTail.data := by
  unfold unifiedFallback
  dsimp only
  rw [hq]
  rw [if_pos (rfl : (true : Bool) = true)]
  rw [if_neg (by decide : ¬ ((false : Bool) = true)),
      if_neg (by decide : ¬ ((false : Bool) = true))]
  simp only [strData_append, show ("" : String).data = [] from rfl,
             List.append_nil, List.nil_append, List.append_assoc]
  rfl

/-- C9: when the generation model call raises for a single-company context
(`is_cross_company` false and index not the wildcard) and the request is
failed-login themed, the canned fallback query starts with the validated
scope declaration `index=<validated index> <sourcetype clause>`, contains
the approved limiting keyword `head`, and — whenever the scope declaration
itself is free of the deprecated keyword — contains no occurrence of
`limit` at all. -/
theorem unified_fallback_failed_login (selfData : List Company) (q : String)
    (company : CompanyCtx) (qaPairs : List QA)
    (embedQa : List QA → Except String (List ℚ)) (msg : String)
    (hnc : company.is_cross_company = false)
    (hni : (company.index == some "*") = false)
    (hq : (strHas (lowerS q) "failed login" || strHas (lowerS q) "login fail") = true) :
    strStarts (generateUnifiedSplQuery selfData q company qaPairs ⟨embedQa, .error msg⟩)
      ("index=" ++ (validateCompanyContext selfData false company).index ++ " " ++
        (validateCompanyContext selfData false company).sourcetype_clause) = true ∧
    strHas (generateUnifiedSplQuery selfData q company qaPairs ⟨embedQa, .error msg⟩)
      "head" = true ∧
    (strHas ("index=" ++ (validateCompanyContext selfData false company).index ++ " " ++
        (validateCompanyContext selfData false company).sourcetype_clause) "limit" = false →
      strHas (generateUnifiedSplQuery selfData q company qaPairs ⟨embedQa, .error msg⟩)
        "limit" = false) := by
  have hcross : (company.is_cross_company || company.index == some "*") = false := by
    rw [hnc, hni]; rfl
  have hgen : generateUnifiedSplQuery selfData q company qaPairs ⟨embedQa, .error msg⟩ =
      unifiedFallback false (validateCompanyContext selfData false company) q := by
    unfold generateUnifiedSplQuery
    rw [hcross]
    dsimp only
    cases htb : unifiedTryBlock false (validateCompanyContext selfData false company)
        company qaPairs ⟨embedQa, .error msg⟩ with
    | ok out =>
      exfalso
      unfold unifiedTryBlock at htb
      cases hsel : unifiedQaSelection false company.company_name qaPairs embedQa with
      | error e =>
        rw [hsel] at htb
        simp [Bind.bind, Except.bind] at htb
      | ok xs =>
        rw [hsel] at htb
        simp [Bind.bind, Except.bind] at htb
    | error e => rfl
  rw [hgen]
  set v := validateCompanyContext selfData false company with hv
  have hdata := unifiedFallback_failed_login_eq (v := v) hq
  refine ⟨?_, ?_, ?_⟩
  · unfold strStarts
    rw [hdata]
    exact isPrefixL_append_self _ _
  · unfold strHas
    rw [hdata]
    exact hasSubL_append_right (by decide) _
  · intro hlim
    unfold strHas at hlim ⊢
    rw [hdata]
    by_contra hcon
    simp only [Bool.not_eq_false] at hcon
    rcases hasSub_append_cases failedLoginTail.data hcon with h | h | h
    · rw [h] at hlim; exact Bool.false_ne_true hlim.symm
    · exact absurd h (by decide)
    · obtain ⟨k, hk0, hk5, hpre⟩ := h
      have hk5' : k < 5 := by
        simpa using hk5
      interval_cases k
      · exact absurd hpre (by decide)
      · exact absurd hpre (by decide)
      · exact absurd hpre (by decide)
      · exact absurd hpre (by decide)

/-- Witness for C9 at a concrete single-company context and request. -/
theorem unified_fallback_failed_login_witness :
    (({ company_name := "SafeBank", product_name := "Win Security",
        index := some "SafeBank_win", sourcetype := some "WinEventLog",
        data_model := [], confidence_score := 96/100,
        method := "company_name_direct_match", company_index := 0,
        is_cross_company := false, explicit_company := true } : CompanyCtx).is_cross_company = false ∧
     (({ company_name := "SafeBank", product_name := "Win Security",
          index := some "SafeBank_win", sourcetype := some "WinEventLog",
          data_model := [], confidence_score := 96/100,
          method := "company_name_direct_match", company_index := 0,
          is_cross_company := false, explicit_company := true } : CompanyCtx).index == some "*") = false ∧
     (strHas (lowerS "show failed login attempts") "failed login" ||
      strHas (lowerS "show failed login attempts") "login fail") = true) ∧
    strStarts (generateUnifiedSplQuery [] "show failed login attempts"
        { company_name := "SafeBank", product_name := "Win Security",
          index := some "SafeBank_win", sourcetype := some "WinEventLog",
          data_model := [], confidence_score := 96/100,
          method := "company_name_direct_match", company_index := 0,
          is_cross_company := false, explicit_company := true }
        [] ⟨fun _ => .ok [], .error "model down"⟩)
      ("index=" ++ (validateCompanyContext [] false
          { company_name := "SafeBank", product_name := "Win Security",
            index := some "SafeBank_win", sourcetype := some "WinEventLog",
            data_model := [], confidence_score := 96/100,
            method := "company_name_direct_match", company_index := 0,
            is_cross_company := false, explicit_company := true }).index ++ " " ++
        (validateCompanyContext [] false
          { company_name := "SafeBank", product_name := "Win Security",
            index := some "SafeBank_win", sourcetype := some "WinEventLog",
            data_model := [], confidence_score := 96/100,
            method := "company_name_direct_match", company_index := 0,
            is_cross_company := false, explicit_company := true }).sourcetype_clause) = true :=
  ⟨⟨rfl, by rfl, by decide⟩,
   (unified_fallback_failed_login [] "show failed login attempts"
      { company_name := "SafeBank", product_name := "Win Security",
        index := some "SafeBank_win", sourcetype := some "WinEventLog",
        data_model := [], confidence_score := 96/100,
        method := "company_name_direct_match", company_index := 0,
        is_cross_company := false, explicit_company := true }
      [] (fun _ => .ok []) "model down" rfl (by rfl) (by decide)).1⟩

/-! ### C6 and C7: the orchestrator's failure policy -/

/-- C6: `generate_spl_query` is total over adapter behavior — any exception
escaping the pipeline interior is caught at the top level and converted
into a response with `success=false` whose `error` is the exception
message (and no query text); it never propagates. -/
theorem generate_spl_query_catches_exceptions (data : List Company)
    (qaPairs : List QA) (q : String) (o : GenOracles) (e : String)
    (h : generateSplQueryInner data qaPairs q o = .error e) :
    generateSplQuery data qaPairs q o = { success := false, error := some e } := by
  unfold generateSplQuery
  rw [h]

/-- Witness for C6: the prompt-improvement model call raises `boom` on a
syntax-matched request; the response is the failed record carrying it. -/
theorem generate_spl_query_catches_exceptions_witness :
    generateSplQueryInner [] [] "index=x"
      ⟨fun _ => none, .ok 0, .error "llm down",
       ⟨none, none, none, .error "embedder down"⟩,
       .error "boom", .error "rag down", ⟨fun _ => .ok [], .error "model down"⟩⟩ =
      .error "boom" ∧
    generateSplQuery [] [] "index=x"
      ⟨fun _ => none, .ok 0, .error "llm down",
       ⟨none, none, none, .error "embedder down"⟩,
       .error "boom", .error "rag down", ⟨fun _ => .ok [], .error "model down"⟩⟩ =
      { success := false, error := some "boom" } :=
  ⟨by rfl, generate_spl_query_catches_exceptions _ _ _ _ _ (by rfl)⟩

/-- C7: every response of `generate_spl_query` with `success=false` has no
`spl_query` and a present `error`, for every input and adapter behavior. -/
theorem generate_spl_query_failure_shape (data : List Company)
    (qaPairs : List QA) (q : String) (o : GenOracles)
    (h : (generateSplQuery data qaPairs q o).success = false) :
    (generateSplQuery data qaPairs q o).spl_query = none ∧
    (generateSplQuery data qaPairs q o).error.isSome = true := by
  unfold generateSplQuery at h ⊢
  cases hi : generateSplQueryInner data qaPairs q o with
  | error e => exact ⟨rfl, rfl⟩
  | ok r =>
    rw [hi] at h
    unfold generateSplQueryInner at hi
    cases hrel : isSplunkRelated o.jsonParse o.embedMax o.llmReply q (35/100) with
    | error e2 =>
      rw [hrel] at hi
      simp [Bind.bind, Except.bind] at hi
    | ok rel =>
      rw [hrel] at hi
      simp only [Bind.bind, Except.bind] at hi
      by_cases hb : (!rel.1) = true
      · rw [if_pos hb] at hi
        simp only [Pure.pure, Except.pure, Except.ok.injEq] at hi
        subst hi
        exact ⟨rfl, rfl⟩
      · rw [if_neg hb] at hi
        cases hpf : o.promptFixer with
        | error e3 =>
          rw [hpf] at hi
          simp [Pure.pure, Except.pure, Bind.bind, Except.bind] at hi
        | ok s =>
          rw [hpf] at hi
          simp only [Pure.pure, Except.pure, Bind.bind, Except.bind,
            Except.ok.injEq] at hi
          subst hi
          simp at h

/-- Witness for C7: the embedder raises on an input with no keyword
signal, the exception surfaces as a failed response, and the failed
response carries no query and a present error. -/
theorem generate_spl_query_failure_shape_witness :
    (generateSplQuery [] [] "zzz qqq"
      ⟨fun _ => none, .error "embedder down", .error "llm down",
       ⟨none, none, none, .error "embedder down"⟩,
       .ok "improved", .ok "", ⟨fun _ => .ok [], .ok "index=x"⟩⟩).success = false ∧
    ((generateSplQuery [] [] "zzz qqq"
      ⟨fun _ => none, .error "embedder down", .error "llm down",
       ⟨none, none, none, .error "embedder down"⟩,
       .ok "improved", .ok "", ⟨fun _ => .ok [], .ok "index=x"⟩⟩).spl_query = none ∧
     (generateSplQuery [] [] "zzz qqq"
      ⟨fun _ => none, .error "embedder down", .error "llm down",
       ⟨none, none, none, .error "embedder down"⟩,
       .ok "improved", .ok "", ⟨fun _ => .ok [], .ok "index=x"⟩⟩).error.isSome = true) :=
  ⟨by rfl, generate_spl_query_failure_shape _ _ _ _ (by rfl)⟩

/-- Witness for the amended C4 at concrete inputs. -/
theorem clean_spl_output_limit_rewritten_witness :
    hasLimitMatch (cleanSplOutput "index=x | limit 10 | limit 3").data = false ∧
    subLimit ('|' :: ' ' :: 'l' :: 'i' :: 'm' :: 'i' :: 't' :: ' ' ::
        (['1', '0'] ++ [' ', 'b', 'y'])) =
      '|' :: ' ' :: 'h' :: 'e' :: 'a' :: 'd' :: ' ' :: (['1', '0'] ++ subLimit [' ', 'b', 'y']) :=
  ⟨clean_spl_output_limit_rewritten.1 _,
   clean_spl_output_limit_rewritten.2 ['1', '0'] [' ', 'b', 'y'] (by decide) (by decide)
     (by decide)⟩

/-! ### C5 groundwork: stripping, splitting and matcher facts -/

theorem dropWhile_cons_neg {p : Char → Bool} {c : Char} (l : List Char)
    (h : p c = false) : List.dropWhile p (c :: l) = c :: l := by
  simp [List.dropWhile, h]

theorem dropWhile_cons_pos {p : Char → Bool} {c : Char} (l : List Char)
    (h : p c = true) : List.dropWhile p (c :: l) = List.dropWhile p l := by
  simp [List.dropWhile, h]

theorem dropWhile_head_neg {p : Char → Bool} :
    ∀ {l c r}, List.dropWhile p l = c :: r → p c = false := by
  intro l
  induction l with
  | nil => intro c r h; simp at h
  | cons a t ih =>
    intro c r h
    by_cases hp : p a = true
    · rw [dropWhile_cons_pos t hp] at h; exact ih h
    · rw [dropWhile_cons_neg t (by simpa using hp)] at h
      cases h; simpa using hp

theorem stripR_cons (c : Char) (t : List Char) :
    stripR (c :: t) = match stripR t with
      | [] => if isPySpace c then [] else [c]
      | d :: r => c :: d :: r := rfl

theorem stripR_cons_of_nonws {c : Char} (t : List Char)
    (h : isPySpace c = false) : stripR (c :: t) = c :: stripR t := by
  rw [stripR_cons]
  rcases hs : stripR t with _ | ⟨d, r⟩
  · simp [h]
  · rfl

theorem stripR_eq_rev (l : List Char) :
    ((l.reverse).dropWhile isPySpace).reverse = stripR l := by
  induction l with
  | nil => rfl
  | cons c t ih =>
    rw [List.reverse_cons, List.dropWhile_append]
    rcases hd : t.reverse.dropWhile isPySpace with _ | ⟨d, r⟩
    · have hstrip : stripR t = [] := by rw [← ih, hd]; rfl
      rw [stripR_cons, hstrip]
      by_cases hc : isPySpace c = true
      · simp [List.dropWhile, hc]
      · have hc' : isPySpace c = false := by simpa using hc
        simp [List.dropWhile, hc', hc]
    · have hstrip : stripR t = (d :: r).reverse := by rw [← ih, hd]
      have hcons : stripR (c :: t) = c :: stripR t := by
        rw [stripR_cons]
        rcases hrev : stripR t with _ | ⟨e, s⟩
        · rw [hrev] at hstrip
          exact absurd hstrip.symm (by simp)
        · rfl
      rw [hcons, hstrip]
      simp

theorem pyStripL_eq_stripR (l : List Char) :
    pyStripL l = stripR (List.dropWhile isPySpace l) := by
  unfold pyStripL
  rw [stripR_eq_rev]

theorem stripR_eq_nil {l : List Char} :
    stripR l = [] ↔ ∀ c ∈ l, isPySpace c = true := by
  induction l with
  | nil => simp [stripR]
  | cons c t ih =>
    constructor
    · intro h
      rw [stripR_cons] at h
      rcases hs : stripR t with _ | ⟨d, r⟩
      · rw [hs] at h
        by_cases hc : isPySpace c = true
        · intro x hx
          rcases List.mem_cons.mp hx with rfl | hx
          · exact hc
          · exact ih.1 hs x hx
        · simp [hc] at h
      · rw [hs] at h
        exact absurd h (by simp)
    · intro h
      have hst : stripR t = [] := ih.2 (fun x hx => h x (List.mem_cons_of_mem c hx))
      rw [stripR_cons, hst]
      simp [h c (List.mem_cons_self c t)]

theorem stripR_comm_dropWhile (l : List Char) :
    List.dropWhile isPySpace (stripR l) = stripR (List.dropWhile isPySpace l) := by
  induction l with
  | nil => rfl
  | cons c t ih =>
    by_cases hc : isPySpace c = true
    · rw [dropWhile_cons_pos t hc, ← ih, stripR_cons]
      rcases hs : stripR t with _ | ⟨d, r⟩
      · simp [hc]
      · exact dropWhile_cons_pos _ hc
    · have hc' : isPySpace c = false := by simpa using hc
      rw [dropWhile_cons_neg t hc', stripR_cons_of_nonws t hc',
        dropWhile_cons_neg _ hc']

theorem pyStripL_eq_dropWhile_stripR (l : List Char) :
    pyStripL l = List.dropWhile isPySpace (stripR l) := by
  rw [pyStripL_eq_stripR, stripR_comm_dropWhile]

theorem stripR_append_ws {a : Char} (h : isPySpace a = true) :
    ∀ l : List Char, stripR (l ++ [a]) = stripR l := by
  intro l
  induction l with
  | nil => simp [stripR, h]
  | cons c t ih =>
    show stripR (c :: (t ++ [a])) = stripR (c :: t)
    simp only [stripR, ih]

theorem pyStripL_append_ws {a : Char} (h : isPySpace a = true) (l : List Char) :
    pyStripL (l ++ [a]) = pyStripL l := by
  rw [pyStripL_eq_dropWhile_stripR, pyStripL_eq_dropWhile_stripR,
    stripR_append_ws h]

theorem pyStripL_cons_ws {a : Char} (h : isPySpace a = true) (l : List Char) :
    pyStripL (a :: l) = pyStripL l := by
  rw [pyStripL_eq_stripR, pyStripL_eq_stripR, dropWhile_cons_pos l h]

theorem getLast?_cons_ne_nil {α : Type} {c : α} {t : List α} (h : t ≠ []) :
    (c :: t).getLast? = t.getLast? := by
  rcases t with _ | ⟨d, r⟩
  · exact absurd rfl h
  · exact List.getLast?_cons_cons

theorem stripR_of_lastNW :
    ∀ {l : List Char}, (∀ c, l.getLast? = some c → isPySpace c = false) →
      stripR l = l := by
  intro l
  induction l with
  | nil => intro _; rfl
  | cons c t ih =>
    intro h
    rcases ht : t with _ | ⟨d, r⟩
    · subst ht
      have hc := h c (by simp)
      rw [stripR_cons]
      show (if isPySpace c then [] else [c] : List Char) = [c]
      simp [hc]
    · have htne : t ≠ [] := by rw [ht]; simp
      have hstep : (c :: t).getLast? = t.getLast? := getLast?_cons_ne_nil htne
      have hst : stripR t = t := ih (fun x hx => h x (by rw [hstep]; exact hx))
      rw [ht] at hst
      rw [stripR_cons, hst]

theorem pyStripL_eq_self {l : List Char}
    (hh : ∀ c, l.head? = some c → isPySpace c = false)
    (hl : ∀ c, l.getLast? = some c → isPySpace c = false) :
    pyStripL l = l := by
  rw [pyStripL_eq_dropWhile_stripR, stripR_of_lastNW hl]
  rcases l with _ | ⟨c, t⟩
  · rfl
  · exact dropWhile_cons_neg t (hh c rfl)

theorem splitOnChar_cons_sep (sep : Char) (l : List Char) :
    splitOnChar sep (sep :: l) = [] :: splitOnChar sep l := by
  simp [splitOnChar]

theorem splitOnChar_ne_nil (sep : Char) : ∀ l, splitOnChar sep l ≠ [] := by
  intro l
  induction l with
  | nil => exact fun h => List.cons_ne_nil _ _ h
  | cons c t ih =>
    intro hcontra
    by_cases h : (c == sep) = true
    · rw [show c = sep from by simpa using h, splitOnChar_cons_sep] at hcontra
      exact List.cons_ne_nil _ _ hcontra
    · have h' : (c == sep) = false := by simpa using h
      rcases hs : splitOnChar sep t with _ | ⟨r, rs⟩
      · exact ih hs
      · rw [show splitOnChar sep (c :: t) = (c :: r) :: rs from by
          simp [splitOnChar, h', hs]] at hcontra
        exact List.cons_ne_nil _ _ hcontra

theorem splitOnChar_cons_ne {sep c : Char} (h : c ≠ sep) {l : List Char}
    {p : List Char} {ps : List (List Char)}
    (hs : splitOnChar sep l = p :: ps) :
    splitOnChar sep (c :: l) = (c :: p) :: ps := by
  have hb : (c == sep) = false := by simpa using h
  simp [splitOnChar, hb, hs]

theorem splitOnChar_eq_single {sep : Char} :
    ∀ {l : List Char}, (∀ c ∈ l, c ≠ sep) → splitOnChar sep l = [l] := by
  intro l
  induction l with
  | nil => intro _; rfl
  | cons c t ih =>
    intro h
    have hrec := ih (fun x hx => h x (List.mem_cons_of_mem c hx))
    exact splitOnChar_cons_ne (h c (List.mem_cons_self c t)) hrec

theorem splitOnChar_decomp {sep : Char} :
    ∀ {l : List Char} {p : List Char} {ps : List (List Char)},
      splitOnChar sep l = p :: ps →
      l = p ++ (ps.map (fun q => sep :: q)).join := by
  intro l
  induction l with
  | nil =>
    intro p ps h
    injection (show ([] : List Char) :: [] = p :: ps from h) with h1 h2
    subst h1; subst h2
    simp
  | cons c t ih =>
    intro p ps h
    by_cases hc : c = sep
    · subst hc
      rw [splitOnChar_cons_sep] at h
      rcases hs : splitOnChar c t with _ | ⟨p', ps'⟩
      · exact absurd hs (splitOnChar_ne_nil c t)
      · rw [hs] at h
        cases h
        have := ih hs
        simp [this]
    · rcases hs : splitOnChar sep t with _ | ⟨p', ps'⟩
      · exact absurd hs (splitOnChar_ne_nil sep t)
      · rw [splitOnChar_cons_ne hc hs] at h
        cases h
        have := ih hs
        simp [this]

theorem splitOnChar_mem_infix {sep : Char} {l q : List Char}
    (hq : q ∈ splitOnChar sep l) : ∃ a b, l = a ++ q ++ b := by
  rcases hs : splitOnChar sep l with _ | ⟨p, ps⟩
  · exact absurd hs (splitOnChar_ne_nil sep l)
  · have hdec := splitOnChar_decomp hs
    rw [hs] at hq
    rcases List.mem_cons.mp hq with rfl | hq
    · exact ⟨[], (ps.map (fun r => sep :: r)).join, by simpa using hdec⟩
    · obtain ⟨u, v, huv⟩ := List.append_of_mem hq
      subst huv
      refine ⟨p ++ (u.map (fun r => sep :: r)).join ++ [sep],
        (v.map (fun r => sep :: r)).join, ?_⟩
      simp [hdec]

theorem splitOnChar_mem_no_sep {sep : Char} :
    ∀ {l q : List Char}, q ∈ splitOnChar sep l → sep ∉ q := by
  intro l
  induction l with
  | nil =>
    intro q hq
    simp [splitOnChar] at hq
    simp [hq]
  | cons c t ih =>
    intro q hq
    by_cases h : c == sep
    · rw [show c = sep from by simpa using h, splitOnChar_cons_sep] at hq
      rcases List.mem_cons.mp hq with rfl | hq
      · simp
      · exact ih hq
    · have h' : c ≠ sep := by simpa using h
      rcases hs : splitOnChar sep t with _ | ⟨p, ps⟩
      · exact absurd hs (splitOnChar_ne_nil sep t)
      · rw [splitOnChar_cons_ne h' hs] at hq
        rcases List.mem_cons.mp hq with rfl | hq
        · intro hmem
          rcases List.mem_cons.mp hmem with rfl | hmem
          · exact h' rfl
          · exact ih (hs ▸ List.mem_cons_self p ps) hmem
        · exact ih (hs ▸ List.mem_cons_of_mem p hq)

/-! ### C5 groundwork: matcher steppers and grammar facts -/

theorem matchPipeAt_cons_ws {w : Char} (l : List Char) (h : isPySpace w = true) :
    matchPipeAt (w :: l) = matchPipeAt l := by
  unfold matchPipeAt
  rw [dropWhile_cons_pos l h]

theorem matchPipeAt_pipe (l : List Char) :
    matchPipeAt ('|' :: l) = some (List.dropWhile isPySpace l) := by
  unfold matchPipeAt
  rw [dropWhile_cons_neg l (by decide)]
  rfl

theorem matchPipeAt_cons_plain {c : Char} (l : List Char)
    (h1 : isPySpace c = false) (h2 : c ≠ '|') :
    matchPipeAt (c :: l) = none := by
  unfold matchPipeAt
  rw [dropWhile_cons_neg l h1]
  split
  · rename_i rs heq
    injection heq with h3 _
    exact absurd h3 h2
  · rfl

theorem matchEqAt_cons_ws {w : Char} (l : List Char) (h : isPySpace w = true) :
    matchEqAt (w :: l) = matchEqAt l := by
  unfold matchEqAt
  rw [dropWhile_cons_pos l h]

theorem matchEqAt_eq (l : List Char) :
    matchEqAt ('=' :: l) = some (List.dropWhile isPySpace l) := by
  unfold matchEqAt
  rw [dropWhile_cons_neg l (by decide)]
  rfl

theorem matchEqAt_cons_plain {c : Char} (l : List Char)
    (h1 : isPySpace c = false) (h2 : c ≠ '=') :
    matchEqAt (c :: l) = none := by
  unfold matchEqAt
  rw [dropWhile_cons_neg l h1]
  split
  · rename_i rs heq
    injection heq with h3 _
    exact absurd h3 h2
  · rfl

theorem subPipeGo_succ_some {f : Nat} {c : Char} {cs rest : List Char}
    (h : matchPipeAt (c :: cs) = some rest) :
    subPipeGo (f + 1) (c :: cs) = ' ' :: '|' :: ' ' :: subPipeGo f rest := by
  simp [subPipeGo, h]

theorem subPipeGo_succ_none {f : Nat} {c : Char} {cs : List Char}
    (h : matchPipeAt (c :: cs) = none) :
    subPipeGo (f + 1) (c :: cs) = c :: subPipeGo f cs := by
  simp [subPipeGo, h]

theorem subEqGo_succ_some {f : Nat} {c : Char} {cs rest : List Char}
    (h : matchEqAt (c :: cs) = some rest) :
    subEqGo (f + 1) (c :: cs) = '=' :: subEqGo f rest := by
  simp [subEqGo, h]

theorem subEqGo_succ_none {f : Nat} {c : Char} {cs : List Char}
    (h : matchEqAt (c :: cs) = none) :
    subEqGo (f + 1) (c :: cs) = c :: subEqGo f cs := by
  simp [subEqGo, h]

theorem Gr_W_ne_nil {t : List Char} (h : Gr .W t) : t ≠ [] := by
  cases h <;> simp

theorem Gq_W_ne_nil {t : List Char} (h : Gq .qW t) : t ≠ [] := by
  cases h <;> simp

theorem Gp_W_ne_nil {t : List Char} (h : Gp .pW t) : t ≠ [] := by
  cases h <;> simp

theorem Gq_P_ne_nil {t : List Char} (h : Gq .qP t) : t ≠ [] := by
  cases h <;> simp

theorem lastNW_cons_of_ne {c : Char} {t : List Char} (hne : t ≠ [])
    (ih : ∀ x, t.getLast? = some x → isPySpace x = false) :
    ∀ x, (c :: t).getLast? = some x → isPySpace x = false := by
  intro x hx
  rw [getLast?_cons_ne_nil hne] at hx
  exact ih x hx

theorem lastNW_cons {c : Char} {t : List Char} (hc : isPySpace c = false)
    (ih : ∀ x, t.getLast? = some x → isPySpace x = false) :
    ∀ x, (c :: t).getLast? = some x → isPySpace x = false := by
  intro x hx
  rcases t with _ | ⟨d, r⟩
  · simp at hx
    subst hx
    exact hc
  · rw [getLast?_cons_ne_nil (by simp)] at hx
    exact ih x hx

theorem Gr_lastNW : ∀ {s : GSt} {t : List Char}, Gr s t →
    ∀ c, t.getLast? = some c → isPySpace c = false := by
  intro s t h
  induction h with
  | nilE => intro c hc; cases hc
  | nilA => intro c hc; cases hc
  | nilP => intro c hc; cases hc
  | plainE hp _ ih => exact lastNW_cons hp.1 ih
  | eqE _ ih => exact lastNW_cons (by decide) ih
  | pipeE _ ih => exact lastNW_cons (by decide) ih
  | plainA hp _ ih => exact lastNW_cons hp.1 ih
  | eqA _ ih => exact lastNW_cons (by decide) ih
  | pipeA _ ih => exact lastNW_cons_of_ne (by simp) (lastNW_cons (by decide) ih)
  | wsA hw hW ih => exact lastNW_cons_of_ne (Gr_W_ne_nil hW) ih
  | plainW hp _ ih => exact lastNW_cons hp.1 ih
  | wsW hw hW ih => exact lastNW_cons_of_ne (Gr_W_ne_nil hW) ih
  | eqP _ ih => exact lastNW_cons (by decide) ih
  | spP hp _ ih => exact lastNW_cons_of_ne (by simp) (lastNW_cons hp.1 ih)
  | chainP _ ih =>
      exact lastNW_cons_of_ne (by simp)
        (lastNW_cons_of_ne (by simp) (lastNW_cons (by decide) ih))

theorem Gr_E_headNW {t : List Char} (h : Gr .E t) :
    ∀ c, t.head? = some c → isPySpace c = false := by
  cases h with
  | nilE => intro c hc; cases hc
  | plainE hp _ =>
      intro x hx
      simp at hx
      subst hx
      exact hp.1
  | eqE _ => intro x hx; simp at hx; subst hx; decide
  | pipeE _ => intro x hx; simp at hx; subst hx; decide

theorem Gr_stripped {l : List Char} (h : Gr .E l) : pyStripL l = l :=
  pyStripL_eq_self (Gr_E_headNW h) (Gr_lastNW h)

theorem Gr_no_nl : ∀ {s : GSt} {t : List Char}, Gr s t → '\n' ∉ t := by
  intro s t h
  induction h with
  | nilE => simp
  | nilA => simp
  | nilP => simp
  | plainE hp _ ih =>
      intro hm
      rcases List.mem_cons.mp hm with heq | hm
      · rw [← heq] at hp
        exact absurd hp.1 (by decide)
      · exact ih hm
  | eqE _ ih =>
      intro hm
      rcases List.mem_cons.mp hm with heq | hm
      · exact absurd heq (by decide)
      · exact ih hm
  | pipeE _ ih =>
      intro hm
      rcases List.mem_cons.mp hm with heq | hm
      · exact absurd heq (by decide)
      · exact ih hm
  | plainA hp _ ih =>
      intro hm
      rcases List.mem_cons.mp hm with heq | hm
      · rw [← heq] at hp
        exact absurd hp.1 (by decide)
      · exact ih hm
  | eqA _ ih =>
      intro hm
      rcases List.mem_cons.mp hm with heq | hm
      · exact absurd heq (by decide)
      · exact ih hm
  | pipeA _ ih =>
      intro hm
      rcases List.mem_cons.mp hm with heq | hm
      · exact absurd heq (by decide)
      · rcases List.mem_cons.mp hm with heq | hm
        · exact absurd heq (by decide)
        · exact ih hm
  | wsA hw _ ih =>
      intro hm
      rcases List.mem_cons.mp hm with heq | hm
      · rw [← heq] at hw
        exact absurd rfl hw.2
      · exact ih hm
  | plainW hp _ ih =>
      intro hm
      rcases List.mem_cons.mp hm with heq | hm
      · rw [← heq] at hp
        exact absurd hp.1 (by decide)
      · exact ih hm
  | wsW hw _ ih =>
      intro hm
      rcases List.mem_cons.mp hm with heq | hm
      · rw [← heq] at hw
        exact absurd rfl hw.2
      · exact ih hm
  | eqP _ ih =>
      intro hm
      rcases List.mem_cons.mp hm with heq | hm
      · exact absurd heq (by decide)
      · exact ih hm
  | spP hp _ ih =>
      intro hm
      rcases List.mem_cons.mp hm with heq | hm
      · exact absurd heq (by decide)
      · rcases List.mem_cons.mp hm with heq | hm
        · rw [← heq] at hp
          exact absurd hp.1 (by decide)
        · exact ih hm
  | chainP _ ih =>
      intro hm
      rcases List.mem_cons.mp hm with heq | hm
      · exact absurd heq (by decide)
      · rcases List.mem_cons.mp hm with heq | hm
        · exact absurd heq (by decide)
        · rcases List.mem_cons.mp hm with heq | hm
          · exact absurd heq (by decide)
          · exact ih hm

theorem padTail_nil : padTail [] = [] := rfl

theorem padTail_cons_of_ne_nil {t : List Char} (h : t ≠ []) (c : Char) :
    padTail (c :: t) = c :: padTail t := by
  unfold padTail
  rw [getLast?_cons_ne_nil h]
  by_cases hlast : t.getLast? = some '|'
  · rw [if_pos hlast, if_pos hlast]
    rfl
  · rw [if_neg hlast, if_neg hlast]

theorem padTail_singleton (c : Char) :
    padTail [c] = if c = '|' then [c, ' '] else [c] := by
  unfold padTail
  simp

theorem padTail_cons_ne_pipe {c : Char} (hc : c ≠ '|') (t : List Char) :
    padTail (c :: t) = c :: padTail t := by
  rcases t with _ | ⟨d, r⟩
  · rw [padTail_singleton, if_neg hc]
    rfl
  · exact padTail_cons_of_ne_nil (by simp) c

theorem matchPipeAt_length {l rest : List Char} (h : matchPipeAt l = some rest) :
    rest.length < l.length := by
  unfold matchPipeAt at h
  cases hd : List.dropWhile isPySpace l with
  | nil => rw [hd] at h; exact absurd h (by simp)
  | cons c rs =>
    rw [hd] at h
    split at h
    · rename_i rs2 heq
      injection h with h2
      injection heq with hc hrs
      subst hrs
      have h1 := length_dropWhile_le isPySpace rs
      have h2l := length_dropWhile_le isPySpace l
      rw [hd] at h2l
      simp only [List.length_cons] at h2l
      rw [← h2]
      omega
    · exact absurd h (by simp)

theorem matchEqAt_length {l rest : List Char} (h : matchEqAt l = some rest) :
    rest.length < l.length := by
  unfold matchEqAt at h
  cases hd : List.dropWhile isPySpace l with
  | nil => rw [hd] at h; exact absurd h (by simp)
  | cons c rs =>
    rw [hd] at h
    split at h
    · rename_i rs2 heq
      injection h with h2
      injection heq with hc hrs
      subst hrs
      have h1 := length_dropWhile_le isPySpace rs
      have h2l := length_dropWhile_le isPySpace l
      rw [hd] at h2l
      simp only [List.length_cons] at h2l
      rw [← h2]
      omega
    · exact absurd h (by simp)

theorem subPipeGo_fuel :
    ∀ (f g : Nat) (l : List Char), l.length ≤ f → l.length ≤ g →
      subPipeGo f l = subPipeGo g l := by
  intro f
  induction f with
  | zero =>
    intro g l hf _
    have : l = [] := List.length_eq_zero.mp (Nat.le_zero.mp hf)
    subst this
    cases g <;> rfl
  | succ f ih =>
    intro g l hf hg
    match l with
    | [] => cases g <;> rfl
    | c :: cs =>
      match g with
      | 0 => exact absurd hg (by simp)
      | g + 1 =>
        cases hm : matchPipeAt (c :: cs) with
        | none =>
          rw [subPipeGo_succ_none hm, subPipeGo_succ_none hm,
            ih g cs (by simp at hf; omega) (by simp at hg; omega)]
        | some rest =>
          have hlen := matchPipeAt_length hm
          simp only [List.length_cons] at hlen
          rw [subPipeGo_succ_some hm, subPipeGo_succ_some hm,
            ih g rest (by simp at hf; omega) (by simp at hg; omega)]

theorem subEqGo_fuel :
    ∀ (f g : Nat) (l : List Char), l.length ≤ f → l.length ≤ g →
      subEqGo f l = subEqGo g l := by
  intro f
  induction f with
  | zero =>
    intro g l hf _
    have : l = [] := List.length_eq_zero.mp (Nat.le_zero.mp hf)
    subst this
    cases g <;> rfl
  | succ f ih =>
    intro g l hf hg
    match l with
    | [] => cases g <;> rfl
    | c :: cs =>
      match g with
      | 0 => exact absurd hg (by simp)
      | g + 1 =>
        cases hm : matchEqAt (c :: cs) with
        | none =>
          rw [subEqGo_succ_none hm, subEqGo_succ_none hm,
            ih g cs (by simp at hf; omega) (by simp at hg; omega)]
        | some rest =>
          have hlen := matchEqAt_length hm
          simp only [List.length_cons] at hlen
          rw [subEqGo_succ_some hm, subEqGo_succ_some hm,
            ih g rest (by simp at hf; omega) (by simp at hg; omega)]

theorem subPipe_nil : subPipe [] = [] := rfl

theorem subEq_nil : subEq [] = [] := rfl

theorem subPipe_cons_none {c : Char} {cs : List Char}
    (h : matchPipeAt (c :: cs) = none) :
    subPipe (c :: cs) = c :: subPipe cs := by
  unfold subPipe
  rw [show (c :: cs).length = cs.length + 1 from rfl, subPipeGo_succ_none h]

theorem subPipe_cons_some {c : Char} {cs rest : List Char}
    (h : matchPipeAt (c :: cs) = some rest) :
    subPipe (c :: cs) = ' ' :: '|' :: ' ' :: subPipe rest := by
  have hlen := matchPipeAt_length h
  simp only [List.length_cons] at hlen
  unfold subPipe
  rw [show (c :: cs).length = cs.length + 1 from rfl, subPipeGo_succ_some h,
    subPipeGo_fuel cs.length rest.length rest (by omega) le_rfl]

theorem subEq_cons_none {c : Char} {cs : List Char}
    (h : matchEqAt (c :: cs) = none) :
    subEq (c :: cs) = c :: subEq cs := by
  unfold subEq
  rw [show (c :: cs).length = cs.length + 1 from rfl, subEqGo_succ_none h]

theorem subEq_cons_some {c : Char} {cs rest : List Char}
    (h : matchEqAt (c :: cs) = some rest) :
    subEq (c :: cs) = '=' :: subEq rest := by
  have hlen := matchEqAt_length h
  simp only [List.length_cons] at hlen
  unfold subEq
  rw [show (c :: cs).length = cs.length + 1 from rfl, subEqGo_succ_some h,
    subEqGo_fuel cs.length rest.length rest (by omega) le_rfl]

theorem matchPipeAt_none_of_head {l : List Char} {c : Char} {r : List Char}
    (hd : List.dropWhile isPySpace l = c :: r) (hc : c ≠ '|') :
    matchPipeAt l = none := by
  unfold matchPipeAt
  rw [hd]
  split
  · rename_i rs heq
    injection heq with h1 _
    exact absurd h1 hc
  · rfl

theorem matchEqAt_none_of_head {l : List Char} {c : Char} {r : List Char}
    (hd : List.dropWhile isPySpace l = c :: r) (hc : c ≠ '=') :
    matchEqAt (l) = none := by
  unfold matchEqAt
  rw [hd]
  split
  · rename_i rs heq
    injection heq with h1 _
    exact absurd h1 hc
  · rfl

theorem matchPipeAt_none_of_dw_nil {l : List Char}
    (hd : List.dropWhile isPySpace l = []) : matchPipeAt l = none := by
  unfold matchPipeAt
  rw [hd]

theorem matchEqAt_none_of_dw_nil {l : List Char}
    (hd : List.dropWhile isPySpace l = []) : matchEqAt l = none := by
  unfold matchEqAt
  rw [hd]

theorem matchPipeAt_nil : matchPipeAt [] = none := rfl

theorem matchEqAt_nil : matchEqAt [] = none := rfl

theorem pySpace_ne_eqch {c : Char} (h : isPySpace c = true) : c ≠ '=' := by
  intro he
  subst he
  exact absurd h (by decide)

/-- Per-state induction statement for the round trip of the pipe and
assignment normalizers over a normal-form string. -/
def RTStmt : GSt → List Char → Prop
  | .E, t => subEq (List.dropWhile isPySpace (subPipe t)) = padTail t ∧
      subEq (subPipe t) =
        (if t.head? = some '|' then ' ' :: padTail t else padTail t)
  | .A, t => subEq (subPipe t) = padTail t
  | .W, t => subEq (subPipe t) = padTail t ∧
      (∃ c r, List.dropWhile isPySpace t = c :: r ∧ plainC c) ∧
      (∃ c r, List.dropWhile isPySpace (subPipe t) = c :: r ∧ plainC c)
  | .P, t => subEq (' ' :: subPipe (List.dropWhile isPySpace t)) =
      (if t = [] then [' '] else padTail t)

theorem Gr_roundtrip : ∀ {s : GSt} {t : List Char}, Gr s t → RTStmt s t := by
  intro s t h
  induction h with
  | nilE => exact ⟨rfl, rfl⟩
  | nilA => exact rfl
  | nilP => exact rfl
  | @plainE c u hp hA ih =>
    have hnm : matchPipeAt (c :: u) = none := matchPipeAt_cons_plain u hp.1 hp.2.1
    have hpipe : subPipe (c :: u) = c :: subPipe u := subPipe_cons_none hnm
    have hem : matchEqAt (c :: subPipe u) = none :=
      matchEqAt_cons_plain _ hp.1 hp.2.2
    have hih : subEq (subPipe u) = padTail u := ih
    refine ⟨?_, ?_⟩
    · show subEq (List.dropWhile isPySpace (subPipe (c :: u))) = padTail (c :: u)
      rw [hpipe, dropWhile_cons_neg _ hp.1, subEq_cons_none hem, hih,
        padTail_cons_ne_pipe hp.2.1]
    · show subEq (subPipe (c :: u)) = _
      rw [if_neg (by simp [hp.2.1])]
      rw [hpipe, subEq_cons_none hem, hih, padTail_cons_ne_pipe hp.2.1]
  | @eqE u hE ih =>
    have hnm : matchPipeAt ('=' :: u) = none :=
      matchPipeAt_cons_plain u (by decide) (by decide)
    have hpipe : subPipe ('=' :: u) = '=' :: subPipe u := subPipe_cons_none hnm
    have hem : matchEqAt ('=' :: subPipe u) =
        some (List.dropWhile isPySpace (subPipe u)) := matchEqAt_eq _
    refine ⟨?_, ?_⟩
    · show subEq (List.dropWhile isPySpace (subPipe ('=' :: u))) = padTail ('=' :: u)
      rw [hpipe, dropWhile_cons_neg _ (by decide), subEq_cons_some hem, ih.1,
        padTail_cons_ne_pipe (by decide)]
    · show subEq (subPipe ('=' :: u)) = _
      rw [if_neg (by simp)]
      rw [hpipe, subEq_cons_some hem, ih.1, padTail_cons_ne_pipe (by decide)]
  | @pipeE u hP ih =>
    have hm : matchPipeAt ('|' :: u) = some (List.dropWhile isPySpace u) :=
      matchPipeAt_pipe u
    have hpipe : subPipe ('|' :: u) =
        ' ' :: '|' :: ' ' :: subPipe (List.dropWhile isPySpace u) :=
      subPipe_cons_some hm
    have hpe : subEq (' ' :: subPipe (List.dropWhile isPySpace u)) =
        (if u = [] then [' '] else padTail u) := ih
    have hnm1 : matchEqAt ('|' :: ' ' :: subPipe (List.dropWhile isPySpace u)) = none :=
      matchEqAt_cons_plain _ (by decide) (by decide)
    refine ⟨?_, ?_⟩
    · show subEq (List.dropWhile isPySpace (subPipe ('|' :: u))) = padTail ('|' :: u)
      rw [hpipe, dropWhile_cons_pos _ (by decide), dropWhile_cons_neg _ (by decide),
        subEq_cons_none hnm1, hpe]
      rcases u with _ | ⟨d, v⟩
      · rfl
      · have hne : (d :: v : List Char) ≠ [] := by simp
        rw [if_neg (by simp), padTail_cons_of_ne_nil hne]
    · show subEq (subPipe ('|' :: u)) = _
      rw [if_pos (by simp)]
      have hnm0 : matchEqAt
          (' ' :: '|' :: ' ' :: subPipe (List.dropWhile isPySpace u)) = none := by
        rw [matchEqAt_cons_ws _ (by decide)]
        exact hnm1
      rw [hpipe, subEq_cons_none hnm0, subEq_cons_none hnm1, hpe]
      rcases u with _ | ⟨d, v⟩
      · rfl
      · have hne : (d :: v : List Char) ≠ [] := by simp
        rw [if_neg (by simp), padTail_cons_of_ne_nil hne]
  | @plainA c u hp hA ih =>
    have hnm : matchPipeAt (c :: u) = none := matchPipeAt_cons_plain u hp.1 hp.2.1
    have hpipe : subPipe (c :: u) = c :: subPipe u := subPipe_cons_none hnm
    have hem : matchEqAt (c :: subPipe u) = none :=
      matchEqAt_cons_plain _ hp.1 hp.2.2
    show subEq (subPipe (c :: u)) = padTail (c :: u)
    rw [hpipe, subEq_cons_none hem, ih, padTail_cons_ne_pipe hp.2.1]
  | @eqA u hE ih =>
    have hnm : matchPipeAt ('=' :: u) = none :=
      matchPipeAt_cons_plain u (by decide) (by decide)
    have hpipe : subPipe ('=' :: u) = '=' :: subPipe u := subPipe_cons_none hnm
    have hem : matchEqAt ('=' :: subPipe u) =
        some (List.dropWhile isPySpace (subPipe u)) := matchEqAt_eq _
    show subEq (subPipe ('=' :: u)) = padTail ('=' :: u)
    rw [hpipe, subEq_cons_some hem, ih.1, padTail_cons_ne_pipe (by decide)]
  | @pipeA u hP ih =>
    have hm : matchPipeAt (' ' :: '|' :: u) = some (List.dropWhile isPySpace u) := by
      rw [matchPipeAt_cons_ws _ (by decide), matchPipeAt_pipe]
    have hpipe : subPipe (' ' :: '|' :: u) =
        ' ' :: '|' :: ' ' :: subPipe (List.dropWhile isPySpace u) :=
      subPipe_cons_some hm
    have hnm2 : matchEqAt ('|' :: ' ' :: subPipe (List.dropWhile isPySpace u)) = none :=
      matchEqAt_cons_plain _ (by decide) (by decide)
    have hnm1 : matchEqAt
        (' ' :: '|' :: ' ' :: subPipe (List.dropWhile isPySpace u)) = none := by
      rw [matchEqAt_cons_ws _ (by decide)]
      exact hnm2
    show subEq (subPipe (' ' :: '|' :: u)) = padTail (' ' :: '|' :: u)
    rw [hpipe, subEq_cons_none hnm1, subEq_cons_none hnm2, ih]
    rcases u with _ | ⟨d, v⟩
    · rfl
    · have hne : (d :: v : List Char) ≠ [] := by simp
      rw [if_neg (by simp), padTail_cons_ne_pipe (by decide : (' ' : Char) ≠ '|'),
        padTail_cons_of_ne_nil hne]
  | @wsA w u hw hW ih =>
    obtain ⟨ihm, ⟨c2, r2, hdw, hc2⟩, ⟨c3, r3, hdw3, hc3⟩⟩ := ih
    have hnm : matchPipeAt (w :: u) = none := by
      rw [matchPipeAt_cons_ws _ hw.1]
      exact matchPipeAt_none_of_head hdw hc2.2.1
    have hpipe : subPipe (w :: u) = w :: subPipe u := subPipe_cons_none hnm
    have hem : matchEqAt (w :: subPipe u) = none := by
      rw [matchEqAt_cons_ws _ hw.1]
      exact matchEqAt_none_of_head hdw3 hc3.2.2
    show subEq (subPipe (w :: u)) = padTail (w :: u)
    rw [hpipe, subEq_cons_none hem, ihm, padTail_cons_ne_pipe (pySpace_ne_pipe hw.1)]
  | @plainW c u hp hA ih =>
    have hnm : matchPipeAt (c :: u) = none := matchPipeAt_cons_plain u hp.1 hp.2.1
    have hpipe : subPipe (c :: u) = c :: subPipe u := subPipe_cons_none hnm
    have hem : matchEqAt (c :: subPipe u) = none :=
      matchEqAt_cons_plain _ hp.1 hp.2.2
    refine ⟨?_, ⟨c, u, dropWhile_cons_neg u hp.1, hp⟩, ⟨c, subPipe u, ?_, hp⟩⟩
    · show subEq (subPipe (c :: u)) = padTail (c :: u)
      rw [hpipe, subEq_cons_none hem, ih, padTail_cons_ne_pipe hp.2.1]
    · rw [hpipe]
      exact dropWhile_cons_neg _ hp.1
  | @wsW w u hw hW ih =>
    obtain ⟨ihm, ⟨c2, r2, hdw, hc2⟩, ⟨c3, r3, hdw3, hc3⟩⟩ := ih
    have hnm : matchPipeAt (w :: u) = none := by
      rw [matchPipeAt_cons_ws _ hw.1]
      exact matchPipeAt_none_of_head hdw hc2.2.1
    have hpipe : subPipe (w :: u) = w :: subPipe u := subPipe_cons_none hnm
    have hem : matchEqAt (w :: subPipe u) = none := by
      rw [matchEqAt_cons_ws _ hw.1]
      exact matchEqAt_none_of_head hdw3 hc3.2.2
    refine ⟨?_, ⟨c2, r2, ?_, hc2⟩, ⟨c3, r3, ?_, hc3⟩⟩
    · show subEq (subPipe (w :: u)) = padTail (w :: u)
      rw [hpipe, subEq_cons_none hem, ihm, padTail_cons_ne_pipe (pySpace_ne_pipe hw.1)]
    · rw [dropWhile_cons_pos u hw.1]
      exact hdw
    · rw [hpipe, dropWhile_cons_pos _ hw.1]
      exact hdw3
  | @eqP u hE ih =>
    show subEq (' ' :: subPipe (List.dropWhile isPySpace ('=' :: u))) = _
    rw [dropWhile_cons_neg u (by decide)]
    have hnm : matchPipeAt ('=' :: u) = none :=
      matchPipeAt_cons_plain u (by decide) (by decide)
    rw [subPipe_cons_none hnm]
    have hem : matchEqAt (' ' :: '=' :: subPipe u) =
        some (List.dropWhile isPySpace (subPipe u)) := by
      rw [matchEqAt_cons_ws _ (by decide), matchEqAt_eq]
    rw [subEq_cons_some hem, ih.1, if_neg (by simp),
      padTail_cons_ne_pipe (by decide : ('=' : Char) ≠ '|')]
  | @spP c u hp hA ih =>
    show subEq (' ' :: subPipe (List.dropWhile isPySpace (' ' :: c :: u))) = _
    rw [dropWhile_cons_pos _ (by decide), dropWhile_cons_neg _ hp.1]
    have hnm : matchPipeAt (c :: u) = none := matchPipeAt_cons_plain u hp.1 hp.2.1
    rw [subPipe_cons_none hnm]
    have hem1 : matchEqAt (c :: subPipe u) = none :=
      matchEqAt_cons_plain _ hp.1 hp.2.2
    have hem0 : matchEqAt (' ' :: c :: subPipe u) = none := by
      rw [matchEqAt_cons_ws _ (by decide)]
      exact hem1
    rw [subEq_cons_none hem0, subEq_cons_none hem1, ih, if_neg (by simp),
      padTail_cons_ne_pipe (by decide : (' ' : Char) ≠ '|'),
      padTail_cons_ne_pipe hp.2.1]
  | @chainP u hP ih =>
    show subEq (' ' :: subPipe (List.dropWhile isPySpace (' ' :: ' ' :: '|' :: u))) = _
    rw [dropWhile_cons_pos _ (by decide), dropWhile_cons_pos _ (by decide),
      dropWhile_cons_neg _ (by decide)]
    rw [subPipe_cons_some (matchPipeAt_pipe u)]
    have hnm2 : matchEqAt ('|' :: ' ' :: subPipe (List.dropWhile isPySpace u)) = none :=
      matchEqAt_cons_plain _ (by decide) (by decide)
    have hnm1 : matchEqAt
        (' ' :: '|' :: ' ' :: subPipe (List.dropWhile isPySpace u)) = none := by
      rw [matchEqAt_cons_ws _ (by decide)]
      exact hnm2
    have hnm0 : matchEqAt
        (' ' :: ' ' :: '|' :: ' ' :: subPipe (List.dropWhile isPySpace u)) = none := by
      rw [matchEqAt_cons_ws _ (by decide)]
      exact hnm1
    rw [subEq_cons_none hnm0, subEq_cons_none hnm1, subEq_cons_none hnm2, ih]
    rcases u with _ | ⟨d, v⟩
    · rfl
    · have hne : (d :: v : List Char) ≠ [] := by simp
      rw [if_neg (by simp), if_neg (by simp),
        padTail_cons_ne_pipe (by decide : (' ' : Char) ≠ '|'),
        padTail_cons_ne_pipe (by decide : (' ' : Char) ≠ '|'),
        padTail_cons_of_ne_nil hne]

/-! ### C5: the `limit` rewriter preserves the normal-form grammar -/

theorem Gr_pyStrip_subEq_subPipe {l : List Char} (h : Gr .E l) :
    pyStripL (subEq (subPipe l)) = l := by
  rw [(Gr_roundtrip h).2]
  have hpad : pyStripL (padTail l) = l := by
    unfold padTail
    by_cases hl : l.getLast? = some '|'
    · rw [if_pos hl, pyStripL_append_ws (by decide), Gr_stripped h]
    · rw [if_neg hl, Gr_stripped h]
  by_cases hh : l.head? = some '|'
  · rw [if_pos hh, pyStripL_cons_ws (by decide), hpad]
  · rw [if_neg hh, hpad]

theorem Gr_no_nl_subEq_subPipe {l : List Char} (h : Gr .E l) :
    '\n' ∉ subEq (subPipe l) := by
  rw [(Gr_roundtrip h).2]
  have hnl := Gr_no_nl h
  have hpad : '\n' ∉ padTail l := by
    unfold padTail
    by_cases hl : l.getLast? = some '|'
    · rw [if_pos hl]
      intro hm
      rcases List.mem_append.mp hm with hm | hm
      · exact hnl hm
      · simp at hm
    · rw [if_neg hl]
      exact hnl
  by_cases hh : l.head? = some '|'
  · rw [if_pos hh]
    intro hm
    rcases List.mem_cons.mp hm with hm | hm
    · exact absurd hm (by decide)
    · exact hpad hm
  · rw [if_neg hh]
    exact hpad

theorem pySpace_not_digit {c : Char} (h : isPySpace c = true) : c.isDigit = false := by
  by_contra hx
  simp only [Bool.not_eq_false] at hx
  rw [isDigit_not_pySpace hx] at h
  cases h

theorem isDigit_ne_eqch {c : Char} (h : c.isDigit = true) : c ≠ '=' := by
  intro hc
  subst hc
  simp_all

theorem digit_plain {c : Char} (h : c.isDigit = true) : plainC c :=
  ⟨isDigit_not_pySpace h, isDigit_ne_pipe h, isDigit_ne_eqch h⟩

theorem limitLetter_ne_eqch {c : Char}
    (h : c.toLower ∈ (['l', 'i', 'm', 'i', 't'] : List Char)) : c ≠ '=' := by
  intro hc
  subst hc
  simp_all

theorem limitLetter_plain {c : Char}
    (h : c.toLower ∈ (['l', 'i', 'm', 'i', 't'] : List Char)) : plainC c :=
  ⟨limitLetter_not_pySpace h, limitLetter_ne_pipe h, limitLetter_ne_eqch h⟩

theorem Gr_A_cons_plain_inv {c : Char} {u : List Char} (h : Gr .A (c :: u))
    (hp : plainC c) : Gr .A u := by
  cases h with
  | plainA _ hA => exact hA
  | eqA hE => exact absurd rfl hp.2.2
  | pipeA hP => exact absurd hp.1 (by decide)
  | wsA hw _ => exact absurd hp.1 (by simp [hw.1])

theorem Gr_W_walk : ∀ (n : Nat) {t : List Char}, t.length ≤ n → Gr .W t →
    ∃ c r, List.dropWhile isPySpace t = c :: r ∧ plainC c ∧ Gr .A r := by
  intro n
  induction n with
  | zero =>
    intro t ht h
    have ht0 : t = [] := List.length_eq_zero.mp (Nat.le_zero.mp ht)
    subst ht0
    cases h
  | succ n ih =>
    intro t ht h
    cases h with
    | @plainW c u hp hA => exact ⟨c, u, dropWhile_cons_neg _ hp.1, hp, hA⟩
    | @wsW w u hw hW =>
      obtain ⟨c, r, hd, hc, hA⟩ := ih (by simp at ht; omega) hW
      exact ⟨c, r, by rw [dropWhile_cons_pos _ hw.1]; exact hd, hc, hA⟩

theorem Gr_A_drop_digits : ∀ (n : Nat) {t : List Char}, t.length ≤ n → Gr .A t →
    Gr .A (List.dropWhile Char.isDigit t) := by
  intro n
  induction n with
  | zero =>
    intro t ht h
    have ht0 : t = [] := List.length_eq_zero.mp (Nat.le_zero.mp ht)
    subst ht0
    exact h
  | succ n ih =>
    intro t ht h
    cases h with
    | nilA => exact Gr.nilA
    | @plainA c u hp hA =>
      by_cases hdg : c.isDigit = true
      · rw [dropWhile_cons_pos u hdg]
        exact ih (by simp at ht; omega) hA
      · rw [dropWhile_cons_neg u (by simpa using hdg)]
        exact Gr.plainA hp hA
    | @eqA u hE =>
      rw [dropWhile_cons_neg _ (by decide)]
      exact Gr.eqA hE
    | @pipeA u hP =>
      rw [dropWhile_cons_neg _ (by decide)]
      exact Gr.pipeA hP
    | @wsA w u hw hW =>
      rw [dropWhile_cons_neg _ (pySpace_not_digit hw.1)]
      exact Gr.wsA hw hW

theorem Gr_A_append_digits : ∀ (d : List Char), (∀ x ∈ d, x.isDigit = true) →
    ∀ {T : List Char}, Gr .A T → Gr .A (d ++ T) := by
  intro d
  induction d with
  | nil => intro _ T h; exact h
  | cons x xs ih =>
    intro hd T h
    exact Gr.plainA (digit_plain (hd x (List.mem_cons_self x xs)))
      (ih (fun y hy => hd y (List.mem_cons_of_mem x hy)) h)

theorem subLimit_nil : subLimit [] = [] := rfl

theorem subLimit_cons_none {c : Char} {cs : List Char}
    (h : matchLimitAt (c :: cs) = none) :
    subLimit (c :: cs) = c :: subLimit cs := by
  unfold subLimit
  rw [show (c :: cs).length = cs.length + 1 from rfl, subLimitGo_step, h]

theorem subLimit_cons_some {cs : List Char} {d r : List Char}
    (h : matchAfterPipe cs = some (d, r)) :
    subLimit ('|' :: cs) =
      '|' :: ' ' :: 'h' :: 'e' :: 'a' :: 'd' :: ' ' :: (d ++ subLimit r) := by
  have hlen := matchAfterPipe_length h
  unfold subLimit
  rw [show ('|' :: cs).length = cs.length + 1 from rfl, subLimitGo_step,
    show matchLimitAt ('|' :: cs) = some (d, r) from by rw [matchLimitAt_pipe]; exact h]
  dsimp only
  rw [subLimitGo_fuel cs.length r.length r hlen le_rfl]

theorem stripLimitCI_none_of_head {c : Char} (u : List Char)
    (hc : ¬ c.toLower = 'l') :
    stripLimitCI (c :: u) = none := by
  unfold stripLimitCI
  split
  · rename_i a b c2 d2 e2 rest heq
    injection heq with h1 hrest
    subst h1
    rw [if_neg (by simp [hc])]
  · rfl

theorem matchAfterPipe_none_of_strip {t : List Char}
    (h : stripLimitCI (List.dropWhile isPySpace t) = none) :
    matchAfterPipe t = none := by
  unfold matchAfterPipe
  rw [h]

theorem subLimit_grammar : ∀ (n : Nat) (t : List Char), t.length ≤ n →
    ((Gr .E t → Gr .E (subLimit t)) ∧ (Gr .A t → Gr .A (subLimit t)) ∧
      (Gr .W t → Gr .W (subLimit t))) ∧
    (Gr .P t → ∃ rest, subLimit ('|' :: t) = '|' :: rest ∧ Gr .P rest) := by
  intro n
  induction n with
  | zero =>
    intro t ht
    have ht0 : t = [] := List.length_eq_zero.mp (Nat.le_zero.mp ht)
    subst ht0
    refine ⟨⟨fun h => h, fun h => h, fun h => by cases h⟩, fun _ => ⟨[], ?_, Gr.nilP⟩⟩
    rw [subLimit_cons_none (by rfl), subLimit_nil]
  | succ n ih =>
    intro t ht
    constructor
    · refine ⟨?_, ?_, ?_⟩
      · intro h
        cases h with
        | nilE => exact Gr.nilE
        | @plainE c u hp hA =>
          rw [subLimit_cons_none (matchLimitAt_cons_nonpipe _ hp.2.1)]
          exact Gr.plainE hp ((ih u (by simp at ht; omega)).1.2.1 hA)
        | @eqE u hE =>
          rw [subLimit_cons_none (matchLimitAt_cons_nonpipe _ (by decide))]
          exact Gr.eqE ((ih u (by simp at ht; omega)).1.1 hE)
        | @pipeE u hP =>
          obtain ⟨rest, hr, hPr⟩ := (ih u (by simp at ht; omega)).2 hP
          rw [hr]
          exact Gr.pipeE hPr
      · intro h
        cases h with
        | nilA => exact Gr.nilA
        | @plainA c u hp hA =>
          rw [subLimit_cons_none (matchLimitAt_cons_nonpipe _ hp.2.1)]
          exact Gr.plainA hp ((ih u (by simp at ht; omega)).1.2.1 hA)
        | @eqA u hE =>
          rw [subLimit_cons_none (matchLimitAt_cons_nonpipe _ (by decide))]
          exact Gr.eqA ((ih u (by simp at ht; omega)).1.1 hE)
        | @pipeA u hP =>
          rw [subLimit_cons_none (matchLimitAt_cons_nonpipe _ (by decide))]
          obtain ⟨rest, hr, hPr⟩ := (ih u (by simp at ht; omega)).2 hP
          rw [hr]
          exact Gr.pipeA hPr
        | @wsA w u hw hW =>
          rw [subLimit_cons_none (matchLimitAt_cons_nonpipe _ (pySpace_ne_pipe hw.1))]
          exact Gr.wsA hw ((ih u (by simp at ht; omega)).1.2.2 hW)
      · intro h
        cases h with
        | @plainW c u hp hA =>
          rw [subLimit_cons_none (matchLimitAt_cons_nonpipe _ hp.2.1)]
          exact Gr.plainW hp ((ih u (by simp at ht; omega)).1.2.1 hA)
        | @wsW w u hw hW =>
          rw [subLimit_cons_none (matchLimitAt_cons_nonpipe _ (pySpace_ne_pipe hw.1))]
          exact Gr.wsW hw ((ih u (by simp at ht; omega)).1.2.2 hW)
    · intro h
      cases h with
      | nilP =>
        refine ⟨[], ?_, Gr.nilP⟩
        rw [subLimit_cons_none (by rfl), subLimit_nil]
      | @eqP u hE =>
        have hnone : matchLimitAt ('|' :: '=' :: u) = none := by
          rw [matchLimitAt_pipe]
          exact matchAfterPipe_none_of_strip (by
            rw [dropWhile_cons_neg _ (by decide)]
            exact stripLimitCI_none_of_head _ (by decide))
        refine ⟨'=' :: subLimit u, ?_, Gr.eqP ((ih u (by simp at ht; omega)).1.1 hE)⟩
        rw [subLimit_cons_none hnone,
          subLimit_cons_none (matchLimitAt_cons_nonpipe _ (by decide))]
      | @chainP u hP =>
        have hnone : matchLimitAt ('|' :: ' ' :: ' ' :: '|' :: u) = none := by
          rw [matchLimitAt_pipe]
          exact matchAfterPipe_none_of_strip (by
            rw [dropWhile_cons_pos _ (by decide), dropWhile_cons_pos _ (by decide),
              dropWhile_cons_neg _ (by decide)]
            exact stripLimitCI_none_of_head _ (by decide))
        obtain ⟨rest, hr, hPr⟩ := (ih u (by simp at ht; omega)).2 hP
        refine ⟨' ' :: ' ' :: '|' :: rest, ?_, Gr.chainP hPr⟩
        rw [subLimit_cons_none hnone,
          subLimit_cons_none (matchLimitAt_cons_nonpipe _ (by decide)),
          subLimit_cons_none (matchLimitAt_cons_nonpipe _ (by decide)), hr]
      | @spP c u hp hA =>
        cases hm : matchAfterPipe (' ' :: c :: u) with
        | none =>
          have hnone : matchLimitAt ('|' :: ' ' :: c :: u) = none := by
            rw [matchLimitAt_pipe]
            exact hm
          refine ⟨' ' :: c :: subLimit u, ?_,
            Gr.spP hp ((ih u (by simp at ht; omega)).1.2.1 hA)⟩
          rw [subLimit_cons_none hnone,
            subLimit_cons_none (matchLimitAt_cons_nonpipe _ (by decide)),
            subLimit_cons_none (matchLimitAt_cons_nonpipe _ hp.2.1)]
        | some pr =>
          obtain ⟨d, r⟩ := pr
          have hstrip0 : List.dropWhile isPySpace (' ' :: c :: u) = c :: u := by
            rw [dropWhile_cons_pos _ (by decide), dropWhile_cons_neg _ hp.1]
          have hm' := hm
          unfold matchAfterPipe at hm'
          rw [hstrip0] at hm'
          cases hsl : stripLimitCI (c :: u) with
          | none => rw [hsl] at hm'; exact absurd hm' (by simp)
          | some s2 =>
            rw [hsl] at hm'
            dsimp only at hm'
            by_cases hts : (List.takeWhile isPySpace s2).isEmpty = true
            · rw [if_pos hts] at hm'; exact absurd hm' (by simp)
            · rw [if_neg hts] at hm'
              by_cases hdg : (List.takeWhile Char.isDigit
                  (List.dropWhile isPySpace s2)).isEmpty = true
              · rw [if_pos hdg] at hm'; exact absurd hm' (by simp)
              · rw [if_neg hdg] at hm'
                injection hm' with hm2
                obtain ⟨w, hwu, hwmap⟩ := stripLimitCI_some hsl
                rcases w with _ | ⟨w1, w⟩; · simp at hwmap
                rcases w with _ | ⟨w2, w⟩; · simp at hwmap
                rcases w with _ | ⟨w3, w⟩; · simp at hwmap
                rcases w with _ | ⟨w4, w⟩; · simp at hwmap
                rcases w with _ | ⟨w5, w⟩; · simp at hwmap
                simp only [List.map_cons, List.cons.injEq] at hwmap
                obtain ⟨hw1, hw2, hw3, hw4, hw5, hwrest⟩ := hwmap
                have hwnil : w = [] := by simpa using hwrest
                subst hwnil
                simp only [List.cons_append, List.nil_append, List.cons.injEq] at hwu
                obtain ⟨hcw, hu⟩ := hwu
                subst hu
                have hA1 : Gr .A (w3 :: w4 :: w5 :: s2) :=
                  Gr_A_cons_plain_inv hA (limitLetter_plain (by rw [hw2]; simp))
                have hA2 : Gr .A (w4 :: w5 :: s2) :=
                  Gr_A_cons_plain_inv hA1 (limitLetter_plain (by rw [hw3]; simp))
                have hA3 : Gr .A (w5 :: s2) :=
                  Gr_A_cons_plain_inv hA2 (limitLetter_plain (by rw [hw4]; simp))
                have hA4 : Gr .A s2 :=
                  Gr_A_cons_plain_inv hA3 (limitLetter_plain (by rw [hw5]; simp))
                rcases hs2 : s2 with _ | ⟨z, s2t⟩
                · rw [hs2] at hts; exact absurd rfl hts
                · rw [hs2] at hA4 hts hdg hm2 hm
                  have hz : isPySpace z = true := by
                    by_contra hzz
                    rw [List.takeWhile_cons_of_neg (by simpa using hzz)] at hts
                    exact absurd rfl hts
                  have hWs2 : Gr .W s2t := by
                    cases hA4 with
                    | plainA hpz _ => exact absurd (hpz.1.symm.trans hz) (by decide)
                    | eqA _ => exact absurd hz (by decide)
                    | wsA _ hW => exact hW
                    | pipeA hPz =>
                      rw [dropWhile_cons_pos _ (by decide),
                        dropWhile_cons_neg _ (by decide)] at hdg
                      rw [List.takeWhile_cons_of_neg (by decide)] at hdg
                      exact absurd rfl hdg
                  obtain ⟨c0, r0, hd0, hc0, hA0⟩ :=
                    Gr_W_walk s2t.length (le_refl _) hWs2
                  rw [dropWhile_cons_pos _ hz, hd0] at hm2 hdg
                  have hc0d : c0.isDigit = true := by
                    by_contra hcc
                    rw [List.takeWhile_cons_of_neg (by simpa using hcc)] at hdg
                    exact absurd rfl hdg
                  rw [List.takeWhile_cons_of_pos hc0d,
                    dropWhile_cons_pos _ hc0d] at hm2
                  injection hm2 with hmd hmr
                  have hlen_r0 : r0.length ≤ s2t.length := by
                    have h1 := length_dropWhile_le isPySpace s2t
                    rw [hd0] at h1
                    simp only [List.length_cons] at h1
                    omega
                  have hlen_r : r.length ≤ n := by
                    have h2 := length_dropWhile_le Char.isDigit r0
                    rw [hmr] at h2
                    have h3 := ht
                    simp only [List.length_cons] at h3
                    have h5 : s2.length = s2t.length + 1 := by rw [hs2]; simp
                    omega
                  have hAr : Gr .A r := by
                    rw [← hmr]
                    exact Gr_A_drop_digits r0.length le_rfl hA0
                  refine ⟨' ' :: 'h' :: 'e' :: 'a' :: 'd' :: ' ' :: (d ++ subLimit r),
                    subLimit_cons_some hm, ?_⟩
                  refine Gr.spP (by decide) ?_
                  refine Gr.plainA (by decide) (Gr.plainA (by decide)
                    (Gr.plainA (by decide) (Gr.wsA (by exact ⟨rfl, by decide⟩) ?_)))
                  have hd_digits : ∀ x ∈ d, x.isDigit = true := by
                    intro x hx
                    rw [← hmd] at hx
                    rcases List.mem_cons.mp hx with rfl | hx
                    · exact hc0d
                    · exact List.mem_takeWhile_imp hx
                  have hAsub : Gr .A (subLimit r) :=
                    (ih r hlen_r).1.2.1 hAr
                  rcases hd_shape : d with _ | ⟨d0, dt⟩
                  · rw [hd_shape] at hmd
                    exact absurd hmd (by simp)
                  · refine Gr.plainW (digit_plain ?_) (Gr_A_append_digits dt ?_ hAsub)
                    · exact hd_digits d0 (by rw [hd_shape]; exact List.mem_cons_self _ _)
                    · intro x hx
                      exact hd_digits x (by rw [hd_shape]; exact List.mem_cons_of_mem _ hx)

/-! ### C5: no triple backtick survives or reappears -/

theorem noTriple_nil : noTriple [] := rfl

theorem noTriple_cons {c : Char} {cs : List Char} :
    noTriple (c :: cs) ↔ isPrefixL fence3 (c :: cs) = false ∧ noTriple cs := by
  simp [noTriple, hasSubL]

theorem fence3_not_prefix_head {c : Char} (h : c ≠ '`') (x : List Char) :
    isPrefixL fence3 (c :: x) = false := by
  have hb : ('`' == c) = false := beq_eq_false_iff_ne.mpr (Ne.symm h)
  simp [fence3, isPrefixL, hb]

theorem tickLen_nil : tickLen [] = 0 := rfl

theorem tickLen_cons_tick (l : List Char) : tickLen ('`' :: l) = tickLen l + 1 := by
  unfold tickLen
  rw [List.takeWhile_cons_of_pos (by decide)]
  simp

theorem tickLen_cons_ne {c : Char} (h : c ≠ '`') (l : List Char) :
    tickLen (c :: l) = 0 := by
  unfold tickLen
  rw [List.takeWhile_cons_of_neg (by simp [h])]
  rfl

theorem tickLen_ge1 {l : List Char} (h : 1 ≤ tickLen l) : ∃ r, l = '`' :: r := by
  rcases l with _ | ⟨a, l⟩
  · rw [tickLen_nil] at h; omega
  · by_cases ha : a = '`'
    · exact ⟨l, by rw [ha]⟩
    · rw [tickLen_cons_ne ha] at h; omega

theorem tickLen_ge2 {l : List Char} (h : 2 ≤ tickLen l) : ∃ r, l = '`' :: '`' :: r := by
  obtain ⟨r, rfl⟩ := @tickLen_ge1 l (by omega)
  rw [tickLen_cons_tick] at h
  obtain ⟨r2, rfl⟩ := @tickLen_ge1 r (by omega)
  exact ⟨r2, rfl⟩

theorem tickLen_ge3 {l : List Char} (h : 3 ≤ tickLen l) :
    ∃ r, l = '`' :: '`' :: '`' :: r := by
  obtain ⟨r, rfl⟩ := @tickLen_ge2 l (by omega)
  rw [tickLen_cons_tick, tickLen_cons_tick] at h
  obtain ⟨r2, rfl⟩ := @tickLen_ge1 r (by omega)
  exact ⟨r2, rfl⟩

theorem fence3_prefix_shape {l : List Char} (h : isPrefixL fence3 l = true) :
    ∃ r, l = '`' :: '`' :: '`' :: r := by
  rcases l with _ | ⟨a, _ | ⟨b, _ | ⟨c, r⟩⟩⟩ <;> simp [fence3, isPrefixL] at h
  obtain ⟨h1, h2, h3⟩ := h
  exact ⟨r, by rw [← h1, ← h2, ← h3]⟩

theorem fence3_prefix_false_of_tickLen {l : List Char} (h : tickLen l ≤ 2) :
    isPrefixL fence3 l = false := by
  by_contra hx
  simp only [Bool.not_eq_false] at hx
  obtain ⟨r, rfl⟩ := fence3_prefix_shape hx
  rw [tickLen_cons_tick, tickLen_cons_tick, tickLen_cons_tick] at h
  omega

theorem noTriple_tickLen {l : List Char} (h : noTriple l) : tickLen l ≤ 2 := by
  by_contra hx
  push_neg at hx
  obtain ⟨r, rfl⟩ := tickLen_ge3 hx
  have h1 := (noTriple_cons.mp h).1
  rw [show isPrefixL fence3 ('`' :: '`' :: '`' :: r) = true from by
    simp [fence3, isPrefixL]] at h1
  cases h1

theorem isPrefixL_ext {p : List Char} :
    ∀ {x : List Char}, isPrefixL p x = true → ∀ (y : List Char),
      isPrefixL p (x ++ y) = true := by
  induction p with
  | nil => intro x _ y; rfl
  | cons a as ih =>
    intro x h y
    rcases x with _ | ⟨b, bs⟩
    · simp [isPrefixL] at h
    · simp only [isPrefixL, Bool.and_eq_true] at h
      simp only [List.cons_append, isPrefixL, Bool.and_eq_true]
      exact ⟨h.1, ih h.2 y⟩

theorem hasSubL_nil_needle : ∀ (y : List Char), hasSubL [] y = true
  | [] => rfl
  | c :: cs => by
    simp only [hasSubL, Bool.or_eq_true]
    exact Or.inl rfl

theorem hasSubL_ext_right {n : List Char} :
    ∀ {x : List Char}, hasSubL n x = true → ∀ (y : List Char),
      hasSubL n (x ++ y) = true := by
  intro x
  induction x with
  | nil =>
    intro h y
    have hn : n = [] := by
      cases n
      · rfl
      · exact absurd h (by simp [hasSubL])
    subst hn
    exact hasSubL_nil_needle y
  | cons c cs ih =>
    intro h y
    simp only [hasSubL, Bool.or_eq_true] at h
    simp only [List.cons_append, hasSubL, Bool.or_eq_true]
    rcases h with h | h
    · exact Or.inl (isPrefixL_ext h y)
    · exact Or.inr (ih h y)

theorem noTriple_suffix {a b : List Char} (h : noTriple (a ++ b)) : noTriple b := by
  unfold noTriple at *
  by_contra hx
  simp only [Bool.not_eq_false] at hx
  rw [hasSubL_append_right hx a] at h
  cases h

theorem noTriple_prefix {m b : List Char} (h : noTriple (m ++ b)) : noTriple m := by
  unfold noTriple at *
  by_contra hx
  simp only [Bool.not_eq_false] at hx
  rw [hasSubL_ext_right hx b] at h
  cases h

theorem noTriple_mid {a m b : List Char} (h : noTriple (a ++ m ++ b)) :
    noTriple m := by
  have h1 : noTriple (m ++ b) := noTriple_suffix (by rw [← List.append_assoc]; exact h)
  exact noTriple_prefix h1

theorem noTriple_append_sep {a b : List Char} {c : Char} (ha : noTriple a)
    (hb : noTriple b) (hc : c ≠ '`') : noTriple (a ++ c :: b) := by
  unfold noTriple
  by_contra hx
  simp only [Bool.not_eq_false] at hx
  rcases hasSub_append_cases (c :: b) hx with h | h | ⟨k, hk0, hk3, hkpre⟩
  · exact absurd h (by simpa [noTriple] using ha)
  · simp only [hasSubL, Bool.or_eq_true] at h
    rcases h with h | h
    · rw [fence3_not_prefix_head hc] at h; cases h
    · exact absurd h (by simpa [noTriple] using hb)
  · have hk12 : k = 1 ∨ k = 2 := by
      simp only [fence3, List.length_cons, List.length_nil] at hk3
      omega
    rcases hk12 with rfl | rfl
    · rw [show List.drop 1 fence3 = ['`', '`'] from rfl,
        show isPrefixL ['`', '`'] (c :: b) = (('`' == c) && isPrefixL ['`'] b) from rfl,
        beq_eq_false_iff_ne.mpr (Ne.symm hc)] at hkpre
      cases hkpre
    · rw [show List.drop 2 fence3 = ['`'] from rfl,
        show isPrefixL ['`'] (c :: b) = (('`' == c) && isPrefixL [] b) from rfl,
        beq_eq_false_iff_ne.mpr (Ne.symm hc)] at hkpre
      cases hkpre

theorem noTriple_append_nontick {a : List Char} (ha : ∀ x ∈ a, x ≠ '`')
    {T : List Char} (hT : noTriple T) : noTriple (a ++ T) := by
  induction a with
  | nil => exact hT
  | cons x xs ih =>
    rw [List.cons_append]
    exact noTriple_cons.mpr
      ⟨fence3_not_prefix_head (ha x (List.mem_cons_self x xs)) _,
        ih (fun y hy => ha y (List.mem_cons_of_mem x hy))⟩

theorem stripR_prefix_decomp (x : List Char) : ∃ b, x = stripR x ++ b := by
  refine ⟨((x.reverse).takeWhile isPySpace).reverse, ?_⟩
  rw [← stripR_eq_rev, ← List.reverse_append, List.takeWhile_append_dropWhile,
    List.reverse_reverse]

theorem pyStripL_infix_decomp (l : List Char) : ∃ a b, l = a ++ pyStripL l ++ b := by
  obtain ⟨b, hb⟩ := stripR_prefix_decomp (List.dropWhile isPySpace l)
  refine ⟨l.takeWhile isPySpace, b, ?_⟩
  rw [pyStripL_eq_stripR, List.append_assoc, ← hb, List.takeWhile_append_dropWhile]

theorem noTriple_pyStripL {l : List Char} (h : noTriple l) : noTriple (pyStripL l) := by
  obtain ⟨a, b, hab⟩ := pyStripL_infix_decomp l
  exact noTriple_mid (hab ▸ h)

theorem matchPipeAt_decomp {l rest : List Char} (h : matchPipeAt l = some rest) :
    ∃ a, l = a ++ rest := by
  unfold matchPipeAt at h
  cases hd : List.dropWhile isPySpace l with
  | nil => rw [hd] at h; exact absurd h (by simp)
  | cons c rs =>
    rw [hd] at h
    split at h
    · rename_i rs2 heq
      injection h with h2
      injection heq with hc hrs
      subst hrs
      refine ⟨l.takeWhile isPySpace ++ '|' :: rs.takeWhile isPySpace, ?_⟩
      rw [List.append_assoc]
      show l = l.takeWhile isPySpace ++ ('|' :: (rs.takeWhile isPySpace ++ rest))
      rw [← h2, List.takeWhile_append_dropWhile, ← hc, ← hd,
        List.takeWhile_append_dropWhile]
    · exact absurd h (by simp)

theorem matchEqAt_decomp {l rest : List Char} (h : matchEqAt l = some rest) :
    ∃ a, l = a ++ rest := by
  unfold matchEqAt at h
  cases hd : List.dropWhile isPySpace l with
  | nil => rw [hd] at h; exact absurd h (by simp)
  | cons c rs =>
    rw [hd] at h
    split at h
    · rename_i rs2 heq
      injection h with h2
      injection heq with hc hrs
      subst hrs
      refine ⟨l.takeWhile isPySpace ++ '=' :: rs.takeWhile isPySpace, ?_⟩
      rw [List.append_assoc]
      show l = l.takeWhile isPySpace ++ ('=' :: (rs.takeWhile isPySpace ++ rest))
      rw [← h2, List.takeWhile_append_dropWhile, ← hc, ← hd,
        List.takeWhile_append_dropWhile]
    · exact absurd h (by simp)

theorem fenceTail1_length (x : List Char) : (fenceTail1 x).length ≤ x.length := by
  have hdrop : (List.drop 3 x).length ≤ x.length := by
    rw [List.length_drop]; omega
  simp only [fenceTail1]
  by_cases hs : isPrefixL ['s', 'p', 'l'] x = true
  · rw [if_pos hs]
    split
    · rename_i a rest heq
      have hlen := congrArg List.length heq
      simp only [List.length_cons] at hlen
      omega
    · exact hdrop
  · rw [if_neg hs]
    split
    · simp only [List.length_cons]
      omega
    · exact le_rfl

theorem subFence1Go_succ_pos {f : Nat} {c : Char} {cs : List Char}
    (h : isPrefixL ['`', '`', '`'] (c :: cs) = true) :
    subFence1Go (f + 1) (c :: cs) = subFence1Go f (fenceTail1 (cs.drop 2)) := by
  rw [subFence1Go, if_pos h]

theorem subFence1Go_succ_neg {f : Nat} {c : Char} {cs : List Char}
    (h : ¬ isPrefixL ['`', '`', '`'] (c :: cs) = true) :
    subFence1Go (f + 1) (c :: cs) = c :: subFence1Go f cs := by
  rw [subFence1Go, if_neg h]

theorem subFence2Go_succ_neg {f : Nat} {c : Char} {cs : List Char}
    (h : ¬ isPrefixL ['`', '`', '`'] (c :: cs) = true) :
    subFence2Go (f + 1) (c :: cs) = c :: subFence2Go f cs := by
  rw [subFence2Go, if_neg h]

theorem subFence1Go_noTriple : ∀ (f : Nat) (l : List Char), l.length ≤ f →
    noTriple (subFence1Go f l) ∧
    (isPrefixL fence3 l = false → tickLen (subFence1Go f l) ≤ tickLen l) := by
  intro f
  induction f with
  | zero =>
    intro l hl
    have h0 : l = [] := List.length_eq_zero.mp (Nat.le_zero.mp hl)
    subst h0
    exact ⟨noTriple_nil, fun _ => le_rfl⟩
  | succ f ih =>
    intro l hl
    rcases l with _ | ⟨c, cs⟩
    · exact ⟨noTriple_nil, fun _ => le_rfl⟩
    · simp only [List.length_cons] at hl
      by_cases hpre : isPrefixL ['`', '`', '`'] (c :: cs) = true
      · rw [subFence1Go_succ_pos hpre]
        have hlen : (fenceTail1 (cs.drop 2)).length ≤ f := by
          have h1 := fenceTail1_length (cs.drop 2)
          have h2 : (List.drop 2 cs).length ≤ cs.length := by
            rw [List.length_drop]; omega
          omega
        refine ⟨(ih _ hlen).1, fun hcontra => ?_⟩
        rw [show isPrefixL fence3 (c :: cs) = isPrefixL ['`', '`', '`'] (c :: cs)
          from rfl, hpre] at hcontra
        cases hcontra
      · rw [subFence1Go_succ_neg hpre]
        have hih := ih cs (by omega)
        by_cases hc : c = '`'
        · subst hc
          have htcs : tickLen cs ≤ 1 := by
            by_contra hx
            push_neg at hx
            obtain ⟨r, hr⟩ := @tickLen_ge2 cs (by omega)
            rw [hr] at hpre
            exact hpre (by simp [isPrefixL])
          have hmon : tickLen (subFence1Go f cs) ≤ tickLen cs :=
            hih.2 (fence3_prefix_false_of_tickLen (by omega))
          refine ⟨noTriple_cons.mpr ⟨?_, hih.1⟩, fun _ => ?_⟩
          · exact fence3_prefix_false_of_tickLen (by rw [tickLen_cons_tick]; omega)
          · rw [tickLen_cons_tick, tickLen_cons_tick]
            omega
        · refine ⟨noTriple_cons.mpr ⟨fence3_not_prefix_head hc _, hih.1⟩, fun _ => ?_⟩
          rw [tickLen_cons_ne hc, tickLen_cons_ne hc]

theorem subFence1Go_id : ∀ (f : Nat) (l : List Char), l.length ≤ f → noTriple l →
    subFence1Go f l = l := by
  intro f
  induction f with
  | zero =>
    intro l hl _
    have h0 : l = [] := List.length_eq_zero.mp (Nat.le_zero.mp hl)
    subst h0
    rfl
  | succ f ih =>
    intro l hl hnt
    rcases l with _ | ⟨c, cs⟩
    · rfl
    · have hpre : isPrefixL ['`', '`', '`'] (c :: cs) = false :=
        (noTriple_cons.mp hnt).1
      rw [subFence1Go_succ_neg (by simp [hpre]),
        ih cs (by simp at hl; omega) (noTriple_cons.mp hnt).2]

theorem subFence2Go_id : ∀ (f : Nat) (l : List Char), l.length ≤ f → noTriple l →
    subFence2Go f l = l := by
  intro f
  induction f with
  | zero =>
    intro l hl _
    have h0 : l = [] := List.length_eq_zero.mp (Nat.le_zero.mp hl)
    subst h0
    rfl
  | succ f ih =>
    intro l hl hnt
    rcases l with _ | ⟨c, cs⟩
    · rfl
    · have hpre : isPrefixL ['`', '`', '`'] (c :: cs) = false :=
        (noTriple_cons.mp hnt).1
      rw [subFence2Go_succ_neg (by simp [hpre]),
        ih cs (by simp at hl; omega) (noTriple_cons.mp hnt).2]

theorem subPipeGo_noTriple : ∀ (f : Nat) (l : List Char), l.length ≤ f → noTriple l →
    noTriple (subPipeGo f l) ∧ tickLen (subPipeGo f l) ≤ tickLen l := by
  intro f
  induction f with
  | zero =>
    intro l hl _
    have h0 : l = [] := List.length_eq_zero.mp (Nat.le_zero.mp hl)
    subst h0
    exact ⟨noTriple_nil, le_rfl⟩
  | succ f ih =>
    intro l hl hnt
    rcases l with _ | ⟨c, cs⟩
    · exact ⟨noTriple_nil, le_rfl⟩
    · simp only [List.length_cons] at hl
      cases hm : matchPipeAt (c :: cs) with
      | some rest =>
        rw [subPipeGo_succ_some hm]
        obtain ⟨a, ha⟩ := matchPipeAt_decomp hm
        have hrest : noTriple rest := noTriple_suffix (ha ▸ hnt)
        have hlen := matchPipeAt_length hm
        simp only [List.length_cons] at hlen
        have hih := ih rest (by omega) hrest
        refine ⟨?_, ?_⟩
        · exact noTriple_cons.mpr ⟨fence3_not_prefix_head (by decide) _,
            noTriple_cons.mpr ⟨fence3_not_prefix_head (by decide) _,
              noTriple_cons.mpr ⟨fence3_not_prefix_head (by decide) _, hih.1⟩⟩⟩
        · rw [tickLen_cons_ne (by decide)]
          exact Nat.zero_le _
      | none =>
        rw [subPipeGo_succ_none hm]
        have hcs : noTriple cs := (noTriple_cons.mp hnt).2
        have hih := ih cs (by omega) hcs
        by_cases hc : c = '`'
        · subst hc
          have htcs : tickLen cs ≤ 1 := by
            by_contra hx
            push_neg at hx
            obtain ⟨r, hr⟩ := @tickLen_ge2 cs (by omega)
            have hh := (noTriple_cons.mp hnt).1
            rw [hr] at hh
            rw [show isPrefixL fence3 ('`' :: '`' :: '`' :: r) = true from by
              simp [fence3, isPrefixL]] at hh
            cases hh
          have hmon := hih.2
          refine ⟨noTriple_cons.mpr ⟨?_, hih.1⟩, ?_⟩
          · exact fence3_prefix_false_of_tickLen
              (by rw [tickLen_cons_tick]; omega)
          · rw [tickLen_cons_tick, tickLen_cons_tick]
            omega
        · refine ⟨noTriple_cons.mpr ⟨fence3_not_prefix_head hc _, hih.1⟩, ?_⟩
          rw [tickLen_cons_ne hc, tickLen_cons_ne hc]

theorem subEqGo_noTriple : ∀ (f : Nat) (l : List Char), l.length ≤ f → noTriple l →
    noTriple (subEqGo f l) ∧ tickLen (subEqGo f l) ≤ tickLen l := by
  intro f
  induction f with
  | zero =>
    intro l hl _
    have h0 : l = [] := List.length_eq_zero.mp (Nat.le_zero.mp hl)
    subst h0
    exact ⟨noTriple_nil, le_rfl⟩
  | succ f ih =>
    intro l hl hnt
    rcases l with _ | ⟨c, cs⟩
    · exact ⟨noTriple_nil, le_rfl⟩
    · simp only [List.length_cons] at hl
      cases hm : matchEqAt (c :: cs) with
      | some rest =>
        rw [subEqGo_succ_some hm]
        obtain ⟨a, ha⟩ := matchEqAt_decomp hm
        have hrest : noTriple rest := noTriple_suffix (ha ▸ hnt)
        have hlen := matchEqAt_length hm
        simp only [List.length_cons] at hlen
        have hih := ih rest (by omega) hrest
        refine ⟨noTriple_cons.mpr ⟨fence3_not_prefix_head (by decide) _, hih.1⟩, ?_⟩
        rw [tickLen_cons_ne (by decide)]
        exact Nat.zero_le _
      | none =>
        rw [subEqGo_succ_none hm]
        have hcs : noTriple cs := (noTriple_cons.mp hnt).2
        have hih := ih cs (by omega) hcs
        by_cases hc : c = '`'
        · subst hc
          have htcs : tickLen cs ≤ 1 := by
            by_contra hx
            push_neg at hx
            obtain ⟨r, hr⟩ := @tickLen_ge2 cs (by omega)
            have hh := (noTriple_cons.mp hnt).1
            rw [hr] at hh
            rw [show isPrefixL fence3 ('`' :: '`' :: '`' :: r) = true from by
              simp [fence3, isPrefixL]] at hh
            cases hh
          have hmon := hih.2
          refine ⟨noTriple_cons.mpr ⟨?_, hih.1⟩, ?_⟩
          · exact fence3_prefix_false_of_tickLen
              (by rw [tickLen_cons_tick]; omega)
          · rw [tickLen_cons_tick, tickLen_cons_tick]
            omega
        · refine ⟨noTriple_cons.mpr ⟨fence3_not_prefix_head hc _, hih.1⟩, ?_⟩
          rw [tickLen_cons_ne hc, tickLen_cons_ne hc]

theorem isDigit_ne_tick {c : Char} (h : c.isDigit = true) : c ≠ '`' := by
  intro hc
  subst hc
  simp_all

theorem subLimitGo_noTriple : ∀ (f : Nat) (l : List Char), l.length ≤ f → noTriple l →
    noTriple (subLimitGo f l) ∧ tickLen (subLimitGo f l) ≤ tickLen l := by
  intro f
  induction f with
  | zero =>
    intro l hl _
    have h0 : l = [] := List.length_eq_zero.mp (Nat.le_zero.mp hl)
    subst h0
    exact ⟨noTriple_nil, le_rfl⟩
  | succ f ih =>
    intro l hl hnt
    rcases l with _ | ⟨c, cs⟩
    · exact ⟨noTriple_nil, le_rfl⟩
    · simp only [List.length_cons] at hl
      cases hm : matchLimitAt (c :: cs) with
      | some p =>
        obtain ⟨d, r⟩ := p
        have hcp : c = '|' := by
          by_contra hcc
          rw [matchLimitAt_cons_nonpipe _ hcc] at hm
          exact absurd hm (by simp)
        subst hcp
        rw [matchLimitAt_pipe] at hm
        have hstep : subLimitGo (f + 1) ('|' :: cs) =
            '|' :: ' ' :: 'h' :: 'e' :: 'a' :: 'd' :: ' ' :: (d ++ subLimitGo f r) := by
          rw [subLimitGo_step,
            show matchLimitAt ('|' :: cs) = some (d, r) from by
              rw [matchLimitAt_pipe]; exact hm]
        rw [hstep]
        obtain ⟨s1, w, s2, hx, _, _, _, _, _, hdd⟩ := matchAfterPipe_some_decomp hm
        have hrnt : noTriple r := by
          have hcs : noTriple cs := (noTriple_cons.mp hnt).2
          rw [hx] at hcs
          exact noTriple_suffix hcs
        have hlen := matchAfterPipe_length hm
        have hih := ih r (by omega) hrnt
        refine ⟨?_, ?_⟩
        · refine noTriple_cons.mpr ⟨fence3_not_prefix_head (by decide) _, ?_⟩
          refine noTriple_cons.mpr ⟨fence3_not_prefix_head (by decide) _, ?_⟩
          refine noTriple_cons.mpr ⟨fence3_not_prefix_head (by decide) _, ?_⟩
          refine noTriple_cons.mpr ⟨fence3_not_prefix_head (by decide) _, ?_⟩
          refine noTriple_cons.mpr ⟨fence3_not_prefix_head (by decide) _, ?_⟩
          refine noTriple_cons.mpr ⟨fence3_not_prefix_head (by decide) _, ?_⟩
          refine noTriple_cons.mpr ⟨fence3_not_prefix_head (by decide) _, ?_⟩
          exact noTriple_append_nontick
            (fun x hx2 => isDigit_ne_tick (hdd x hx2)) hih.1
        · rw [tickLen_cons_ne (by decide)]
          exact Nat.zero_le _
      | none =>
        rw [show subLimitGo (f + 1) (c :: cs) = c :: subLimitGo f cs from by
          rw [subLimitGo_step, hm]]
        have hcs : noTriple cs := (noTriple_cons.mp hnt).2
        have hih := ih cs (by omega) hcs
        by_cases hc : c = '`'
        · subst hc
          have htcs : tickLen cs ≤ 1 := by
            by_contra hx
            push_neg at hx
            obtain ⟨r, hr⟩ := @tickLen_ge2 cs (by omega)
            have hh := (noTriple_cons.mp hnt).1
            rw [hr] at hh
            rw [show isPrefixL fence3 ('`' :: '`' :: '`' :: r) = true from by
              simp [fence3, isPrefixL]] at hh
            cases hh
          have hmon := hih.2
          refine ⟨noTriple_cons.mpr ⟨?_, hih.1⟩, ?_⟩
          · exact fence3_prefix_false_of_tickLen
              (by rw [tickLen_cons_tick]; omega)
          · rw [tickLen_cons_tick, tickLen_cons_tick]
            omega
        · refine ⟨noTriple_cons.mpr ⟨fence3_not_prefix_head hc _, hih.1⟩, ?_⟩
          rw [tickLen_cons_ne hc, tickLen_cons_ne hc]

theorem subFence1_noTriple (l : List Char) : noTriple (subFence1 l) :=
  (subFence1Go_noTriple l.length l le_rfl).1

theorem subFence1_id {l : List Char} (h : noTriple l) : subFence1 l = l :=
  subFence1Go_id l.length l le_rfl h

theorem subFence2_id {l : List Char} (h : noTriple l) : subFence2 l = l :=
  subFence2Go_id l.length l le_rfl h

theorem subPipe_noTriple {l : List Char} (h : noTriple l) : noTriple (subPipe l) :=
  (subPipeGo_noTriple l.length l le_rfl h).1

theorem subEq_noTriple {l : List Char} (h : noTriple l) : noTriple (subEq l) :=
  (subEqGo_noTriple l.length l le_rfl h).1

theorem subLimit_noTriple {l : List Char} (h : noTriple l) : noTriple (subLimit l) :=
  (subLimitGo_noTriple l.length l le_rfl h).1

theorem subLimitGo_id_no_match : ∀ (f : Nat) (l : List Char), l.length ≤ f →
    hasLimitMatch l = false → subLimitGo f l = l := by
  intro f
  induction f with
  | zero =>
    intro l hl _
    have h0 : l = [] := List.length_eq_zero.mp (Nat.le_zero.mp hl)
    subst h0
    rfl
  | succ f ih =>
    intro l hl hn
    rcases l with _ | ⟨c, cs⟩
    · rfl
    · simp only [List.length_cons] at hl
      cases hm : matchLimitAt (c :: cs) with
      | some p =>
        rw [hasLimitMatch, hm] at hn
        simp at hn
      | none =>
        rw [subLimitGo_step, hm]
        have hcs : hasLimitMatch cs = false := by
          rw [hasLimitMatch, hm] at hn
          simpa using hn
        rw [ih cs (by omega) hcs]

theorem subLimit_id_no_match {l : List Char} (h : hasLimitMatch l = false) :
    subLimit l = l :=
  subLimitGo_id_no_match l.length l le_rfl h

theorem getLast?_append_right {a l : List Char} (h : l ≠ []) :
    (a ++ l).getLast? = l.getLast? := by
  induction a with
  | nil => rfl
  | cons c t ih =>
    have htl : t ++ l ≠ [] := by
      intro hx
      rcases List.append_eq_nil.mp hx with ⟨_, h2⟩
      exact h h2
    rw [List.cons_append, getLast?_cons_ne_nil htl, ih]

theorem matchPipeAt_some_shape {l rest : List Char} (h : matchPipeAt l = some rest) :
    rest = [] ∨ ∃ d r, rest = d :: r ∧ isPySpace d = false := by
  unfold matchPipeAt at h
  cases hd : List.dropWhile isPySpace l with
  | nil => rw [hd] at h; exact absurd h (by simp)
  | cons c rs =>
    rw [hd] at h
    split at h
    · rename_i rs2 heq
      injection h with h2
      rcases hd2 : List.dropWhile isPySpace rs2 with _ | ⟨d, r⟩
      · left; rw [← h2, hd2]
      · right; exact ⟨d, r, by rw [← h2, hd2], dropWhile_head_neg hd2⟩
    · exact absurd h (by simp)

theorem dropWhile_ne_nil_of_lastNW : ∀ {l : List Char}, l ≠ [] →
    (∀ x, l.getLast? = some x → isPySpace x = false) →
    List.dropWhile isPySpace l ≠ [] := by
  intro l
  induction l with
  | nil => intro h _; exact absurd rfl h
  | cons c cs ih =>
    intro _ hlw
    by_cases hc : isPySpace c = true
    · have hcs : cs ≠ [] := by
        intro hnil
        subst hnil
        have := hlw c rfl
        rw [hc] at this
        cases this
      rw [dropWhile_cons_pos cs hc]
      exact ih hcs (fun x hx => hlw x (by rw [getLast?_cons_ne_nil hcs]; exact hx))
    · rw [dropWhile_cons_neg cs (by simpa using hc)]
      simp

theorem subPipeGo_Gp : ∀ (f : Nat), ∀ (l : List Char), l.length ≤ f →
    (∀ x, l.getLast? = some x → isPySpace x = false) →
    Gp .pA (subPipeGo f l) ∧
    ((l = [] ∨ ∃ c r, l = c :: r ∧ isPySpace c = false) →
      Gp .pPost (subPipeGo f l)) ∧
    (matchPipeAt l = none → l ≠ [] → Gp .pW (subPipeGo f l)) := by
  intro f
  induction f with
  | zero =>
    intro l hl _
    have h0 : l = [] := List.length_eq_zero.mp (Nat.le_zero.mp hl)
    subst h0
    exact ⟨Gp.nilA, fun _ => Gp.nilPost, fun _ h => absurd rfl h⟩
  | succ f ih =>
    intro l hl hlw
    rcases l with _ | ⟨c, cs⟩
    · exact ⟨Gp.nilA, fun _ => Gp.nilPost, fun _ h => absurd rfl h⟩
    · simp only [List.length_cons] at hl
      cases hm : matchPipeAt (c :: cs) with
      | some rest =>
        rw [subPipeGo_succ_some hm]
        obtain ⟨a, ha⟩ := matchPipeAt_decomp hm
        have hlen := matchPipeAt_length hm
        simp only [List.length_cons] at hlen
        have hlwr : ∀ x, rest.getLast? = some x → isPySpace x = false := by
          intro x hx
          rcases rest with _ | ⟨d, r⟩
          · cases hx
          · exact hlw x (by rw [ha, getLast?_append_right (by simp)]; exact hx)
        have hih := ih rest (by omega) hlwr
        have hpost : Gp .pPost (subPipeGo f rest) :=
          hih.2.1 (matchPipeAt_some_shape hm)
        refine ⟨Gp.pipeA hpost, fun _ => Gp.pipePost hpost, fun hnone _ => ?_⟩
        cases hnone
      | none =>
        rw [subPipeGo_succ_none hm]
        by_cases hc : isPySpace c = true
        · have hcs_ne : cs ≠ [] := by
            intro hnil
            subst hnil
            have := hlw c rfl
            rw [hc] at this
            cases this
          have hlwcs : ∀ x, cs.getLast? = some x → isPySpace x = false :=
            fun x hx => hlw x (by rw [getLast?_cons_ne_nil hcs_ne]; exact hx)
          have hmcs : matchPipeAt cs = none := by
            rw [matchPipeAt_cons_ws cs hc] at hm
            exact hm
          have hih := ih cs (by omega) hlwcs
          have hW : Gp .pW (subPipeGo f cs) := hih.2.2 hmcs hcs_ne
          refine ⟨Gp.wsA hc hW, ?_, fun _ _ => Gp.wsW hc hW⟩
          rintro (h0 | ⟨d, r, heq, hd⟩)
          · cases h0
          · injection heq with h1 _
            subst h1
            rw [hd] at hc
            cases hc
        · have hcf : isPySpace c = false := by simpa using hc
          have hcp : c ≠ '|' := by
            intro he
            subst he
            rw [matchPipeAt_pipe] at hm
            cases hm
          have hlwcs : ∀ x, cs.getLast? = some x → isPySpace x = false := by
            intro x hx
            rcases cs with _ | ⟨d, r⟩
            · cases hx
            · exact hlw x (by rw [getLast?_cons_ne_nil (by simp)]; exact hx)
          have hih := ih cs (by omega) hlwcs
          exact ⟨Gp.plainA hcf hcp hih.1, fun _ => Gp.plainPost hcf hcp hih.1,
            fun _ _ => Gp.plainW hcf hcp hih.1⟩

theorem subPipe_Gp {l : List Char}
    (hlw : ∀ x, l.getLast? = some x → isPySpace x = false) :
    Gp .pA (subPipe l) :=
  (subPipeGo_Gp l.length l le_rfl hlw).1

theorem Gp_pW_walk : ∀ (n : Nat) {t : List Char}, t.length ≤ n → Gp .pW t →
    ∃ c t', List.dropWhile isPySpace t = c :: t' ∧ isPySpace c = false ∧
      c ≠ '|' ∧ Gp .pA t' := by
  intro n
  induction n with
  | zero =>
    intro t ht h
    have ht0 : t = [] := List.length_eq_zero.mp (Nat.le_zero.mp ht)
    subst ht0
    cases h
  | succ n ih =>
    intro t ht h
    cases h with
    | @plainW c u hns hnp hA => exact ⟨c, u, dropWhile_cons_neg _ hns, hns, hnp, hA⟩
    | @wsW w u hw hW =>
      obtain ⟨c, t', hd, h1, h2, h3⟩ := ih (by simp at ht; omega) hW
      exact ⟨c, t', by rw [dropWhile_cons_pos _ hw]; exact hd, h1, h2, h3⟩

theorem Gp_pA_walk : ∀ (n : Nat) {t : List Char}, t.length ≤ n → Gp .pA t →
    List.dropWhile isPySpace t = [] ∨
    (∃ c t', List.dropWhile isPySpace t = c :: t' ∧ isPySpace c = false ∧
      c ≠ '|' ∧ Gp .pA t') ∨
    (∃ p, List.dropWhile isPySpace t = '|' :: ' ' :: p ∧ Gp .pPost p) := by
  intro n
  induction n with
  | zero =>
    intro t ht h
    have ht0 : t = [] := List.length_eq_zero.mp (Nat.le_zero.mp ht)
    subst ht0
    left
    rfl
  | succ n ih =>
    intro t ht h
    cases h with
    | nilA => left; rfl
    | @plainA c u hns hnp hA =>
      right; left
      exact ⟨c, u, dropWhile_cons_neg _ hns, hns, hnp, hA⟩
    | @pipeA u hPost =>
      right; right
      refine ⟨u, ?_, hPost⟩
      rw [dropWhile_cons_pos _ (by decide), dropWhile_cons_neg _ (by decide)]
    | @wsA w u hw hW =>
      obtain ⟨c, t', hd, h1, h2, h3⟩ := Gp_pW_walk n (by simp at ht; omega) hW
      right; left
      exact ⟨c, t', by rw [dropWhile_cons_pos _ hw]; exact hd, h1, h2, h3⟩

theorem subEq_Gq_master : ∀ (n : Nat) (t : List Char), t.length ≤ n →
    (Gp .pA t → Gq .qA (subEq t)) ∧
    (Gp .pA t → Gq .qE (subEq (List.dropWhile isPySpace t))) ∧
    (Gp .pW t → matchEqAt t = none → Gq .qW (subEq t)) ∧
    (Gp .pPost t → Gq .qP (subEq (' ' :: t))) := by
  intro n
  induction n with
  | zero =>
    intro t ht
    have ht0 : t = [] := List.length_eq_zero.mp (Nat.le_zero.mp ht)
    subst ht0
    refine ⟨fun _ => ?_, fun _ => ?_, fun h _ => ?_, fun _ => ?_⟩
    · rw [subEq_nil]; exact Gq.nilA
    · rw [show List.dropWhile isPySpace ([] : List Char) = [] from rfl, subEq_nil]
      exact Gq.nilE
    · cases h
    · rw [subEq_cons_none
        (by rw [matchEqAt_cons_ws _ (by decide)]; exact matchEqAt_nil), subEq_nil]
      exact Gq.spP Gq.nilPost
  | succ n ih =>
    intro t ht
    refine ⟨?_, ?_, ?_, ?_⟩
    · intro h
      cases h with
      | nilA => rw [subEq_nil]; exact Gq.nilA
      | @plainA c u hns hnp hA =>
        simp only [List.length_cons] at ht
        by_cases hce : c = '='
        · subst hce
          rw [subEq_cons_some (matchEqAt_eq u)]
          exact Gq.eqA ((ih u (by omega)).2.1 hA)
        · rw [subEq_cons_none (matchEqAt_cons_plain u hns hce)]
          exact Gq.plainA ⟨hns, hnp, hce⟩ ((ih u (by omega)).1 hA)
      | @pipeA u hPost =>
        simp only [List.length_cons] at ht
        have hm1 : matchEqAt (' ' :: '|' :: ' ' :: u) = none := by
          rw [matchEqAt_cons_ws _ (by decide)]
          exact matchEqAt_cons_plain _ (by decide) (by decide)
        have hm2 : matchEqAt ('|' :: ' ' :: u) = none :=
          matchEqAt_cons_plain _ (by decide) (by decide)
        rw [subEq_cons_none hm1, subEq_cons_none hm2]
        exact Gq.pipeA ((ih u (by omega)).2.2.2 hPost)
      | @wsA w u hw hW =>
        simp only [List.length_cons] at ht
        cases hm : matchEqAt (w :: u) with
        | some rest =>
          obtain ⟨c, t', hd, h1, h2, h3⟩ := Gp_pW_walk u.length le_rfl hW
          by_cases hce : c = '='
          · subst hce
            have hmu : matchEqAt (w :: u) = some (List.dropWhile isPySpace t') := by
              unfold matchEqAt
              rw [dropWhile_cons_pos _ hw, hd]
              rfl
            have hrest : rest = List.dropWhile isPySpace t' :=
              Option.some.inj (hm.symm.trans hmu)
            subst hrest
            rw [subEq_cons_some hmu]
            have hlt' : t'.length ≤ n := by
              have hle := length_dropWhile_le isPySpace u
              rw [hd] at hle
              simp only [List.length_cons] at hle
              omega
            exact Gq.eqA ((ih t' hlt').2.1 h3)
          · have hdw : List.dropWhile isPySpace (w :: u) = c :: t' := by
              rw [dropWhile_cons_pos _ hw]
              exact hd
            have hcontra : matchEqAt (w :: u) = none :=
              matchEqAt_none_of_head hdw hce
            rw [hm] at hcontra
            cases hcontra
        | none =>
          rw [subEq_cons_none hm]
          have hmu : matchEqAt u = none := by
            rw [matchEqAt_cons_ws _ hw] at hm
            exact hm
          exact Gq.wsA hw ((ih u (by omega)).2.2.1 hW hmu)
    · intro h
      rcases Gp_pA_walk t.length le_rfl h with hnil | ⟨c, t', hd, h1, h2, h3⟩ |
        ⟨p, hd, hPost⟩
      · rw [hnil, subEq_nil]
        exact Gq.nilE
      · have hlt' : t'.length ≤ n := by
          have hle := length_dropWhile_le isPySpace t
          rw [hd] at hle
          simp only [List.length_cons] at hle
          omega
        rw [hd]
        by_cases hce : c = '='
        · subst hce
          rw [subEq_cons_some (matchEqAt_eq t')]
          exact Gq.eqE ((ih t' hlt').2.1 h3)
        · rw [subEq_cons_none (matchEqAt_cons_plain t' h1 hce)]
          exact Gq.plainE ⟨h1, h2, hce⟩ ((ih t' hlt').1 h3)
      · rw [hd]
        have hm2 : matchEqAt ('|' :: ' ' :: p) = none :=
          matchEqAt_cons_plain _ (by decide) (by decide)
        rw [subEq_cons_none hm2]
        have hlp : p.length ≤ n := by
          have hle := length_dropWhile_le isPySpace t
          rw [hd] at hle
          simp only [List.length_cons] at hle
          omega
        exact Gq.pipeE ((ih p hlp).2.2.2 hPost)
    · intro h hnone
      cases h with
      | @plainW c u hns hnp hA =>
        simp only [List.length_cons] at ht
        have hce : c ≠ '=' := by
          intro he
          subst he
          rw [matchEqAt_eq] at hnone
          cases hnone
        rw [subEq_cons_none hnone]
        exact Gq.plainW ⟨hns, hnp, hce⟩ ((ih u (by omega)).1 hA)
      | @wsW w u hw hW =>
        simp only [List.length_cons] at ht
        have hmu : matchEqAt u = none := by
          rw [matchEqAt_cons_ws _ hw] at hnone
          exact hnone
        rw [subEq_cons_none hnone]
        exact Gq.wsW hw ((ih u (by omega)).2.2.1 hW hmu)
    · intro h
      cases h with
      | nilPost =>
        rw [subEq_cons_none
          (by rw [matchEqAt_cons_ws _ (by decide)]; exact matchEqAt_nil), subEq_nil]
        exact Gq.spP Gq.nilPost
      | @plainPost c u hns hnp hA =>
        simp only [List.length_cons] at ht
        by_cases hce : c = '='
        · subst hce
          have hm1 : matchEqAt (' ' :: '=' :: u) = some (List.dropWhile isPySpace u) := by
            rw [matchEqAt_cons_ws _ (by decide)]
            exact matchEqAt_eq u
          rw [subEq_cons_some hm1]
          exact Gq.eqP ((ih u (by omega)).2.1 hA)
        · have hm1 : matchEqAt (' ' :: c :: u) = none := by
            rw [matchEqAt_cons_ws _ (by decide)]
            exact matchEqAt_cons_plain u hns hce
          have hm2 : matchEqAt (c :: u) = none := matchEqAt_cons_plain u hns hce
          rw [subEq_cons_none hm1, subEq_cons_none hm2]
          exact Gq.spP (Gq.plainPost ⟨hns, hnp, hce⟩ ((ih u (by omega)).1 hA))
      | @pipePost u hPost =>
        simp only [List.length_cons] at ht
        have hm0 : matchEqAt (' ' :: ' ' :: '|' :: ' ' :: u) = none := by
          rw [matchEqAt_cons_ws _ (by decide), matchEqAt_cons_ws _ (by decide)]
          exact matchEqAt_cons_plain _ (by decide) (by decide)
        have hm1 : matchEqAt (' ' :: '|' :: ' ' :: u) = none := by
          rw [matchEqAt_cons_ws _ (by decide)]
          exact matchEqAt_cons_plain _ (by decide) (by decide)
        have hm2 : matchEqAt ('|' :: ' ' :: u) = none :=
          matchEqAt_cons_plain _ (by decide) (by decide)
        rw [subEq_cons_none hm0, subEq_cons_none hm1, subEq_cons_none hm2]
        exact Gq.spP (Gq.chainPost ((ih u (by omega)).2.2.2 hPost))

theorem subEq_subPipe_Gq {l : List Char}
    (hlw : ∀ x, l.getLast? = some x → isPySpace x = false) :
    Gq .qA (subEq (subPipe l)) :=
  (subEq_Gq_master (subPipe l).length (subPipe l) le_rfl).1 (subPipe_Gp hlw)

theorem plainC_ne_nl {c : Char} (h : plainC c) : c ≠ '\n' := by
  intro he
  subst he
  exact absurd h.1 (by decide)

theorem stripR_cons_of_stripR_cons {c d : Char} {t r : List Char}
    (h : stripR t = d :: r) : stripR (c :: t) = c :: d :: r := by
  rw [stripR_cons, h]

theorem stripR_cons_of_stripR_nil_ws {c : Char} {t : List Char}
    (hw : isPySpace c = true) (h : stripR t = []) : stripR (c :: t) = [] := by
  rw [stripR_cons, h]
  simp [hw]

theorem pyStripL_of_stripR_nil {p : List Char} (h : stripR p = []) :
    pyStripL p = [] := by
  rw [pyStripL_eq_dropWhile_stripR, h]
  rfl

theorem TailOK_nil : TailOK [] := trivial

theorem lastOK_cons {c : Char} {l : List Char}
    (hcne : c ≠ '=') (hih : ∀ x, l.getLast? = some x → x ≠ '=') :
    ∀ x, (c :: l).getLast? = some x → x ≠ '=' := by
  intro x hx
  cases l with
  | nil =>
    have hcx : c = x := by simpa using hx
    subst hcx
    exact hcne
  | cons d r =>
    rw [List.getLast?_cons_cons] at hx
    exact hih x hx

theorem TailOK_cons_of_W {p : List Char} {ps : List (List Char)}
    (hW : stripR p = [] ∨ Gr .W (stripR p))
    (hlast : ps ≠ [] → ∀ x, (stripR p).getLast? = some x → x ≠ '=')
    (hps : TailOK ps) :
    TailOK (p :: ps) := by
  refine ⟨?_, hlast, hps⟩
  rcases hW with hnil | hw
  · exact Or.inl (pyStripL_of_stripR_nil hnil)
  · obtain ⟨c, r, hd, hc, hA⟩ := Gr_W_walk (stripR p).length le_rfl hw
    right
    exact ⟨c, r, by rw [pyStripL_eq_dropWhile_stripR]; exact hd, hc,
      Gr.plainE hc hA⟩

theorem Gq_lines_master : ∀ (n : Nat) (t : List Char), t.length ≤ n →
    (Gq .qA t → ∀ p ps, splitOnChar '\n' t = p :: ps →
      Gr .A (stripR p) ∧
      (ps ≠ [] → ∀ x, (stripR p).getLast? = some x → x ≠ '=') ∧ TailOK ps) ∧
    (Gq .qE t → ∀ p ps, splitOnChar '\n' t = p :: ps →
      Gr .E (stripR p) ∧ (ps ≠ [] → stripR p ≠ []) ∧
      (ps ≠ [] → ∀ x, (stripR p).getLast? = some x → x ≠ '=') ∧ TailOK ps) ∧
    (Gq .qW t → ∀ p ps, splitOnChar '\n' t = p :: ps →
      (stripR p = [] ∨ Gr .W (stripR p)) ∧
      (ps ≠ [] → ∀ x, (stripR p).getLast? = some x → x ≠ '=') ∧ TailOK ps) ∧
    (Gq .qP t → ∀ p ps, splitOnChar '\n' t = p :: ps →
      Gr .P (stripR p) ∧
      (ps ≠ [] → ∀ x, (stripR p).getLast? = some x → x ≠ '=') ∧ TailOK ps) ∧
    (Gq .qPost t → ∀ p ps, splitOnChar '\n' t = p :: ps →
      (stripR p = [] ∨
       (∃ c r, stripR p = c :: r ∧ plainC c ∧ Gr .A r) ∨
       (∃ r, stripR p = ' ' :: '|' :: r ∧ Gr .P r)) ∧
      (ps ≠ [] → ∀ x, (stripR p).getLast? = some x → x ≠ '=') ∧ TailOK ps) := by
  intro n
  induction n with
  | zero =>
    intro t ht
    have ht0 : t = [] := List.length_eq_zero.mp (Nat.le_zero.mp ht)
    subst ht0
    refine ⟨fun h p ps hs => ?_, fun h p ps hs => ?_, fun h _ _ _ => ?_,
      fun h _ _ _ => ?_, fun h p ps hs => ?_⟩
    · injection hs with h1 h2
      subst h1; subst h2
      exact ⟨Gr.nilA, fun hne => absurd rfl hne, TailOK_nil⟩
    · injection hs with h1 h2
      subst h1; subst h2
      exact ⟨Gr.nilE, fun hne => absurd rfl hne, fun hne => absurd rfl hne,
        TailOK_nil⟩
    · cases h
    · cases h
    · injection hs with h1 h2
      subst h1; subst h2
      exact ⟨Or.inl rfl, fun hne => absurd rfl hne, TailOK_nil⟩
  | succ n ih =>
    intro t ht
    refine ⟨?_, ?_, ?_, ?_, ?_⟩
    · intro h p ps hs
      cases h with
      | nilA =>
        injection hs with h1 h2
        subst h1; subst h2
        exact ⟨Gr.nilA, fun hne => absurd rfl hne, TailOK_nil⟩
      | @plainA c u hp hA =>
        simp only [List.length_cons] at ht
        rcases hu : splitOnChar '\n' u with _ | ⟨q, qs⟩
        · exact absurd hu (splitOnChar_ne_nil _ u)
        rw [splitOnChar_cons_ne (plainC_ne_nl hp) hu] at hs
        injection hs with h1 h2
        subst h1; subst h2
        obtain ⟨hg, hlst, htl⟩ := (ih u (by omega)).1 hA q qs hu
        refine ⟨by rw [stripR_cons_of_nonws _ hp.1]; exact Gr.plainA hp hg,
          fun hne => ?_, htl⟩
        rw [stripR_cons_of_nonws _ hp.1]
        exact lastOK_cons hp.2.2 (hlst hne)
      | @eqA u hE =>
        simp only [List.length_cons] at ht
        rcases hu : splitOnChar '\n' u with _ | ⟨q, qs⟩
        · exact absurd hu (splitOnChar_ne_nil _ u)
        rw [splitOnChar_cons_ne (by decide) hu] at hs
        injection hs with h1 h2
        subst h1; subst h2
        obtain ⟨hg, hnn, hlst, htl⟩ := (ih u (by omega)).2.1 hE q qs hu
        refine ⟨by rw [stripR_cons_of_nonws _ (by decide)]; exact Gr.eqA hg,
          fun hne => ?_, htl⟩
        rw [stripR_cons_of_nonws _ (by decide)]
        intro x hx
        rw [getLast?_cons_ne_nil (hnn hne)] at hx
        exact hlst hne x hx
      | @pipeA u hP =>
        simp only [List.length_cons] at ht
        rcases hu : splitOnChar '\n' u with _ | ⟨q, qs⟩
        · exact absurd hu (splitOnChar_ne_nil _ u)
        have hsp2 := splitOnChar_cons_ne (show '|' ≠ '\n' by decide) hu
        have hsp3 := splitOnChar_cons_ne (show ' ' ≠ '\n' by decide) hsp2
        rw [hsp3] at hs
        injection hs with h1 h2
        subst h1; subst h2
        obtain ⟨hg, hlst, htl⟩ := (ih u (by omega)).2.2.2.1 hP q qs hu
        refine ⟨?_, fun hne => ?_, htl⟩
        · rw [stripR_cons_of_stripR_cons (stripR_cons_of_nonws _ (by decide))]
          exact Gr.pipeA hg
        · rw [stripR_cons_of_stripR_cons (stripR_cons_of_nonws _ (by decide))]
          exact lastOK_cons (by decide) (lastOK_cons (by decide) (hlst hne))
      | @wsA w u hw hW =>
        simp only [List.length_cons] at ht
        by_cases hnl : w = '\n'
        · subst hnl
          rw [splitOnChar_cons_sep] at hs
          injection hs with h1 h2
          subst h1; subst h2
          rcases hu : splitOnChar '\n' u with _ | ⟨q, qs⟩
          · exact absurd hu (splitOnChar_ne_nil _ u)
          obtain ⟨hg, hlst, htl⟩ := (ih u (by omega)).2.2.1 hW q qs hu
          exact ⟨Gr.nilA, fun _ x hx => absurd hx (by simp [stripR]),
            TailOK_cons_of_W hg hlst htl⟩
        · rcases hu : splitOnChar '\n' u with _ | ⟨q, qs⟩
          · exact absurd hu (splitOnChar_ne_nil _ u)
          rw [splitOnChar_cons_ne hnl hu] at hs
          injection hs with h1 h2
          subst h1; subst h2
          obtain ⟨hg, hlst, htl⟩ := (ih u (by omega)).2.2.1 hW q qs hu
          have hlast2 : qs ≠ [] → ∀ x, (stripR (w :: q)).getLast? = some x →
              x ≠ '=' := by
            intro hne
            rcases hsq : stripR q with _ | ⟨d, r⟩
            · rw [stripR_cons_of_stripR_nil_ws hw hsq]
              intro x hx
              exact absurd hx (by simp)
            · rw [stripR_cons_of_stripR_cons hsq]
              have hl2 := hlst hne
              rw [hsq] at hl2
              exact lastOK_cons (pySpace_ne_eqch hw) hl2
          rcases hg with hnil | hGW
          · exact ⟨by rw [stripR_cons_of_stripR_nil_ws hw hnil]; exact Gr.nilA,
              hlast2, htl⟩
          · rcases hq : stripR q with _ | ⟨d, r⟩
            · rw [hq] at hGW
              exact absurd rfl (Gr_W_ne_nil hGW)
            · rw [hq] at hGW
              refine ⟨?_, hlast2, htl⟩
              rw [stripR_cons_of_stripR_cons hq]
              exact Gr.wsA ⟨hw, hnl⟩ hGW
    · intro h p ps hs
      cases h with
      | nilE =>
        injection hs with h1 h2
        subst h1; subst h2
        exact ⟨Gr.nilE, fun hne => absurd rfl hne, fun hne => absurd rfl hne,
          TailOK_nil⟩
      | @plainE c u hp hA =>
        simp only [List.length_cons] at ht
        rcases hu : splitOnChar '\n' u with _ | ⟨q, qs⟩
        · exact absurd hu (splitOnChar_ne_nil _ u)
        rw [splitOnChar_cons_ne (plainC_ne_nl hp) hu] at hs
        injection hs with h1 h2
        subst h1; subst h2
        obtain ⟨hg, hlst, htl⟩ := (ih u (by omega)).1 hA q qs hu
        have hnn2 : stripR (c :: q) ≠ [] := by
          rw [stripR_cons_of_nonws _ hp.1]
          exact List.cons_ne_nil _ _
        refine ⟨by rw [stripR_cons_of_nonws _ hp.1]; exact Gr.plainE hp hg,
          fun _ => hnn2, fun hne => ?_, htl⟩
        rw [stripR_cons_of_nonws _ hp.1]
        exact lastOK_cons hp.2.2 (hlst hne)
      | @eqE u hE =>
        simp only [List.length_cons] at ht
        rcases hu : splitOnChar '\n' u with _ | ⟨q, qs⟩
        · exact absurd hu (splitOnChar_ne_nil _ u)
        rw [splitOnChar_cons_ne (by decide) hu] at hs
        injection hs with h1 h2
        subst h1; subst h2
        obtain ⟨hg, hnn, hlst, htl⟩ := (ih u (by omega)).2.1 hE q qs hu
        have hnn2 : stripR ('=' :: q) ≠ [] := by
          rw [stripR_cons_of_nonws _ (by decide)]
          exact List.cons_ne_nil _ _
        refine ⟨by rw [stripR_cons_of_nonws _ (by decide)]; exact Gr.eqE hg,
          fun _ => hnn2, fun hne => ?_, htl⟩
        rw [stripR_cons_of_nonws _ (by decide)]
        intro x hx
        rw [getLast?_cons_ne_nil (hnn hne)] at hx
        exact hlst hne x hx
      | @pipeE u hP =>
        simp only [List.length_cons] at ht
        rcases hu : splitOnChar '\n' u with _ | ⟨q, qs⟩
        · exact absurd hu (splitOnChar_ne_nil _ u)
        rw [splitOnChar_cons_ne (by decide) hu] at hs
        injection hs with h1 h2
        subst h1; subst h2
        obtain ⟨hg, hlst, htl⟩ := (ih u (by omega)).2.2.2.1 hP q qs hu
        have hnn2 : stripR ('|' :: q) ≠ [] := by
          rw [stripR_cons_of_nonws _ (by decide)]
          exact List.cons_ne_nil _ _
        refine ⟨by rw [stripR_cons_of_nonws _ (by decide)]; exact Gr.pipeE hg,
          fun _ => hnn2, fun hne => ?_, htl⟩
        rw [stripR_cons_of_nonws _ (by decide)]
        exact lastOK_cons (by decide) (hlst hne)
    · intro h p ps hs
      cases h with
      | @plainW c u hp hA =>
        simp only [List.length_cons] at ht
        rcases hu : splitOnChar '\n' u with _ | ⟨q, qs⟩
        · exact absurd hu (splitOnChar_ne_nil _ u)
        rw [splitOnChar_cons_ne (plainC_ne_nl hp) hu] at hs
        injection hs with h1 h2
        subst h1; subst h2
        obtain ⟨hg, hlst, htl⟩ := (ih u (by omega)).1 hA q qs hu
        refine ⟨Or.inr ?_, fun hne => ?_, htl⟩
        · rw [stripR_cons_of_nonws _ hp.1]
          exact Gr.plainW hp hg
        · rw [stripR_cons_of_nonws _ hp.1]
          exact lastOK_cons hp.2.2 (hlst hne)
      | @wsW w u hw hW =>
        simp only [List.length_cons] at ht
        by_cases hnl : w = '\n'
        · subst hnl
          rw [splitOnChar_cons_sep] at hs
          injection hs with h1 h2
          subst h1; subst h2
          rcases hu : splitOnChar '\n' u with _ | ⟨q, qs⟩
          · exact absurd hu (splitOnChar_ne_nil _ u)
          obtain ⟨hg, hlst, htl⟩ := (ih u (by omega)).2.2.1 hW q qs hu
          exact ⟨Or.inl rfl, fun _ x hx => absurd hx (by simp [stripR]),
            TailOK_cons_of_W hg hlst htl⟩
        · rcases hu : splitOnChar '\n' u with _ | ⟨q, qs⟩
          · exact absurd hu (splitOnChar_ne_nil _ u)
          rw [splitOnChar_cons_ne hnl hu] at hs
          injection hs with h1 h2
          subst h1; subst h2
          obtain ⟨hg, hlst, htl⟩ := (ih u (by omega)).2.2.1 hW q qs hu
          have hlast2 : qs ≠ [] → ∀ x, (stripR (w :: q)).getLast? = some x →
              x ≠ '=' := by
            intro hne
            rcases hsq : stripR q with _ | ⟨d, r⟩
            · rw [stripR_cons_of_stripR_nil_ws hw hsq]
              intro x hx
              exact absurd hx (by simp)
            · rw [stripR_cons_of_stripR_cons hsq]
              have hl2 := hlst hne
              rw [hsq] at hl2
              exact lastOK_cons (pySpace_ne_eqch hw) hl2
          rcases hg with hnil | hGW
          · exact ⟨Or.inl (stripR_cons_of_stripR_nil_ws hw hnil), hlast2, htl⟩
          · rcases hq : stripR q with _ | ⟨d, r⟩
            · rw [hq] at hGW
              exact absurd rfl (Gr_W_ne_nil hGW)
            · rw [hq] at hGW
              refine ⟨Or.inr ?_, hlast2, htl⟩
              rw [stripR_cons_of_stripR_cons hq]
              exact Gr.wsW ⟨hw, hnl⟩ hGW
    · intro h p ps hs
      cases h with
      | @eqP u hE =>
        simp only [List.length_cons] at ht
        rcases hu : splitOnChar '\n' u with _ | ⟨q, qs⟩
        · exact absurd hu (splitOnChar_ne_nil _ u)
        rw [splitOnChar_cons_ne (by decide) hu] at hs
        injection hs with h1 h2
        subst h1; subst h2
        obtain ⟨hg, hnn, hlst, htl⟩ := (ih u (by omega)).2.1 hE q qs hu
        refine ⟨by rw [stripR_cons_of_nonws _ (by decide)]; exact Gr.eqP hg,
          fun hne => ?_, htl⟩
        rw [stripR_cons_of_nonws _ (by decide)]
        intro x hx
        rw [getLast?_cons_ne_nil (hnn hne)] at hx
        exact hlst hne x hx
      | @spP u hPost =>
        simp only [List.length_cons] at ht
        rcases hu : splitOnChar '\n' u with _ | ⟨q, qs⟩
        · exact absurd hu (splitOnChar_ne_nil _ u)
        rw [splitOnChar_cons_ne (by decide) hu] at hs
        injection hs with h1 h2
        subst h1; subst h2
        obtain ⟨hg, hlst, htl⟩ := (ih u (by omega)).2.2.2.2 hPost q qs hu
        have hlast2 : qs ≠ [] → ∀ x, (stripR (' ' :: q)).getLast? = some x →
            x ≠ '=' := by
          intro hne
          rcases hsq : stripR q with _ | ⟨d, r⟩
          · rw [stripR_cons_of_stripR_nil_ws (by decide) hsq]
            intro x hx
            exact absurd hx (by simp)
          · rw [stripR_cons_of_stripR_cons hsq]
            have hl2 := hlst hne
            rw [hsq] at hl2
            exact lastOK_cons (by decide) hl2
        rcases hg with hnil | ⟨c, r, hq, hc, hA⟩ | ⟨r, hq, hP⟩
        · refine ⟨?_, hlast2, htl⟩
          rw [stripR_cons_of_stripR_nil_ws (by decide) hnil]
          exact Gr.nilP
        · exact ⟨by rw [stripR_cons_of_stripR_cons hq]; exact Gr.spP hc hA,
            hlast2, htl⟩
        · exact ⟨by rw [stripR_cons_of_stripR_cons hq]; exact Gr.chainP hP,
            hlast2, htl⟩
    · intro h p ps hs
      cases h with
      | nilPost =>
        injection hs with h1 h2
        subst h1; subst h2
        exact ⟨Or.inl rfl, fun hne => absurd rfl hne, TailOK_nil⟩
      | @plainPost c u hp hA =>
        simp only [List.length_cons] at ht
        rcases hu : splitOnChar '\n' u with _ | ⟨q, qs⟩
        · exact absurd hu (splitOnChar_ne_nil _ u)
        rw [splitOnChar_cons_ne (plainC_ne_nl hp) hu] at hs
        injection hs with h1 h2
        subst h1; subst h2
        obtain ⟨hg, hlst, htl⟩ := (ih u (by omega)).1 hA q qs hu
        refine ⟨Or.inr (Or.inl ⟨c, stripR q, ?_, hp, hg⟩), fun hne => ?_, htl⟩
        · rw [stripR_cons_of_nonws _ hp.1]
        · rw [stripR_cons_of_nonws _ hp.1]
          exact lastOK_cons hp.2.2 (hlst hne)
      | @chainPost u hP =>
        simp only [List.length_cons] at ht
        rcases hu : splitOnChar '\n' u with _ | ⟨q, qs⟩
        · exact absurd hu (splitOnChar_ne_nil _ u)
        have hsp2 := splitOnChar_cons_ne (show '|' ≠ '\n' by decide) hu
        have hsp3 := splitOnChar_cons_ne (show ' ' ≠ '\n' by decide) hsp2
        rw [hsp3] at hs
        injection hs with h1 h2
        subst h1; subst h2
        obtain ⟨hg, hlst, htl⟩ := (ih u (by omega)).2.2.2.1 hP q qs hu
        refine ⟨Or.inr (Or.inr ⟨stripR q, ?_, hg⟩), fun hne => ?_, htl⟩
        · rw [stripR_cons_of_stripR_cons (stripR_cons_of_nonws _ (by decide))]
        · rw [stripR_cons_of_stripR_cons (stripR_cons_of_nonws _ (by decide))]
          exact lastOK_cons (by decide) (lastOK_cons (by decide) (hlst hne))

theorem Gr_A_dropWhile_E {t : List Char} (h : Gr .A t) :
    Gr .E (List.dropWhile isPySpace t) := by
  cases h with
  | nilA => exact Gr.nilE
  | @plainA c u hp hA =>
    rw [dropWhile_cons_neg _ hp.1]
    exact Gr.plainE hp hA
  | @eqA u hE =>
    rw [dropWhile_cons_neg _ (by decide)]
    exact Gr.eqE hE
  | @pipeA u hP =>
    rw [dropWhile_cons_pos _ (by decide), dropWhile_cons_neg _ (by decide)]
    exact Gr.pipeE hP
  | @wsA w u hw hW =>
    rw [dropWhile_cons_pos _ hw.1]
    obtain ⟨c, r, hd, hc, hA⟩ := Gr_W_walk u.length le_rfl hW
    rw [hd]
    exact Gr.plainE hc hA

theorem Gr_E_plain_inv {c : Char} {r : List Char} (h : Gr .E (c :: r))
    (hc : plainC c) : Gr .A r := by
  cases h with
  | plainE _ hA => exact hA
  | eqE _ => exact absurd rfl hc.2.2
  | pipeE _ => exact absurd rfl hc.2.1

theorem lastNE_tail {c : Char} {u : List Char}
    (h : ∀ x, (c :: u).getLast? = some x → x ≠ '=') :
    ∀ x, u.getLast? = some x → x ≠ '=' := by
  intro x hx
  rcases u with _ | ⟨d, r⟩
  · exact absurd hx (by simp)
  · exact h x (by rw [List.getLast?_cons_cons]; exact hx)

theorem Gr_append_space {c : Char} {t : List Char} (hc : plainC c) (hA : Gr .A t) :
    ∀ {s : GSt} {u : List Char}, Gr s u →
      (∀ x, u.getLast? = some x → x ≠ '=') → (s = .E → u ≠ []) →
      Gr s (u ++ ' ' :: c :: t) := by
  intro s u h
  induction h with
  | nilE =>
    intro _ hE
    exact absurd rfl (hE rfl)
  | nilA =>
    intro _ _
    exact Gr.wsA ⟨by decide, by decide⟩ (Gr.plainW hc hA)
  | nilP =>
    intro _ _
    exact Gr.spP hc hA
  | @plainE d u' hp hA' ih =>
    intro hlast _
    exact Gr.plainE hp (ih (lastNE_tail hlast) (fun hEq => absurd hEq (by decide)))
  | @eqE u' hE' ih =>
    intro hlast _
    have hu' : u' ≠ [] := by
      intro h0
      subst h0
      exact absurd rfl (hlast '=' (by simp))
    exact Gr.eqE (ih (lastNE_tail hlast) (fun _ => hu'))
  | @pipeE u' hP' ih =>
    intro hlast _
    exact Gr.pipeE (ih (lastNE_tail hlast) (fun hEq => absurd hEq (by decide)))
  | @plainA d u' hp hA' ih =>
    intro hlast _
    exact Gr.plainA hp (ih (lastNE_tail hlast) (fun hEq => absurd hEq (by decide)))
  | @eqA u' hE' ih =>
    intro hlast _
    have hu' : u' ≠ [] := by
      intro h0
      subst h0
      exact absurd rfl (hlast '=' (by simp))
    exact Gr.eqA (ih (lastNE_tail hlast) (fun _ => hu'))
  | @pipeA u' hP' ih =>
    intro hlast _
    exact Gr.pipeA (ih (lastNE_tail (lastNE_tail hlast))
      (fun hEq => absurd hEq (by decide)))
  | @wsA w u' hw hW' ih =>
    intro hlast _
    exact Gr.wsA hw (ih (lastNE_tail hlast) (fun hEq => absurd hEq (by decide)))
  | @plainW d u' hp hA' ih =>
    intro hlast _
    exact Gr.plainW hp (ih (lastNE_tail hlast) (fun hEq => absurd hEq (by decide)))
  | @wsW w u' hw hW' ih =>
    intro hlast _
    exact Gr.wsW hw (ih (lastNE_tail hlast) (fun hEq => absurd hEq (by decide)))
  | @eqP u' hE' ih =>
    intro hlast _
    have hu' : u' ≠ [] := by
      intro h0
      subst h0
      exact absurd rfl (hlast '=' (by simp))
    exact Gr.eqP (ih (lastNE_tail hlast) (fun _ => hu'))
  | @spP d u' hp hA' ih =>
    intro hlast _
    exact Gr.spP hp (ih (lastNE_tail (lastNE_tail hlast))
      (fun hEq => absurd hEq (by decide)))
  | @chainP u' hP' ih =>
    intro hlast _
    exact Gr.chainP (ih (lastNE_tail (lastNE_tail (lastNE_tail hlast)))
      (fun hEq => absurd hEq (by decide)))

theorem getLast?_pyStripL (l : List Char) (h : pyStripL l ≠ []) :
    (pyStripL l).getLast? = (stripR l).getLast? := by
  have hd : pyStripL l = List.dropWhile isPySpace (stripR l) :=
    pyStripL_eq_dropWhile_stripR l
  have hsplit : stripR l = List.takeWhile isPySpace (stripR l) ++
      List.dropWhile isPySpace (stripR l) :=
    (List.takeWhile_append_dropWhile isPySpace (stripR l)).symm
  rw [hd]
  conv_rhs => rw [hsplit]
  rw [getLast?_append_right (by rw [← hd]; exact h)]

theorem isPrefixL_pipe_false {c : Char} (r : List Char) (hc : c ≠ '|') :
    isPrefixL ['|'] (c :: r) = false := by
  simp [isPrefixL]
  exact fun h => hc h.symm

theorem joinClean_fold : ∀ (ls : List (List Char)) (acc : List Char),
    Gr .E acc → acc ≠ [] →
    (ls ≠ [] → ∀ x, acc.getLast? = some x → x ≠ '=') →
    KeptOK ls →
    Gr .E (ls.foldl (fun acc line =>
      if isPrefixL ['|'] (pyStripL line) then acc ++ '\n' :: line
      else acc ++ ' ' :: line) acc) ∧
    ls.foldl (fun acc line =>
      if isPrefixL ['|'] (pyStripL line) then acc ++ '\n' :: line
      else acc ++ ' ' :: line) acc ≠ [] := by
  intro ls
  induction ls with
  | nil =>
    intro acc hG hne _ _
    exact ⟨hG, hne⟩
  | cons l rest ih =>
    intro acc hG hne hlast hkept
    have hkept2 : (∃ c r, l = c :: r ∧ plainC c ∧ Gr .E l ∧
        (rest ≠ [] → ∀ x, l.getLast? = some x → x ≠ '=')) ∧ KeptOK rest := hkept
    obtain ⟨⟨c, r, hlr, hc, hE, hl⟩, hkrest⟩ := hkept2
    subst hlr
    have hself : pyStripL (c :: r) = c :: r :=
      pyStripL_eq_self (Gr_E_headNW hE) (Gr_lastNW hE)
    have htest : isPrefixL ['|'] (pyStripL (c :: r)) = false := by
      rw [hself]
      exact isPrefixL_pipe_false r hc.2.1
    rw [List.foldl_cons, if_neg (by rw [htest]; exact Bool.false_ne_true)]
    have hGacc : Gr .E (acc ++ ' ' :: c :: r) :=
      Gr_append_space hc (Gr_E_plain_inv hE hc) hG
        (hlast (List.cons_ne_nil _ _)) (fun _ => hne)
    have hne' : acc ++ ' ' :: c :: r ≠ [] := by simp
    have hlast' : rest ≠ [] → ∀ x, (acc ++ ' ' :: c :: r).getLast? = some x →
        x ≠ '=' := by
      intro hrne x hx
      rw [getLast?_append_right (List.cons_ne_nil _ _)] at hx
      rw [List.getLast?_cons_cons] at hx
      exact hl hrne x hx
    exact ih _ hGacc hne' hlast' hkrest

theorem joinClean_Gr {k0 : List Char} {krest : List (List Char)}
    (hE0 : Gr .E k0) (hne0 : k0 ≠ [])
    (hl0 : krest ≠ [] → ∀ x, k0.getLast? = some x → x ≠ '=')
    (hk : KeptOK krest) :
    Gr .E (joinClean (k0 :: krest)) ∧ joinClean (k0 :: krest) ≠ [] := by
  cases krest with
  | nil => exact ⟨hE0, hne0⟩
  | cons k1 ks1 =>
    exact joinClean_fold (k1 :: ks1) k0 hE0 hne0
      (fun _ => hl0 (List.cons_ne_nil _ _)) hk

theorem filterMap_cons_none {α β : Type} {f : α → Option β} {a : α} {l : List α}
    (h : f a = none) : (a :: l).filterMap f = l.filterMap f := by
  rw [List.filterMap_cons, h]

theorem filterMap_cons_some {α β : Type} (f : α → Option β) {a : α} {b : β}
    {l : List α} (h : f a = some b) :
    (a :: l).filterMap f = b :: l.filterMap f := by
  rw [List.filterMap_cons, h]

theorem TailOK_filterMap : ∀ {ps : List (List Char)}, TailOK ps →
    KeptOK (ps.filterMap (fun line =>
      let ls := pyStripL line
      if isProseOrEmpty ls then none else some ls)) := by
  intro ps
  induction ps with
  | nil =>
    intro _
    trivial
  | cons l ls ih =>
    intro h
    have h2 : (pyStripL l = [] ∨ ∃ c r, pyStripL l = c :: r ∧ plainC c ∧
        Gr .E (c :: r)) ∧
        (ls ≠ [] → ∀ x, (stripR l).getLast? = some x → x ≠ '=') ∧ TailOK ls := h
    obtain ⟨helem, hlst, htail⟩ := h2
    by_cases hdrop : isProseOrEmpty (pyStripL l) = true
    · rw [filterMap_cons_none (by simp [hdrop])]
      exact ih htail
    · have hfs : (fun line =>
          let ls := pyStripL line
          if isProseOrEmpty ls then none else some ls) l = some (pyStripL l) := by
        simp [hdrop]
      rw [@filterMap_cons_some (List Char) (List Char) (fun line =>
        let ls := pyStripL line
        if isProseOrEmpty ls then none else some ls) l (pyStripL l) ls hfs]
      rcases helem with hnil | ⟨c, r, hq, hc, hE⟩
      · exfalso
        apply hdrop
        rw [hnil]
        decide
      refine ⟨⟨c, r, hq, hc, ?_, ?_⟩, ih htail⟩
      · rw [hq]
        exact hE
      · intro hkne x hx
        have hlsne : ls ≠ [] := by
          intro h0
          subst h0
          simp at hkne
        rw [getLast?_pyStripL l (by rw [hq]; exact List.cons_ne_nil _ _)] at hx
        exact hlst hlsne x hx

theorem cleanSplLines_join_Gr {M : List Char} (hq : Gq .qA M) :
    joinClean (cleanSplLines M) = [] ∨
    (Gr .E (joinClean (cleanSplLines M)) ∧ joinClean (cleanSplLines M) ≠ []) := by
  rcases hlines : splitOnChar '\n' M with _ | ⟨p0, ps⟩
  · exact absurd hlines (splitOnChar_ne_nil _ M)
  obtain ⟨hA0, hlast0, htail⟩ :=
    (Gq_lines_master M.length M le_rfl).1 hq p0 ps hlines
  have hkept := TailOK_filterMap htail
  have hcl : cleanSplLines M = List.filterMap (fun line =>
      let ls := pyStripL line
      if isProseOrEmpty ls then none else some ls) (p0 :: ps) := by
    unfold cleanSplLines
    rw [hlines]
  by_cases hdrop : isProseOrEmpty (pyStripL p0) = true
  · rw [hcl, filterMap_cons_none (by simp [hdrop])]
    rcases hks : List.filterMap (fun line =>
        let ls := pyStripL line
        if isProseOrEmpty ls then none else some ls) ps with _ | ⟨k0, krest⟩
    · left
      rfl
    · rw [hks] at hkept
      have hk2 : (∃ c r, k0 = c :: r ∧ plainC c ∧ Gr .E k0 ∧
          (krest ≠ [] → ∀ x, k0.getLast? = some x → x ≠ '=')) ∧
          KeptOK krest := hkept
      obtain ⟨⟨c, r, hk0, hc, hE0, hl0⟩, hkrest⟩ := hk2
      right
      exact joinClean_Gr hE0 (by rw [hk0]; exact List.cons_ne_nil _ _) hl0 hkrest
  · have hkne : pyStripL p0 ≠ [] := by
      intro h0
      rw [h0] at hdrop
      exact hdrop (by decide)
    have hE0 : Gr .E (pyStripL p0) := by
      rw [pyStripL_eq_dropWhile_stripR]
      exact Gr_A_dropWhile_E hA0
    have hfs : (fun line =>
        let ls := pyStripL line
        if isProseOrEmpty ls then none else some ls) p0 = some (pyStripL p0) := by
      simp [hdrop]
    rw [hcl, @filterMap_cons_some (List Char) (List Char) (fun line =>
      let ls := pyStripL line
      if isProseOrEmpty ls then none else some ls) p0 (pyStripL p0) ps hfs]
    right
    refine joinClean_Gr hE0 hkne ?_ hkept
    intro hkrne x hx
    have hpsne : ps ≠ [] := by
      intro h0
      subst h0
      simp at hkrne
    rw [getLast?_pyStripL p0 hkne] at hx
    exact hlast0 hpsne x hx

theorem stripR_lastNW {l : List Char} :
    ∀ x, (stripR l).getLast? = some x → isPySpace x = false := by
  intro x hx
  rw [← stripR_eq_rev] at hx
  rw [List.getLast?_reverse] at hx
  cases hd : List.dropWhile isPySpace l.reverse with
  | nil =>
    rw [hd] at hx
    exact absurd hx (by simp)
  | cons c r =>
    rw [hd] at hx
    injection hx with h2
    subst h2
    exact dropWhile_head_neg hd

theorem pyStripL_lastNW {l : List Char} :
    ∀ x, (pyStripL l).getLast? = some x → isPySpace x = false := by
  intro x hx
  rcases hp : pyStripL l with _ | ⟨c, r⟩
  · rw [hp] at hx
    exact absurd hx (by simp)
  · rw [getLast?_pyStripL l (by rw [hp]; exact List.cons_ne_nil _ _)] at hx
    exact stripR_lastNW x hx

theorem noTriple_cleanSplLines {M : List Char} (h : noTriple M) :
    ∀ k ∈ cleanSplLines M, noTriple k := by
  intro k hk
  unfold cleanSplLines at hk
  rw [List.mem_filterMap] at hk
  obtain ⟨line, hline, hf⟩ := hk
  have hkval : k = pyStripL line := by
    by_cases hd : isProseOrEmpty (pyStripL line) = true
    · simp [hd] at hf
    · simp [hd] at hf
      exact hf.symm
  subst hkval
  obtain ⟨a, b, hab⟩ := splitOnChar_mem_infix hline
  exact noTriple_pyStripL (noTriple_mid (hab ▸ h))

theorem noTriple_joinClean_list : ∀ (ls : List (List Char)),
    (∀ k ∈ ls, noTriple k) → noTriple (joinClean ls) := by
  have hfold : ∀ (ks : List (List Char)) (acc : List Char),
      noTriple acc → (∀ k ∈ ks, noTriple k) →
      noTriple (ks.foldl (fun acc line =>
        if isPrefixL ['|'] (pyStripL line) then acc ++ '\n' :: line
        else acc ++ ' ' :: line) acc) := by
    intro ks
    induction ks with
    | nil =>
      intro acc ha _
      exact ha
    | cons k kt ih =>
      intro acc ha hk
      rw [List.foldl_cons]
      by_cases ht : isPrefixL ['|'] (pyStripL k) = true
      · rw [if_pos ht]
        exact ih _ (noTriple_append_sep ha (hk k (by simp)) (by decide))
          (fun x hx => hk x (List.mem_cons_of_mem _ hx))
      · rw [if_neg ht]
        exact ih _ (noTriple_append_sep ha (hk k (by simp)) (by decide))
          (fun x hx => hk x (List.mem_cons_of_mem _ hx))
  intro ls
  match ls with
  | [] => intro _; exact noTriple_nil
  | [l] => intro h; exact h l (by simp)
  | l :: l2 :: rest =>
    intro h
    exact hfold (l2 :: rest) l (h l (by simp))
      (fun x hx => h x (List.mem_cons_of_mem _ hx))

theorem noTriple_joinClean {M : List Char} (h : noTriple M) :
    noTriple (joinClean (cleanSplLines M)) :=
  noTriple_joinClean_list _ (noTriple_cleanSplLines h)

theorem subLimit_ne_nil {l : List Char} (h : l ≠ []) : subLimit l ≠ [] := by
  rcases l with _ | ⟨c, cs⟩
  · exact absurd rfl h
  · unfold subLimit
    rw [show (c :: cs).length = cs.length + 1 from rfl, subLimitGo_step]
    split
    · exact List.cons_ne_nil _ _
    · exact List.cons_ne_nil _ _

theorem cleanSplOutput_shape (s : String) :
    (cleanSplOutput s).data = [] ∨
    (Gr .E (cleanSplOutput s).data ∧
     hasLimitMatch (cleanSplOutput s).data = false ∧
     noTriple (cleanSplOutput s).data ∧
     (cleanSplOutput s).data ≠ []) := by
  rw [cleanSplOutput_eq, data_mk]
  have hnt1 : noTriple (subFence1 s.data) := subFence1_noTriple s.data
  have hf2 : subFence2 (subFence1 s.data) = subFence1 s.data := subFence2_id hnt1
  rw [hf2]
  have hntX : noTriple (pyStripL (subFence1 s.data)) := noTriple_pyStripL hnt1
  have hqM : Gq .qA (subEq (subPipe (pyStripL (subFence1 s.data)))) :=
    subEq_subPipe_Gq (fun x hx => pyStripL_lastNW x hx)
  have hntM : noTriple (subEq (subPipe (pyStripL (subFence1 s.data)))) :=
    subEq_noTriple (subPipe_noTriple hntX)
  rcases cleanSplLines_join_Gr hqM with hJnil | ⟨hJE, hJne⟩
  · left
    rw [hJnil]
    rfl
  · right
    have hJstr := Gr_stripped hJE
    rw [hJstr]
    have hntJ : noTriple (joinClean (cleanSplLines (subEq (subPipe
        (pyStripL (subFence1 s.data)))))) := noTriple_joinClean hntM
    exact ⟨(subLimit_grammar _ _ le_rfl).1.1 hJE,
      subLimitGo_no_match _ _ le_rfl,
      subLimit_noTriple hntJ,
      subLimit_ne_nil hJne⟩

theorem cleanSplOutput_fixed {out : List Char} (hE : Gr .E out)
    (hnlm : hasLimitMatch out = false) (hnt : noTriple out)
    (hprose : proseInitial out = false) (hne : out ≠ []) :
    cleanSplOutput ⟨out⟩ = ⟨out⟩ := by
  rw [cleanSplOutput_eq, data_mk]
  rw [subFence1_id hnt, subFence2_id hnt, Gr_stripped hE]
  have hnonl : '\n' ∉ subEq (subPipe out) := Gr_no_nl_subEq_subPipe hE
  have hsplit : splitOnChar '\n' (subEq (subPipe out)) = [subEq (subPipe out)] :=
    splitOnChar_eq_single (fun c hc => by intro he; subst he; exact hnonl hc)
  have hps : pyStripL (subEq (subPipe out)) = out := Gr_pyStrip_subEq_subPipe hE
  have hpe : isProseOrEmpty out = false := by
    unfold isProseOrEmpty
    rw [show proseStarts.any (fun p => isPrefixL p.data out) = false from hprose,
      Bool.false_or]
    rcases out with _ | ⟨c, r⟩
    · exact absurd rfl hne
    · rfl
  have hfs : (fun line =>
      let ls := pyStripL line
      if isProseOrEmpty ls then none else some ls) (subEq (subPipe out)) =
      some out := by
    show (if isProseOrEmpty (pyStripL (subEq (subPipe out)))
        then none else some (pyStripL (subEq (subPipe out)))) = some out
    rw [hps, hpe]
    rfl
  have hcl : cleanSplLines (subEq (subPipe out)) = [out] := by
    unfold cleanSplLines
    rw [hsplit]
    rw [@filterMap_cons_some (List Char) (List Char) (fun line =>
      let ls := pyStripL line
      if isProseOrEmpty ls then none else some ls) (subEq (subPipe out)) out
      [] hfs]
    rfl
  rw [hcl]
  rw [show pyStripL (joinClean [out]) = out from by
    rw [show joinClean [out] = out from rfl]
    exact Gr_stripped hE]
  rw [subLimit_id_no_match hnlm]

set_option maxHeartbeats 3200000 in
/-- C5 counterexample: `_clean_spl_output` is not idempotent. On the input
`"This\nquery index=main"` the first pass joins the two kept lines with a
space, producing `"This query index=main"`; the second pass drops that
entire line because it now starts with the explanatory-line marker
`"This query"`, returning the empty string. -/
theorem clean_spl_output_not_idempotent :
    cleanSplOutput (cleanSplOutput "This\nquery index=main") ≠
      cleanSplOutput "This\nquery index=main" := by
  decide

theorem string_eta (x : String) : x = ⟨x.data⟩ := rfl

set_option maxHeartbeats 3200000 in
/-- C5 (amended): `_clean_spl_output` is idempotent on every input whose
cleaned output does not itself begin with one of the dropped
explanatory-line markers: if `proseInitial` is false on the output of one
pass, a second pass returns it unchanged. -/
theorem clean_spl_output_idempotent_unless_prose (s : String)
    (h : proseInitial (cleanSplOutput s).data = false) :
    cleanSplOutput (cleanSplOutput s) = cleanSplOutput s := by
  rcases cleanSplOutput_shape s with hnil | ⟨hE, hnlm, hnt, hne⟩
  · rw [string_eta (cleanSplOutput s), hnil]
    rfl
  · rw [string_eta (cleanSplOutput s)]
    exact cleanSplOutput_fixed hE hnlm hnt h hne

set_option maxHeartbeats 3200000 in
/-- Witness for the amended C5 theorem at a concrete input: the cleaned
output of `"index=main | limit 5\nExplanation: x"` does not start with a
prose marker, and cleaning twice equals cleaning once. -/
theorem clean_spl_output_idempotent_unless_prose_witness :
    proseInitial (cleanSplOutput "index=main | limit 5\nExplanation: x").data =
      false ∧
    cleanSplOutput (cleanSplOutput "index=main | limit 5\nExplanation: x") =
      cleanSplOutput "index=main | limit 5\nExplanation: x" :=
  ⟨by decide, clean_spl_output_idempotent_unless_prose _ (by decide)⟩

end SplService
